import Mathlib

/-!
# A FAT-style file system over a block device (`src/fs.c`)

Shallow embedding of the in-memory engine of `fs.c`: the super-block counters,
the directory, the allocation table, the descriptor table and the device
blocks form one explicit `State`; every API function of the source becomes a
function on that state.

* `BLOCK_SIZE` and `DISK_BLOCKS` come from `disk.h`, which is not part of the
  sources at hand; they are parameters (`B`, `N`) of every definition.
* `int`, `off_t` values are `Int`; `size_t` values are `Nat`; the two
  conversions to `size_t` the source performs on a difference are explicit
  (`toSizeT`).
* An access to `my_fat` or to the device outside `0 .. DISK_BLOCKS - 1` has no
  defined behaviour in C; the functions that can perform one return `Option`
  and yield `none` there (and where a loop would not terminate).
* `make_fs` and `umount_fs` move records between memory and blocks with
  `memcpy`; the sizes and bytes involved are the fields of a `Layout`, and the
  content of freshly allocated memory is an argument. `mount_fs` rebuilds
  records from bytes through pointers it never sets; what the memory holds
  when it is called is an argument as well.
-/

namespace FS

/-! ## Constants and records -/

/-- A `char` of a block or of a caller's buffer. -/
abbrev Byte := Nat

/-- `#define NUM_BLOCKS 4096` -/
abbrev NUM_BLOCKS : Nat := 4096

/-- `#define MAX_FILE_SIZE NUM_BLOCKS * BLOCK_SIZE` -/
abbrev MAX_FILE_SIZE (B : Nat) : Nat := NUM_BLOCKS * B

/-- `#define MAX_NUM_FILES 64` -/
abbrev MAX_NUM_FILES : Nat := 64

/-- `#define MAX_SIZE_FILENAME 15` -/
abbrev MAX_SIZE_FILENAME : Nat := 15

/-- `#define MAX_NUM_FD 32` -/
abbrev MAX_NUM_FD : Nat := 32

/-- `#define UNASSIGNED -1` -/
abbrev UNASSIGNED : Int := -1

/-- The largest value of an `int` (32 bit), the type of `file_size` and of the
value of `MAX_FILE_SIZE`. -/
abbrev INT_MAX : Int := 2147483647

/-- `directory_t`: one slot of the flat directory. -/
structure directory_t where
  file_name : String
  file_size : Int
  first_block_num : Int
  total_fds : Int
  busy : Bool
  deriving DecidableEq, Repr

/-- `fat_t`: one entry of the allocation table. -/
structure fat_t where
  busy : Bool
  next : Int
  deriving DecidableEq, Repr

/-- `fd_t`: an open descriptor. -/
structure fd_t where
  file_name : String
  dir_index : Nat
  offset : Int
  deriving DecidableEq, Repr

/-- The global state: the fields of `super_block_t` (with the directory and the
allocation table it points to), the descriptor table `my_fds` and the blocks of
the device. `disk b j` is byte `j` of block `b`. -/
structure State where
  dir_start_block : Int
  dir_size : Int
  fat_start_block : Int
  fat_total_blocks : Int
  total_data_storage : Int
  avail_data_blocks : Int
  my_directory : Nat → directory_t
  my_fat : Nat → fat_t
  my_fds : Nat → Option fd_t
  disk : Nat → Nat → Byte

/-- Array store `a[i] = v`. -/
def upd {α : Type} (f : Nat → α) (i : Nat) (v : α) : Nat → α :=
  fun j => if j = i then v else f j

/-- Conversion of a signed value to `size_t` (64 bit). -/
def toSizeT (x : Int) : Nat := (x % 2 ^ 64).toNat

/-- The loop shape `for (i = start; i < start + count; i++) if (p i) return i;`
with `none` when the loop falls through. -/
def firstIdx (p : Nat → Bool) : Nat → Nat → Option Nat
  | 0, _ => none
  | count + 1, i => if p i then some i else firstIdx p count (i + 1)

/-- Whether `i` indexes the allocation table (and the device). -/
def inTable (N : Nat) (i : Int) : Prop := 0 ≤ i ∧ i < (N : Int)

instance (N : Nat) (i : Int) : Decidable (inTable N i) := by
  unfold inTable; infer_instance

/-! ## Helpers of the source -/

/-- `get_dir_index` (lines 594-600): the first occupied slot holding `name`;
`none` stands for the source's `-1`. -/
def get_dir_index (st : State) (name : String) : Option Nat :=
  firstIdx (fun i => (st.my_directory i).busy && decide ((st.my_directory i).file_name = name))
    MAX_NUM_FILES 0

/-- `get_free_block` (lines 602-610): the scan starts at the literal 4096. -/
def get_free_block (N : Nat) (fat : Nat → fat_t) : Int :=
  match firstIdx (fun i => !(fat i).busy) (N - 4096) 4096 with
  | some i => (i : Int)
  | none => -1

/-- `block_read` of `disk.h`: fails outside the device; the callers ignore the
failure and go on with an unset buffer, which is given no result here. -/
def block_read (N : Nat) (disk : Nat → Nat → Byte) (b : Int) : Option (Nat → Byte) :=
  if inTable N b then some (disk b.toNat) else none

/-- `block_write(b, blk)` on a block inside the device. -/
def block_write (st : State) (b : Int) (blk : Nat → Byte) : State :=
  { st with disk := upd st.disk b.toNat blk }

/-! ## create / delete / open / close -/

/-- `fs_create` (lines 282-308). The name is stored by `strcpy`; a name of
exactly 15 characters puts its terminator in the padding after `file_name`. -/
def fs_create (st : State) (name : String) : Int × State :=
  if st.dir_size ≥ (MAX_NUM_FILES : Int) then (-1, st)
  else if name.length > MAX_SIZE_FILENAME then (-1, st)
  else if (get_dir_index st name).isSome then (-1, st)
  else
    match firstIdx (fun i => !(st.my_directory i).busy) MAX_NUM_FILES 0 with
    | some i =>
      (0, { st with
              dir_size := st.dir_size + 1
              my_directory := upd st.my_directory i
                { file_name := name, file_size := 0, first_block_num := UNASSIGNED,
                  total_fds := 0, busy := true } })
    | none => (-1, st)

/-- The `while (block_num != UNASSIGNED)` loop of `fs_delete` (lines 326-332). -/
def delete_chain (N : Nat) : Nat → State → Int → Option State
  | 0, st, block_num => if block_num ≠ UNASSIGNED then none else some st
  | fuel + 1, st, block_num =>
    if block_num ≠ UNASSIGNED then
      if inTable N block_num then
        let next := (st.my_fat block_num.toNat).next
        delete_chain N fuel
          { st with
              avail_data_blocks := st.avail_data_blocks - 1
              my_fat := upd st.my_fat block_num.toNat { busy := false, next := UNASSIGNED } }
          next
      else none
    else some st

/-- `fs_delete` (lines 310-340). Every pass of the loop clears the `next` of
the block it visits, so `N + 1` passes are enough whenever the loop stays
inside the table. -/
def fs_delete (N : Nat) (st : State) (name : String) : Option (Int × State) :=
  match get_dir_index st name with
  | none => some (-1, st)
  | some dir_index =>
    let current_file := st.my_directory dir_index
    if current_file.total_fds ≠ 0 then some (-1, st)
    else
      match delete_chain N (N + 1) st current_file.first_block_num with
      | none => none
      | some st1 =>
        some (0, { st1 with
                     total_data_storage := st1.total_data_storage - current_file.file_size
                     dir_size := st1.dir_size - 1
                     my_directory := upd st1.my_directory dir_index
                       { st1.my_directory dir_index with busy := false } })

/-- `fs_open` (lines 254-272); the result is the descriptor index or `-1`. -/
def fs_open (st : State) (name : String) : Int × State :=
  match get_dir_index st name with
  | none => (-1, st)
  | some dir_index =>
    match firstIdx (fun i => (st.my_fds i).isNone) MAX_NUM_FD 0 with
    | some i =>
      ((i : Int), { st with
          my_directory := upd st.my_directory dir_index
            { st.my_directory dir_index with
                total_fds := (st.my_directory dir_index).total_fds + 1 }
          my_fds := upd st.my_fds i
            (some { file_name := name, dir_index := dir_index, offset := 0 }) })
    | none => (-1, st)

/-- The descriptor a call names: `none` for the guard
`fildes < 0 || fildes >= MAX_NUM_FD || my_fds[fildes] == NULL`. -/
def fd_lookup (st : State) (fildes : Int) : Option fd_t :=
  if fildes < 0 ∨ fildes ≥ (MAX_NUM_FD : Int) then none else st.my_fds fildes.toNat

/-- `fs_close` (lines 274-280). -/
def fs_close (st : State) (fildes : Int) : Int × State :=
  match fd_lookup st fildes with
  | none => (-1, st)
  | some fd =>
    (0, { st with
            my_directory := upd st.my_directory fd.dir_index
              { st.my_directory fd.dir_index with
                  total_fds := (st.my_directory fd.dir_index).total_fds - 1 }
            my_fds := upd st.my_fds fildes.toNat none })

/-- `fs_get_filesize` (lines 540-543). -/
def fs_get_filesize (st : State) (fildes : Int) : Int :=
  match fd_lookup st fildes with
  | none => -1
  | some fd => (st.my_directory fd.dir_index).file_size

/-- `fs_lseek` (lines 545-551). -/
def fs_lseek (st : State) (fildes : Int) (offset : Int) : Int × State :=
  match fd_lookup st fildes with
  | none => (-1, st)
  | some fd =>
    if offset < 0 ∨ offset > (st.my_directory fd.dir_index).file_size then (-1, st)
    else (0, { st with my_fds := upd st.my_fds fildes.toNat (some { fd with offset := offset }) })

/-! ## read -/

/-- The skip loop of `fs_read` (lines 363-367) on `(current_block, offset)`.
`none`: access outside the table; `some none`: `return -1`. -/
def read_skip (B N : Nat) (fat : Nat → fat_t) : Nat → Int → Int → Option (Option (Int × Int))
  | 0, _, _ => none
  | fuel + 1, cur, off =>
    if off ≥ (B : Int) then
      if inTable N cur then
        let cur1 := (fat cur.toNat).next
        if cur1 = -1 then some none
        else read_skip B N fat fuel cur1 (off - B)
      else none
    else some (some (cur, off))

/-- The whole-block loop of `fs_read` (lines 385-400) on `(current_block,
bytes_to_read, bytes copied to buf so far)`. The flag is `false` when the loop
leaves by `return -1`. -/
def read_loop (B N : Nat) (fat : Nat → fat_t) (disk : Nat → Nat → Byte) :
    Nat → Int → Nat → List Byte → Option (Bool × List Byte)
  | 0, _, rem, out => if rem > 0 then none else some (true, out)
  | fuel + 1, cur, rem, out =>
    if rem > 0 then
      if cur = -1 then some (false, out)
      else
        match block_read N disk cur with
        | none => none
        | some blk =>
          let k := if rem < B then rem else B
          read_loop B N fat disk fuel (fat cur.toNat).next (rem - k)
            (out ++ (List.range k).map blk)
    else some (true, out)

/-- Lines 401-402 of `fs_read`: advance the offset by `bytes_read`. -/
def read_finish (st : State) (fildes : Int) (fd : fd_t) (r : Option (Bool × List Byte)) :
    Option (Int × List Byte × State) :=
  match r with
  | none => none
  | some (false, out) => some (-1, out, st)
  | some (true, out) =>
    some ((out.length : Int), out,
      { st with
          my_fds := upd st.my_fds fildes.toNat
            (some { fd with offset := fd.offset + out.length }) })

/-- `fs_read` (lines 342-403). The result holds the return value, the bytes
stored to `buf` (in order, from `buf[0]`) and the state. -/
def fs_read (B N : Nat) (st : State) (fildes : Int) (nbyte : Nat) :
    Option (Int × List Byte × State) :=
  if nbyte = 0 ∨ nbyte > MAX_FILE_SIZE B then some (-1, [], st)
  else
    match fd_lookup st fildes with
    | none => some (-1, [], st)
    | some fd =>
      let current_file := st.my_directory fd.dir_index
      let avail := toSizeT (current_file.file_size - fd.offset)
      if avail = 0 then some (0, [], st)
      else
        let bytes_to_read := if avail > nbyte then nbyte else avail
        if current_file.first_block_num = -1 then some (-1, [], st)
        else
          match read_skip B N st.my_fat (fd.offset.toNat + 1)
              current_file.first_block_num fd.offset with
          | none => none
          | some none => some (-1, [], st)
          | some (some (cur, off)) =>
            if off > 0 then
              if cur = -1 then some (-1, [], st)
              else
                match block_read N st.disk cur with
                | none => none
                | some blk =>
                  let k := if bytes_to_read + off.toNat < B then bytes_to_read
                           else B - off.toNat
                  read_finish st fildes fd
                    (read_loop B N st.my_fat st.disk (bytes_to_read - k + 1)
                      (st.my_fat cur.toNat).next (bytes_to_read - k)
                      ((List.range k).map (fun j => blk (off.toNat + j))))
            else
              read_finish st fildes fd
                (read_loop B N st.my_fat st.disk (bytes_to_read + 1) cur bytes_to_read [])

/-! ## write -/

/-- Lines 428-432 and 492-495 of `fs_write`: `my_fat[cur].next` receives the
result of `get_free_block()`, then the entry that `next` names is marked busy
with `next = UNASSIGNED`. No result when `cur` or the block found (`-1` when
none is free) lies outside the table. -/
def append_block (N : Nat) (st : State) (cur : Int) : Option State :=
  if inTable N cur then
    let g := get_free_block N st.my_fat
    if inTable N g then
      some { st with
        my_fat := upd (upd st.my_fat cur.toNat { st.my_fat cur.toNat with next := g })
          g.toNat { busy := true, next := UNASSIGNED } }
    else none
  else none

/-- The skip loop of `fs_write` (lines 427-438) on `(current_block, offset)`.
The second component is `none` when the loop leaves by `return 0`. -/
def write_skip (B N : Nat) : Nat → State → Int → Int → Option (State × Option (Int × Int))
  | 0, _, _, _ => none
  | fuel + 1, st, cur, off =>
    if off ≥ (B : Int) then
      if inTable N cur then
        match (if (st.my_fat cur.toNat).next = -1 then append_block N st cur else some st) with
        | none => none
        | some st1 =>
          let cur1 := (st1.my_fat cur.toNat).next
          if cur1 = -1 then some (st1, none)
          else write_skip B N fuel st1 cur1 (off - B)
      else none
    else some (st, some (cur, off))

/-- The copy loops of `fs_write` (lines 449-453, 473-477, 519-523):
`k` times `read_block[i++] = buffer[bytes_written++]`. -/
def copy_in (buf : Nat → Byte) : Nat → (Nat → Byte) → Nat → Nat → (Nat → Byte)
  | 0, blk, _, _ => blk
  | k + 1, blk, i, written => copy_in buf k (upd blk i (buf written)) (i + 1) (written + 1)

/-- The "move to end" block of `fs_write` (lines 483-488, 503-508, 527-532). -/
def write_finish (st : State) (fildes : Int) (dir_index : Nat) (bytes_written : Nat) : State :=
  match st.my_fds fildes.toNat with
  | none => st
  | some fd =>
    let offset := fd.offset + bytes_written
    let st1 := { st with my_fds := upd st.my_fds fildes.toNat (some { fd with offset := offset }) }
    let current_file := st1.my_directory dir_index
    if current_file.file_size < offset then
      { st1 with
          total_data_storage := st1.total_data_storage + (offset - current_file.file_size)
          my_directory := upd st1.my_directory dir_index
            { current_file with file_size := offset } }
    else st1

/-- The `while (bytes_to_write > 0)` loop of `fs_write` with the final
`return bytes_written` (lines 491-537), on `(current_block, bytes_written,
bytes_to_write)`. -/
def write_loop (B N : Nat) (buf : Nat → Byte) (fildes : Int) (dir_index : Nat) :
    Nat → State → Int → Nat → Nat → Option (Int × State)
  | 0, st, _, written, rem => if rem > 0 then none else some ((written : Int), st)
  | fuel + 1, st, cur, written, rem =>
    if rem > 0 then
      if inTable N cur then
        match (if (st.my_fat cur.toNat).next = -1 then
                 (append_block N st cur).map
                   (fun s => { s with avail_data_blocks := s.avail_data_blocks - 1 })
               else some st) with
        | none => none
        | some st1 =>
          let cur1 := (st1.my_fat cur.toNat).next
          if cur1 = -1 then some ((written : Int), write_finish st1 fildes dir_index written)
          else
            match block_read N st1.disk cur1 with
            | none => none
            | some blk =>
              let k := if rem < B then rem else B
              let blk1 := copy_in buf k blk 0 written
              if rem - k = 0 then
                some (((written + k : Nat) : Int),
                  write_finish (block_write st1 cur1 blk1) fildes dir_index (written + k))
              else
                write_loop B N buf fildes dir_index fuel (block_write st1 cur1 blk1) cur1
                  (written + k) (rem - k)
      else none
    else some ((written : Int), st)

/-- Lines 479-538 of `fs_write`: the first block is written back, then either
the whole request is done or the loop takes over. -/
def write_rest (B N : Nat) (buf : Nat → Byte) (fildes : Int) (dir_index : Nat) (nbyte : Nat)
    (st : State) (cur : Int) (blk : Nat → Byte) (written rem : Nat) : Option (Int × State) :=
  let st1 := block_write st cur blk
  if written = nbyte then some ((written : Int), write_finish st1 fildes dir_index written)
  else write_loop B N buf fildes dir_index (rem + 1) st1 cur written rem

/-- Lines 440-538 of `fs_write`, entered with `(current_block, offset)` as the
skip loop leaves them: the block the offset falls in is read (after it has been
allocated as the head of an empty file), overwritten from `offset` on and
handed to `write_rest`. -/
def write_first (B N : Nat) (buf : Nat → Byte) (fildes : Int) (dir_index : Nat)
    (nbyte bytes_to_write : Nat) (st1 : State) (cur off : Int) : Option (Int × State) :=
  if off > 0 then
    if cur = -1 then some (-1, st1)
    else
      match block_read N st1.disk cur with
      | none => none
      | some blk =>
        let k := if bytes_to_write + off.toNat < B then bytes_to_write else B - off.toNat
        write_rest B N buf fildes dir_index nbyte st1 cur
          (copy_in buf k blk off.toNat 0) k (bytes_to_write - k)
  else
    let g := get_free_block N st1.my_fat
    if cur = -1 ∧ g = -1 then some (0, st1)
    else
      let st2 := if cur = -1 then
          { st1 with
              my_directory := upd st1.my_directory dir_index
                { st1.my_directory dir_index with first_block_num := g }
              my_fat := upd st1.my_fat g.toNat { busy := true, next := UNASSIGNED } }
        else st1
      let cur2 := if cur = -1 then g else cur
      match block_read N st2.disk cur2 with
      | none => none
      | some blk =>
        let k := if bytes_to_write < B then bytes_to_write else B
        write_rest B N buf fildes dir_index nbyte st2 cur2
          (copy_in buf k blk 0 0) k (bytes_to_write - k)

/-- `fs_write` (lines 405-538); `buf j` is the byte `buffer[j]` of the caller. -/
def fs_write (B N : Nat) (st : State) (fildes : Int) (buf : Nat → Byte) (nbyte : Nat) :
    Option (Int × State) :=
  if nbyte = 0 then some (-1, st)
  else
    match fd_lookup st fildes with
    | none => some (-1, st)
    | some fd =>
      let dir_index := fd.dir_index
      let cap := toSizeT ((MAX_FILE_SIZE B : Int) - st.total_data_storage)
      if cap = 0 then some (0, st)
      else
        let bytes_to_write := if cap > nbyte then nbyte else cap
        match write_skip B N (fd.offset.toNat + 1) st
            (st.my_directory dir_index).first_block_num fd.offset with
        | none => none
        | some (st1, none) => some (0, st1)
        | some (st1, some (cur, off)) =>
          write_first B N buf fildes dir_index nbyte bytes_to_write st1 cur off

/-! ## truncate -/

/-- The skip loop of `fs_truncate` (lines 568-573) on `(current_block,
counter)`. `some none`: `return -1`. -/
def trunc_skip (B N : Nat) (fat : Nat → fat_t) : Nat → Int → Int → Option (Option Int)
  | 0, _, _ => none
  | fuel + 1, cur, counter =>
    if counter > (B : Int) then
      if inTable N cur then
        let cur1 := (fat cur.toNat).next
        if cur1 = -1 then some none
        else trunc_skip B N fat fuel cur1 (counter - B)
      else none
    else some (some cur)

/-- The freeing loop of `fs_truncate` (lines 578-584). -/
def trunc_free (N : Nat) : Nat → State → Int → Option State
  | 0, st, cur => if cur ≠ UNASSIGNED then none else some st
  | fuel + 1, st, cur =>
    if cur ≠ UNASSIGNED then
      if inTable N cur then
        let next := (st.my_fat cur.toNat).next
        trunc_free N fuel
          { st with
              my_fat := upd st.my_fat cur.toNat { busy := false, next := UNASSIGNED }
              avail_data_blocks := st.avail_data_blocks + 1 }
          next
      else none
    else some st

/-- The conversion `(int) length` of an `off_t` to a 32-bit `int`. -/
def toInt32 (x : Int) : Int := (x + 2 ^ 31) % 2 ^ 32 - 2 ^ 31

/-- `fs_truncate` (lines 553-591). `length` is an `off_t`; the test
`length < 0` is made on it, every other use is of `(int) length`. -/
def fs_truncate (B N : Nat) (st : State) (fildes : Int) (length : Int) : Option (Int × State) :=
  match fd_lookup st fildes with
  | none => some (-1, st)
  | some fd =>
    let current_file := st.my_directory fd.dir_index
    let len := toInt32 length
    if length < 0 ∨ current_file.file_size < len then some (-1, st)
    else
      let old_file_size := current_file.file_size
      match trunc_skip B N st.my_fat (len.toNat + 1) current_file.first_block_num len with
      | none => none
      | some none => some (-1, st)
      | some (some cur) =>
        if inTable N cur then
          match trunc_free N (N + 1) st (st.my_fat cur.toNat).next with
          | none => none
          | some st1 =>
            let st2 := { st1 with
              total_data_storage := st1.total_data_storage - old_file_size + len
              my_directory := upd st1.my_directory fd.dir_index
                { st1.my_directory fd.dir_index with file_size := len } }
            let offset := if fd.offset > len then len else fd.offset
            some (0, { st2 with
                         my_fds := upd st2.my_fds fildes.toNat
                           (some { fd with offset := offset }) })
        else none

/-! ## Predicates used by the statements -/

/-- Some occupied slot of the directory holds `name`. -/
def nameTaken (st : State) (name : String) : Prop :=
  ∃ i, i < MAX_NUM_FILES ∧ (st.my_directory i).busy = true ∧
    (st.my_directory i).file_name = name

/-- The directory has an unoccupied slot. -/
def hasFreeSlot (st : State) : Prop :=
  ∃ i, i < MAX_NUM_FILES ∧ (st.my_directory i).busy = false

/-- Occupied slots carry pairwise distinct names. -/
def namesDistinct (st : State) : Prop :=
  ∀ i j, i < MAX_NUM_FILES → j < MAX_NUM_FILES →
    (st.my_directory i).busy = true → (st.my_directory j).busy = true →
    (st.my_directory i).file_name = (st.my_directory j).file_name → i = j

/-- The conditions under which `fs_create` refuses a name. -/
def createRefused (st : State) (name : String) : Prop :=
  (MAX_NUM_FILES : Int) ≤ st.dir_size ∨ ¬ hasFreeSlot st ∨
    MAX_SIZE_FILENAME < name.length ∨ nameTaken st name

/-- The slot `fs_create` fills in. -/
def newEntry (name : String) : directory_t :=
  { file_name := name, file_size := 0, first_block_num := UNASSIGNED, total_fds := 0,
    busy := true }

/-! ## Sample states -/

/-- A formatted and mounted store with `DISK_BLOCKS = 8192` and
`BLOCK_SIZE = 4096`: block 0 and the sixteen blocks of the table are busy, the
directory is empty, no descriptor is bound. -/
def fresh : State :=
  { dir_start_block := 17, dir_size := 0, fat_start_block := 1, fat_total_blocks := 16,
    total_data_storage := 0, avail_data_blocks := 4096,
    my_directory := fun _ =>
      { file_name := "", file_size := 0, first_block_num := UNASSIGNED, total_fds := 0,
        busy := false },
    my_fat := fun i => { busy := decide (i ≤ 16), next := UNASSIGNED },
    my_fds := fun _ => none,
    disk := fun _ _ => 0 }

/-- The state of an `Option` result, `fresh` when there is none. -/
def stateOf (r : Option (Int × State)) : State :=
  match r with
  | some p => p.2
  | none => fresh

/-- `fresh` after `fs_create("a")` and `fs_open("a")` (descriptor 0). -/
def opened : State := (fs_open (fs_create fresh "a").2 "a").2

/-- `opened` after `fs_write(0, "XXXXX", 5)`: one file of 5 bytes in one block. -/
def wrote5 : State := stateOf (fs_write 4096 8192 opened 0 (fun _ => 88) 5)

/-- `opened` after a second `fs_open("a")` (descriptor 1) and
`fs_write(1, "XXXXXXXXXX", 10)`: descriptor 0 at offset 0, descriptor 1 at
offset 10, size 10. -/
def twoFds : State := stateOf (fs_write 4096 8192 (fs_open opened "a").2 1 (fun _ => 88) 10)

/-- A store with one byte of capacity left: the file "big" of
`MAX_FILE_SIZE - 1` bytes owns the chain 4096 → 4097 → … → 8191 and is open on
descriptor 0 at offset 0. -/
def nearlyFull : State :=
  { fresh with
      dir_size := 1
      total_data_storage := 16777215
      avail_data_blocks := 0
      my_directory := upd fresh.my_directory 0
        { file_name := "big", file_size := 16777215, first_block_num := 4096, total_fds := 1,
          busy := true }
      my_fat := fun i =>
        { busy := decide (i ≤ 16 ∨ (4096 ≤ i ∧ i < 8192)),
          next := if 4096 ≤ i ∧ i < 8191 then (i : Int) + 1 else UNASSIGNED }
      my_fds := upd fresh.my_fds 0 (some { file_name := "big", dir_index := 0, offset := 0 }) }

/-- `wrote5` after `fs_close(0)`: the file "a" of one block with no descriptor. -/
def closed5 : State := (fs_close wrote5 0).2

/-! ## Chains and file contents -/

/-- `bs` lists the blocks reached from `head` by following `next` inside the
table until `UNASSIGNED`. -/
def IsChain (N : Nat) (fat : Nat → fat_t) : Int → List Nat → Prop
  | h, [] => h = UNASSIGNED
  | h, b :: bs => h = (b : Int) ∧ b < N ∧ IsChain N fat (fat b).next bs

/-- `IsChain` can be checked by running along the list. -/
def IsChain.dec (N : Nat) (fat : Nat → fat_t) :
    (h : Int) → (bs : List Nat) → Decidable (IsChain N fat h bs)
  | h, [] => inferInstanceAs (Decidable (h = UNASSIGNED))
  | h, b :: bs =>
    @instDecidableAnd _ _ (inferInstanceAs (Decidable (h = (b : Int))))
      (@instDecidableAnd _ _ (inferInstanceAs (Decidable (b < N)))
        (IsChain.dec N fat (fat b).next bs))

instance (N : Nat) (fat : Nat → fat_t) (h : Int) (bs : List Nat) :
    Decidable (IsChain N fat h bs) := IsChain.dec N fat h bs

/-- `ceil(a / b)`. -/
def ceilDiv (a b : Nat) : Nat := (a + b - 1) / b

/-- The chain of directory entry `e` is `bs` and is consistent with its size:
it runs from `first_block_num` to `UNASSIGNED`, has `ceil(size / B)` blocks, and
each of its blocks is marked busy. -/
def ChainOK (B N : Nat) (fat : Nat → fat_t) (e : directory_t) (bs : List Nat) : Prop :=
  IsChain N fat e.first_block_num bs ∧ 0 ≤ e.file_size ∧
    bs.length = ceilDiv e.file_size.toNat B ∧ ∀ b ∈ bs, (fat b).busy = true

instance (B N : Nat) (fat : Nat → fat_t) (e : directory_t) (bs : List Nat) :
    Decidable (ChainOK B N fat e bs) := by
  unfold ChainOK; infer_instance

/-- Byte `p` of the file whose chain is `bs`. -/
def fileByte (B : Nat) (disk : Nat → Nat → Byte) (bs : List Nat) (p : Nat) : Byte :=
  disk (bs.getD (p / B) 0) (p % B)

/-- Bytes `[o, o + n)` of the file whose chain is `bs`. -/
def fileSlice (B : Nat) (disk : Nat → Nat → Byte) (bs : List Nat) (o n : Nat) : List Byte :=
  (List.range n).map (fun i => fileByte B disk bs (o + i))

/-- The content of a file of `size` bytes on chain `bs`. -/
def fileBytes (B : Nat) (disk : Nat → Nat → Byte) (bs : List Nat) (size : Nat) : List Byte :=
  fileSlice B disk bs 0 size

/-- `wrote5` after `fs_lseek(0, 2)`: descriptor 0 at offset 2 of the 5 bytes. -/
def seek2 : State := (fs_lseek wrote5 0 2).2

/-- `twoFds` after `fs_truncate(0, 5)`: size 5, descriptor 1 still at offset 10. -/
def truncated5 : State := stateOf (fs_truncate 4096 8192 twoFds 0 5)

/-! ## Free blocks -/

/-- The number of blocks `get_free_block` can return: those of the range
`4096 .. N - 1` whose entry is not busy. -/
def freeCount (N : Nat) (fat : Nat → fat_t) : Nat :=
  (List.range' 4096 (N - 4096)).countP (fun i => !(fat i).busy)

/-- The table after lines 429-431 (or 493-495) with `cur = c` and the free
block `g`. -/
def linked (fat : Nat → fat_t) (c g : Nat) : Nat → fat_t :=
  upd (upd fat c { fat c with next := (g : Int) }) g { busy := true, next := UNASSIGNED }

/-- What a complete `fs_write` of the `n` bytes of `buf` at offset `o` has
done when it reaches its "move to end" block: `sL` is the state there and
`bs1` the chain of the file in slot `di`, which started as `bs` in `st`. -/
structure Written (B N : Nat) (st sL : State) (di : Nat) (bs bs1 : List Nat)
    (buf : Nat → Byte) (o n : Nat) : Prop where
  fds : sL.my_fds = st.my_fds
  total : sL.total_data_storage = st.total_data_storage
  dir_other : ∀ j, j ≠ di → sL.my_directory j = st.my_directory j
  dir_same : ∃ h : Int, sL.my_directory di = { st.my_directory di with first_block_num := h }
  chain : IsChain N sL.my_fat (sL.my_directory di).first_block_num bs1
  grows : ∃ ext, bs1 = bs ++ ext
  busy : ∀ b ∈ bs1, (sL.my_fat b).busy = true
  fits : o + n ≤ bs1.length * B
  tight : bs1 = bs ∨ bs1.length * B < o + n + B
  data : ∀ m j, m < bs1.length → j < B →
    sL.disk (bs1.getD m 0) j =
      if o ≤ m * B + j ∧ m * B + j < o + n then buf (m * B + j - o)
      else st.disk (bs1.getD m 0) j
  free : bs1.length + freeCount N sL.my_fat = bs.length + freeCount N st.my_fat

/-- A store with `BLOCK_SIZE = 4`, `DISK_BLOCKS = 4100`: `opened` after
`fs_write(0, "XXXXX", 5)` and `fs_lseek(0, 2)`. The file "a" has 5 bytes on the
chain 4096 → 4097; descriptor 0 stands at offset 2. -/
def smallFile : State := (fs_lseek (stateOf (fs_write 4 4100 opened 0 (fun _ => 88) 5)) 0 2).2

/-! ## Calls and reachable states -/

/-- The calls of the API that act on a mounted file system. -/
inductive Call where
  | create (name : String)
  | delete (name : String)
  | opn (name : String)
  | close (fildes : Int)
  | read (fildes : Int) (nbyte : Nat)
  | write (fildes : Int) (buf : Nat → Byte) (nbyte : Nat)
  | seek (fildes : Int) (offset : Int)
  | truncate (fildes : Int) (length : Int)

/-- The state a call leaves, whatever it returns; `none` when the call has no
defined result. -/
def step (B N : Nat) (st : State) : Call → Option State
  | .create name => some (fs_create st name).2
  | .delete name => (fs_delete N st name).map (fun r => r.2)
  | .opn name => some (fs_open st name).2
  | .close fildes => some (fs_close st fildes).2
  | .read fildes nbyte => (fs_read B N st fildes nbyte).map (fun r => r.2.2)
  | .write fildes buf nbyte => (fs_write B N st fildes buf nbyte).map (fun r => r.2)
  | .seek fildes offset => some (fs_lseek st fildes offset).2
  | .truncate fildes length => (fs_truncate B N st fildes length).map (fun r => r.2)

/-- The states reached from `st0` by a sequence of calls. -/
inductive Reachable (B N : Nat) (st0 : State) : State → Prop
  | start : Reachable B N st0 st0
  | call (st st1 : State) (c : Call) :
      Reachable B N st0 st → step B N st c = some st1 → Reachable B N st0 st1

/-- A block pointer of the table or of the directory: `UNASSIGNED` or the
index of a block. -/
def ptrOK (N : Nat) (p : Int) : Prop := p = UNASSIGNED ∨ inTable N p

/-- Descriptor slot `i` is bound to directory slot `j`. -/
def refers (st : State) (j i : Nat) : Bool :=
  match st.my_fds i with
  | some fd => decide (fd.dir_index = j)
  | none => false

/-- The number of bound descriptors that refer to directory slot `j`. -/
def fdCount (st : State) (j : Nat) : Nat :=
  (List.range MAX_NUM_FD).countP (refers st j)

/-- A state as `mount_fs` leaves it: every descriptor slot is `NULL` (lines
193-195), the tables are as the store held them, every `next` and every
`first_block_num` of an occupied entry being `UNASSIGNED` or a block index. -/
def Mounted (N : Nat) (st : State) : Prop :=
  (∀ i, i < MAX_NUM_FD → st.my_fds i = none) ∧
  (∀ b, b < N → ptrOK N (st.my_fat b).next) ∧
  (∀ j, j < MAX_NUM_FILES → (st.my_directory j).busy = true →
    ptrOK N (st.my_directory j).first_block_num)

/-- No occupied entry of the directory counts an open descriptor. -/
def NoOpenCount (st : State) : Prop :=
  ∀ j, j < MAX_NUM_FILES → (st.my_directory j).busy = true → (st.my_directory j).total_fds = 0

/-- The invariant behind `total_fds`: bound descriptors refer to occupied
slots, `total_fds` of an occupied slot counts the descriptors bound to it, and
block pointers stay inside the table. -/
def CountInv (N : Nat) (st : State) : Prop :=
  (∀ i fd, i < MAX_NUM_FD → st.my_fds i = some fd →
    fd.dir_index < MAX_NUM_FILES ∧ (st.my_directory fd.dir_index).busy = true) ∧
  (∀ j, j < MAX_NUM_FILES → (st.my_directory j).busy = true →
    (st.my_directory j).total_fds = (fdCount st j : Int)) ∧
  (∀ b, b < N → ptrOK N (st.my_fat b).next) ∧
  (∀ j, j < MAX_NUM_FILES → (st.my_directory j).busy = true →
    ptrOK N (st.my_directory j).first_block_num)

/-- A call of read, write, seek or truncate keeps which slot each descriptor
is bound to, keeps `busy` and `total_fds` of every entry, and keeps block
pointers inside the table. -/
structure Keeps (N : Nat) (st s : State) : Prop where
  fds : ∀ i, (s.my_fds i).map (fun fd => fd.dir_index) =
    (st.my_fds i).map (fun fd => fd.dir_index)
  dir : ∀ j, (s.my_directory j).busy = (st.my_directory j).busy ∧
    (s.my_directory j).total_fds = (st.my_directory j).total_fds
  fat : (∀ b, b < N → ptrOK N (st.my_fat b).next) → ∀ b, b < N → ptrOK N (s.my_fat b).next
  head : ∀ j, ptrOK N (st.my_directory j).first_block_num →
    ptrOK N (s.my_directory j).first_block_num

/-- What a call of read, write, seek or truncate through descriptor slot `k`,
bound to directory slot `di`, leaves alone: every other descriptor slot, every
other directory slot, whether slot `di` is occupied, and the difference between
`total_data_storage` and the size of slot `di`. -/
structure Frame (k di : Nat) (st s : State) : Prop where
  fds : ∀ i, i ≠ k → s.my_fds i = st.my_fds i
  dir : ∀ j, j ≠ di → s.my_directory j = st.my_directory j
  busy : (s.my_directory di).busy = (st.my_directory di).busy
  total : s.total_data_storage - (s.my_directory di).file_size =
    st.total_data_storage - (st.my_directory di).file_size

/-- The sum of `file_size` over the occupied directory slots. -/
def sizeSum (st : State) : Int :=
  ((List.range MAX_NUM_FILES).map
    (fun j => if (st.my_directory j).busy then (st.my_directory j).file_size else 0)).sum

/-- Every bound descriptor is bound to an occupied slot of the directory. -/
def DescriptorsOK (st : State) : Prop :=
  ∀ i, i < MAX_NUM_FD → ∀ fd ∈ st.my_fds i,
    fd.dir_index < MAX_NUM_FILES ∧ (st.my_directory fd.dir_index).busy = true

instance (st : State) : Decidable (DescriptorsOK st) := by
  unfold DescriptorsOK; infer_instance

/-- The file "a" of `opened` after `fs_write(0, buf, 4097)`: 4097 bytes on
the chain 4096 → 4097. -/
def twoBlocks : State := stateOf (fs_write 4096 8192 opened 0 (fun _ => 88) 4097)

/-- The state `twoBlocks` after `fs_truncate(0, 1)`: size 1. -/
def cutToOne : State := stateOf (fs_truncate 4096 8192 twoBlocks 0 1)

/-- The state `cutToOne` after `fs_create("b")`, `fs_open("b")` (descriptor 1)
and `fs_write(1, "Y", 1)`. -/
def secondFile : State :=
  stateOf (fs_write 4096 8192 (fs_open (fs_create cutToOne "b").2 "b").2 1 (fun _ => 89) 1)

/-- The file "a" of `opened` after `fs_write(0, buf, 4096)`: one full block,
descriptor 0 at offset 4096. -/
def fullBlock : State := stateOf (fs_write 4096 8192 opened 0 (fun _ => 88) 4096)

/-- The state `fullBlock` after `fs_write(0, "X", 1)`: the skip loop of
`fs_write` appends block 4097. -/
def skipGrown : State := stateOf (fs_write 4096 8192 fullBlock 0 (fun _ => 88) 1)

/-! ## Format and unmount -/

/-- How the records lie in memory, as far as `make_fs`, `umount_fs` and
`mount_fs` depend on it: the values of `sizeof`; the bytes `memcpy` finds in
the table, in the directory, in an `int`, and in the part of the super block
that follows its six `int` fields (its two pointers); and what `memcpy` makes
of bytes it stores: `load_int b` is the `int` whose bytes are `b 0`, `b 1`, …,
and `fat_store a off n b` (`dir_store a off n b`) is the array `a` after
`memcpy((char *) a + off, b, n)`. -/
structure Layout where
  sizeof_fat_t : Nat
  sizeof_directory_t : Nat
  sizeof_super_block_t : Nat
  sizeof_pointer : Nat
  sizeof_int : Nat
  fat_bytes : (Nat → fat_t) → Nat → Byte
  dir_bytes : (Nat → directory_t) → Nat → Byte
  int_bytes : Int → Nat → Byte
  sb_tail : Nat → Byte
  load_int : (Nat → Byte) → Int
  fat_store : (Nat → fat_t) → Nat → Nat → (Nat → Byte) → (Nat → fat_t)
  dir_store : (Nat → directory_t) → Nat → Nat → (Nat → Byte) → (Nat → directory_t)

/-- Byte `j` of a `super_block_t` whose six `int` fields, in the order of the
declaration (lines 51-62), are `fields`: the `int`s lie one after the other
from byte 0 on. -/
def sb_bytes (L : Layout) (fields : List Int) (j : Nat) : Byte :=
  if j < 6 * L.sizeof_int then L.int_bytes (fields.getD (j / L.sizeof_int) 0) (j % L.sizeof_int)
  else L.sb_tail j

/-- `block_write` of `disk.h` at any block number: outside the device it
fails and writes nothing (the callers below ignore its result). -/
def dev_write (N : Nat) (disk : Nat → Nat → Byte) (b : Int) (blk : Nat → Byte) :
    Nat → Nat → Byte :=
  if inTable N b then upd disk b.toNat blk else disk

/-- The marking loop of `make_fs` (lines 101-105) on `(i, my_fat,
write_block)`, with `fuel` passes left. In
`my_fat[write_block].next = ++write_block` C does not fix whether the entry is
chosen before or after the increment; `lhsFirst` says which. No result when an
entry outside the table is touched. -/
def mark_table (N : Nat) (lhsFirst : Bool) (num_full rem : Nat) :
    Nat → Nat → (Nat → fat_t) → Nat → Option ((Nat → fat_t) × Nat)
  | 0, _, fat, wb => some (fat, wb)
  | fuel + 1, i, fat, wb =>
    if wb < N then
      let fat1 := upd fat wb { fat wb with busy := true }
      if i = num_full - 1 ∧ rem = 0 then some (fat1, wb)
      else
        let tgt := if lhsFirst then wb else wb + 1
        if tgt < N then
          mark_table N lhsFirst num_full rem fuel (i + 1)
            (upd fat1 tgt { fat1 tgt with next := ((wb + 1 : Nat) : Int) }) (wb + 1)
        else none
    else none

/-- The loops that store an image block by block (lines 109-115 of
`make_fs`, 212-217 and 232-236 of `umount_fs`): `count` times, block `b`
receives the bytes of `img` from byte `off` on, then `b` moves on by one and
`off` by `stride`. -/
def write_image (N stride : Nat) (img : Nat → Byte) :
    Nat → Int → Nat → (Nat → Nat → Byte) → (Nat → Nat → Byte)
  | 0, _, _, disk => disk
  | count + 1, b, off, disk =>
    write_image N stride img count (b + 1) (off + stride)
      (dev_write N disk b (fun j => img (off + j)))

/-- `make_fs` (lines 81-143) on a device that `make_disk` and `open_disk`
have provided: the result is the super block, the table and the directory as
they stand at line 137, before they are freed, together with the device.
`fat0` and `dir0` are the contents of the memory `malloc` returns, `fds` the
descriptor table, which `make_fs` does not touch. No result for an empty table
(`my_fat[0]`), for `BLOCK_SIZE = 0` (a division by it) or when the marking loop
leaves the table. -/
def make_fs (L : Layout) (B N : Nat) (lhsFirst : Bool) (fat0 : Nat → fat_t)
    (dir0 : Nat → directory_t) (fds : Nat → Option fd_t) (disk0 : Nat → Nat → Byte) :
    Option State :=
  if 0 < N ∧ 0 < B then
    let fat1 := upd fat0 0 { fat0 0 with busy := true }
    let num_full_block_copies := (N * L.sizeof_fat_t) / B
    let remainder_bytes := (N * L.sizeof_fat_t) % B
    match mark_table N lhsFirst num_full_block_copies remainder_bytes
        num_full_block_copies 0 fat1 1 with
    | none => none
    | some (fat2, write_block) =>
      match (if remainder_bytes ≠ 0 then
               (if write_block < N then
                  some (upd fat2 write_block { fat2 write_block with busy := true })
                else none)
             else some fat2) with
      | none => none
      | some my_fat =>
        let disk1 := write_image N B (L.fat_bytes my_fat) num_full_block_copies 1 0 disk0
        let disk2 :=
          if remainder_bytes ≠ 0 then
            dev_write N disk1 ((1 + num_full_block_copies : Nat) : Int)
              (fun j => if j < remainder_bytes
                        then L.fat_bytes my_fat (num_full_block_copies * B + j) else 0)
          else disk1
        let num_fat_blocks := num_full_block_copies + (if remainder_bytes ≠ 0 then 1 else 0)
        some
          { dir_start_block := ((1 + num_fat_blocks : Nat) : Int)
            dir_size := 0
            fat_start_block := 1
            fat_total_blocks := (num_fat_blocks : Int)
            total_data_storage := 0
            avail_data_blocks := 4096
            my_directory := fun i =>
              if i < MAX_NUM_FILES then { dir0 i with busy := false } else dir0 i
            my_fat := my_fat
            my_fds := fds
            disk := dev_write N disk2 0
              (fun j => if j < L.sizeof_super_block_t
                        then sb_bytes L [((1 + num_fat_blocks : Nat) : Int), 0, 1,
                          (num_fat_blocks : Int), 0, 4096] j
                        else 0) }
  else none

/-- The number of blocks the image of the table takes, `num_fat_blocks` of
`make_fs`: the full blocks and one more for a remainder. -/
def fat_blocks (L : Layout) (B N : Nat) : Nat :=
  (N * L.sizeof_fat_t) / B + (if (N * L.sizeof_fat_t) % B ≠ 0 then 1 else 0)

/-- A layout with `sizeof(fat_t) = 8`, `sizeof(directory_t) = 32`,
`sizeof(super_block_t) = 40`, pointers of 8 bytes and `int`s of 4; the bytes
themselves play no part where it is used. -/
def lp64 : Layout :=
  { sizeof_fat_t := 8, sizeof_directory_t := 32, sizeof_super_block_t := 40,
    sizeof_pointer := 8, sizeof_int := 4,
    fat_bytes := fun _ _ => 0, dir_bytes := fun _ _ => 0,
    int_bytes := fun _ _ => 0, sb_tail := fun _ => 0,
    load_int := fun _ => 0, fat_store := fun a _ _ _ => a, dir_store := fun a _ _ _ => a }

/-- `umount_fs` (lines 201-252) for a non-null `disk_name`: the device and
the descriptor table it leaves; the super block and the tables are freed.
`junk` is the content of the memory that `malloc` returns at line 227: its
image, not that of `my_sb->my_fat`, goes to the blocks of the table, read
from a position that advances by `sizeof(directory_t)`. `start_copy_from` is a
`char **`, so adding `BLOCK_SIZE` moves it by `BLOCK_SIZE * sizeof(char *)`
bytes. Block 0 receives the first `sizeof(my_sb)` bytes of the super block,
the size of a pointer. The conversion of the block count of the directory to
`int` is not modelled; no result for `BLOCK_SIZE = 0`. -/
def umount_fs (L : Layout) (B N : Nat) (junk : Nat → fat_t) (st : State) :
    Option ((Nat → Nat → Byte) × (Nat → Option fd_t)) :=
  if 0 < B then
    let dir_bytes_total := (toSizeT st.dir_size * L.sizeof_directory_t) % 2 ^ 64
    let num_full_block_copies := dir_bytes_total / B
    let remainder_bytes := dir_bytes_total % B
    let img := L.dir_bytes st.my_directory
    let disk1 := write_image N (B * L.sizeof_pointer) img num_full_block_copies
      st.dir_start_block 0 st.disk
    let dir_block_copy := st.dir_start_block + (num_full_block_copies : Int)
    let off := num_full_block_copies * (B * L.sizeof_pointer)
    let disk2 :=
      if dir_block_copy ≠ UNASSIGNED ∧ remainder_bytes ≠ 0 then
        dev_write N disk1 dir_block_copy
          (fun j => if j < remainder_bytes then img (off + j)
                    else disk1 dir_block_copy.toNat j)
      else disk1
    let disk3 := write_image N L.sizeof_directory_t (L.fat_bytes junk)
      st.fat_total_blocks.toNat st.fat_start_block 0 disk2
    let disk4 := dev_write N disk3 0
      (fun j => if j < L.sizeof_pointer
                then sb_bytes L [st.dir_start_block, st.dir_size, st.fat_start_block,
                  st.fat_total_blocks, st.total_data_storage, st.avail_data_blocks] j
                else 0)
    some (disk4, fun i => if i < MAX_NUM_FD then none else st.my_fds i)
  else none

/-! ## Mount -/

/-- `block_read` of `disk.h` into a buffer that `memset` has just cleared:
outside the device it fails and the buffer stays zero. -/
def dev_read (N : Nat) (disk : Nat → Nat → Byte) (b : Int) : Nat → Byte :=
  if inTable N b then disk b.toNat else fun _ => 0

/-- Line 155 of `mount_fs`, `memcpy(my_sb, buf, sizeof(my_sb))`, on the `k`-th
`int` field of the super block: the field is loaded from `buf` when it lies
within the first `sizeof(my_sb)` bytes and keeps the value `old` that the
allocated memory held otherwise. (`sizeof(my_sb)` is taken to be a whole number
of `int`s, at most six.) -/
def sb_load (L : Layout) (buf : Nat → Byte) (k : Nat) (old : Int) : Int :=
  if (k + 1) * L.sizeof_int ≤ L.sizeof_pointer
  then L.load_int (fun j => buf (k * L.sizeof_int + j))
  else old

/-- The loop of `mount_fs` that reads the table (lines 163-168) into the
array allocated at line 158, on `(fat_start, offset into the array, array)`
with `count` passes left. No result when a pass would write beyond the
`DISK_BLOCKS * sizeof(fat_t)` bytes of the array. -/
def mount_fat (L : Layout) (B N : Nat) (disk : Nat → Nat → Byte) :
    Nat → Int → Nat → (Nat → fat_t) → Option (Nat → fat_t)
  | 0, _, _, fat => some fat
  | count + 1, b, off, fat =>
    if off + B ≤ N * L.sizeof_fat_t then
      mount_fat L B N disk count (b + 1) (off + B) (L.fat_store fat off B (dev_read N disk b))
    else none

/-- The loop of `mount_fs` that reads the full blocks of the directory (lines
178-185) on `(dir_block_copy, offset into the directory, directory)` with
`count` passes left; `fat` is the array read at lines 163-168. No result when
a pass would write beyond the `MAX_NUM_FILES` entries of the directory or reads
`fat` outside the table. -/
def mount_dir (L : Layout) (B N : Nat) (disk : Nat → Nat → Byte) (fat : Nat → fat_t)
    (remainder_bytes : Nat) :
    Nat → Int → Nat → (Nat → directory_t) → Option ((Nat → directory_t) × Int × Nat)
  | 0, b, off, dir => some (dir, b, off)
  | count + 1, b, off, dir =>
    if off + B ≤ MAX_NUM_FILES * L.sizeof_directory_t then
      let dir1 := L.dir_store dir off B (dev_read N disk b)
      if inTable N b then
        let b1 := (fat b.toNat).next
        if b1 = UNASSIGNED ∧ remainder_bytes = 0 then some (dir1, b1, off)
        else mount_dir L B N disk fat remainder_bytes count b1 (off + B) dir1
      else none
    else none

/-- `mount_fs` (lines 146-198) after `open_disk` has succeeded. `mem` is the
memory and the device as the call finds them: its six `int` fields are what the
block that `malloc` returns at line 149 holds, `mem.my_directory` and
`mem.my_fat` are the arrays that the two pointer fields of that block
designate (`dirNull` says that the directory pointer is null), `mem.my_fds` is
the descriptor table and `mem.disk` the device; `junk` is the content of the
array allocated at line 158. Line 155 loads the first `sizeof(my_sb)` bytes of
the super block only. The table is read into the array of line 158, which is
never stored in `my_sb->my_fat`: the table of the result is `mem.my_fat`. The
directory is read into what `my_sb->my_directory` designates. The result is the
return value and the state; no result for `BLOCK_SIZE = 0` or when a copy
leaves its array. The conversion of the block count of the directory to `int`
is not modelled. -/
def mount_fs (L : Layout) (B N : Nat) (mem : State) (dirNull : Bool) (junk : Nat → fat_t) :
    Option (Int × State) :=
  if 0 < B then
    let buf := dev_read N mem.disk 0
    let sb : State :=
      { mem with
          dir_start_block := sb_load L buf 0 mem.dir_start_block
          dir_size := sb_load L buf 1 mem.dir_size
          fat_start_block := sb_load L buf 2 mem.fat_start_block
          fat_total_blocks := sb_load L buf 3 mem.fat_total_blocks
          total_data_storage := sb_load L buf 4 mem.total_data_storage
          avail_data_blocks := sb_load L buf 5 mem.avail_data_blocks }
    match mount_fat L B N mem.disk sb.fat_total_blocks.toNat sb.fat_start_block 0 junk with
    | none => none
    | some my_fat =>
      if dirNull then some (-1, sb)
      else
        let dir_bytes_total := (toSizeT sb.dir_size * L.sizeof_directory_t) % 2 ^ 64
        let num_full_block_copies := dir_bytes_total / B
        let remainder_bytes := dir_bytes_total % B
        match mount_dir L B N mem.disk my_fat remainder_bytes num_full_block_copies
            sb.dir_start_block 0 sb.my_directory with
        | none => none
        | some (dir1, dir_block_copy, off) =>
          match (if dir_block_copy ≠ UNASSIGNED ∧ remainder_bytes ≠ 0 then
                   (if off + remainder_bytes ≤ MAX_NUM_FILES * L.sizeof_directory_t then
                      some (L.dir_store dir1 off remainder_bytes
                        (dev_read N mem.disk dir_block_copy))
                    else none)
                 else some dir1) with
          | none => none
          | some dir2 =>
            some (0, { sb with
                         my_directory := dir2
                         my_fds := fun i => if i < MAX_NUM_FD then none else sb.my_fds i })
  else none

/-! ## A little-endian layout -/

/-- Byte `j` of a 32-bit `int` in two's complement, least significant byte
first. -/
def le_bytes (x : Int) (j : Nat) : Byte := ((x % 2 ^ 32).toNat / 256 ^ j) % 256

/-- The `int` that the four bytes `b 0 .. b 3` spell, least significant byte
first. -/
def le_int (b : Nat → Byte) : Int :=
  toInt32 ((b 0 % 256 + 256 * (b 1 % 256) + 65536 * (b 2 % 256) + 16777216 * (b 3 % 256) : Nat) :
    Int)

/-- Byte `p` of a `char[15]` that `strcpy` has filled with `name`: the
characters, then zeros. -/
def name_bytes (name : String) (p : Nat) : Byte :=
  match name.toList.get? p with
  | some c => c.toNat
  | none => 0

/-- The string that the bytes of a `char[15]` spell: the characters before the
first zero. -/
def name_of (b : Nat → Byte) : String :=
  String.mk ((((List.range MAX_SIZE_FILENAME).map b).takeWhile (fun c => c ≠ 0)).map Char.ofNat)

/-- Byte `p` of a `directory_t`: the name in bytes 0 to 14, `file_size` from
byte 16, `first_block_num` from byte 20, `total_fds` from byte 24, `busy` in
byte 28, padding elsewhere. -/
def entry_bytes (e : directory_t) (p : Nat) : Byte :=
  if p < 15 then name_bytes e.file_name p
  else if 16 ≤ p ∧ p < 20 then le_bytes e.file_size (p - 16)
  else if 20 ≤ p ∧ p < 24 then le_bytes e.first_block_num (p - 20)
  else if 24 ≤ p ∧ p < 28 then le_bytes e.total_fds (p - 24)
  else if p = 28 then (if e.busy then 1 else 0)
  else 0

/-- The `directory_t` that 32 bytes spell. -/
def entry_of (b : Nat → Byte) : directory_t :=
  { file_name := name_of b
    file_size := le_int (fun j => b (16 + j))
    first_block_num := le_int (fun j => b (20 + j))
    total_fds := le_int (fun j => b (24 + j))
    busy := decide (b 28 ≠ 0) }

/-- Byte `p` of a `fat_t`: `busy` in byte 0, `next` from byte 4. -/
def fat_entry_bytes (e : fat_t) (p : Nat) : Byte :=
  if p = 0 then (if e.busy then 1 else 0)
  else if 4 ≤ p ∧ p < 8 then le_bytes e.next (p - 4)
  else 0

/-- The `fat_t` that 8 bytes spell. -/
def fat_entry_of (b : Nat → Byte) : fat_t :=
  { busy := decide (b 0 ≠ 0), next := le_int (fun j => b (4 + j)) }

/-- The layout of the records on a machine with 4-byte little-endian `int`s
and 8-byte pointers: `sizeof(fat_t) = 8`, `sizeof(directory_t) = 32`,
`sizeof(super_block_t) = 40`. An entry that a copy covers only in part is left
as it was. -/
def lp64le : Layout :=
  { sizeof_fat_t := 8, sizeof_directory_t := 32, sizeof_super_block_t := 40,
    sizeof_pointer := 8, sizeof_int := 4,
    fat_bytes := fun a k => fat_entry_bytes (a (k / 8)) (k % 8),
    dir_bytes := fun a k => entry_bytes (a (k / 32)) (k % 32),
    int_bytes := le_bytes,
    sb_tail := fun _ => 0,
    load_int := le_int,
    fat_store := fun a off n b i =>
      if off ≤ 8 * i ∧ 8 * i + 8 ≤ off + n then fat_entry_of (fun p => b (8 * i - off + p))
      else a i,
    dir_store := fun a off n b i =>
      if off ≤ 32 * i ∧ 32 * i + 32 ≤ off + n then entry_of (fun p => b (32 * i - off + p))
      else a i }

@[simp] theorem upd_same {α : Type} (f : Nat → α) (i : Nat) (v : α) : upd f i v i = v := by
  simp [upd]

@[simp] theorem upd_other {α : Type} (f : Nat → α) (i j : Nat) (v : α) (h : j ≠ i) :
    upd f i v j = f j := by
  simp [upd, h]

theorem upd_apply {α : Type} (f : Nat → α) (i j : Nat) (v : α) :
    upd f i v j = if j = i then v else f j := rfl

theorem firstIdx_eq_some (p : Nat → Bool) (n i k : Nat) :
    firstIdx p n i = some k ↔
      i ≤ k ∧ k < i + n ∧ p k = true ∧ ∀ j, i ≤ j → j < k → p j = false := by
  induction n generalizing i with
  | zero =>
    simp only [firstIdx]
    constructor
    · intro h; cases h
    · rintro ⟨h1, h2, _⟩; omega
  | succ n ih =>
    simp only [firstIdx]
    by_cases hp : p i = true
    · simp only [hp, if_true, Option.some.injEq]
      constructor
      · rintro rfl
        exact ⟨le_refl _, by omega, hp, fun j h1 h2 => by omega⟩
      · rintro ⟨h1, _, _, h4⟩
        by_contra hne
        have := h4 i (le_refl _) (by omega)
        simp [hp] at this
    · have hp2 : p i = false := by simpa using hp
      simp only [hp2, Bool.false_eq_true, if_false, ih]
      constructor
      · rintro ⟨h1, h2, h3, h4⟩
        refine ⟨by omega, by omega, h3, fun j hj1 hj2 => ?_⟩
        by_cases hji : j = i
        · subst hji; exact hp2
        · exact h4 j (by omega) hj2
      · rintro ⟨h1, h2, h3, h4⟩
        have hik : i ≠ k := by
          rintro rfl
          simp [hp2] at h3
        exact ⟨by omega, by omega, h3, fun j hj1 hj2 => h4 j (by omega) hj2⟩

theorem firstIdx_eq_none (p : Nat → Bool) (n i : Nat) :
    firstIdx p n i = none ↔ ∀ j, i ≤ j → j < i + n → p j = false := by
  induction n generalizing i with
  | zero =>
    simp only [firstIdx, true_iff]
    intro j h1 h2; omega
  | succ n ih =>
    simp only [firstIdx]
    by_cases hp : p i = true
    · simp only [hp, if_true]
      constructor
      · intro h; cases h
      · intro h
        have := h i (le_refl _) (by omega)
        simp [hp] at this
    · have hp2 : p i = false := by simpa using hp
      simp only [hp2, Bool.false_eq_true, if_false, ih]
      constructor
      · intro h j hj1 hj2
        by_cases hji : j = i
        · subst hji; exact hp2
        · exact h j (by omega) (by omega)
      · intro h j hj1 hj2
        exact h j (by omega) (by omega)

theorem get_dir_index_eq_some (st : State) (name : String) (k : Nat) :
    get_dir_index st name = some k ↔
      k < MAX_NUM_FILES ∧ (st.my_directory k).busy = true ∧
        (st.my_directory k).file_name = name ∧
        ∀ j, j < k → ¬ ((st.my_directory j).busy = true ∧ (st.my_directory j).file_name = name) := by
  unfold get_dir_index
  rw [firstIdx_eq_some]
  simp only [Nat.zero_le, zero_add, true_and, Bool.and_eq_true, decide_eq_true_eq,
    Bool.and_eq_false_imp, decide_eq_false_iff_not, true_implies, not_and]
  constructor
  · rintro ⟨h1, ⟨h2, h3⟩, h4⟩
    exact ⟨h1, h2, h3, h4⟩
  · rintro ⟨h1, h2, h3, h4⟩
    exact ⟨h1, ⟨h2, h3⟩, h4⟩

theorem get_dir_index_eq_none (st : State) (name : String) :
    get_dir_index st name = none ↔ ¬ nameTaken st name := by
  unfold get_dir_index nameTaken
  rw [firstIdx_eq_none]
  simp only [Nat.zero_le, zero_add, true_implies, Bool.and_eq_false_imp, decide_eq_false_iff_not,
    not_exists, not_and]

theorem get_dir_index_isSome (st : State) (name : String) :
    (get_dir_index st name).isSome = true ↔ nameTaken st name := by
  rw [← not_iff_not, ← get_dir_index_eq_none]
  cases get_dir_index st name <;> simp

/-! ## fs_create -/

theorem free_slot_scan_none (st : State) :
    firstIdx (fun i => !(st.my_directory i).busy) MAX_NUM_FILES 0 = none ↔ ¬ hasFreeSlot st := by
  rw [firstIdx_eq_none]
  unfold hasFreeSlot
  simp

theorem free_slot_scan_some (st : State) (i : Nat) :
    firstIdx (fun i => !(st.my_directory i).busy) MAX_NUM_FILES 0 = some i ↔
      i < MAX_NUM_FILES ∧ (st.my_directory i).busy = false ∧
        ∀ j, j < i → (st.my_directory j).busy = true := by
  rw [firstIdx_eq_some]
  simp only [Nat.zero_le, zero_add, true_and, Bool.not_eq_true', true_implies,
    Bool.not_eq_false']

theorem fs_create_refused (st : State) (name : String) (h : createRefused st name) :
    fs_create st name = (-1, st) := by
  unfold fs_create
  by_cases h1 : st.dir_size ≥ (MAX_NUM_FILES : Int)
  · simp only [h1, if_true]
  simp only [h1, if_false]
  by_cases h2 : name.length > MAX_SIZE_FILENAME
  · simp only [h2, if_true]
  simp only [h2, if_false]
  by_cases h3 : (get_dir_index st name).isSome = true
  · simp only [h3, if_true]
  simp only [h3, if_false]
  rcases h with h | h | h | h
  · exact absurd h h1
  · rw [(free_slot_scan_none st).2 h]
    simp
  · exact absurd h h2
  · exact absurd ((get_dir_index_isSome st name).2 h) h3

theorem fs_create_accepted (st : State) (name : String) (h : ¬ createRefused st name) :
    ∃ i, i < MAX_NUM_FILES ∧ (st.my_directory i).busy = false ∧
      (∀ j, j < i → (st.my_directory j).busy = true) ∧
      fs_create st name =
        (0, { st with dir_size := st.dir_size + 1
                      my_directory := upd st.my_directory i (newEntry name) }) := by
  unfold createRefused at h
  simp only [not_or, not_not] at h
  obtain ⟨h1, h2, h3, h4⟩ := h
  have h4b : ¬ (get_dir_index st name).isSome = true := fun hc =>
    h4 ((get_dir_index_isSome st name).1 hc)
  cases hscan : firstIdx (fun i => !(st.my_directory i).busy) MAX_NUM_FILES 0 with
  | none => exact absurd h2 ((free_slot_scan_none st).1 hscan)
  | some i =>
    obtain ⟨hi1, hi2, hi3⟩ := (free_slot_scan_some st i).1 hscan
    refine ⟨i, hi1, hi2, hi3, ?_⟩
    unfold fs_create
    have h1b : st.dir_size < 64 := by
      have := h1
      simp only [MAX_NUM_FILES, Nat.cast_ofNat] at this
      omega
    simp [h1b, h3, h4b, hscan, newEntry]

theorem namesDistinct_create (st : State) (name : String) (i : Nat)
    (hnew : ¬ nameTaken st name)
    (hd : namesDistinct st) :
    namesDistinct { st with dir_size := st.dir_size + 1
                            my_directory := upd st.my_directory i (newEntry name) } := by
  intro a b ha hb hba hbb hname
  simp only [upd_apply] at hba hbb hname
  by_cases hai : a = i <;> by_cases hbi : b = i
  · omega
  · simp only [hai, hbi, if_true, if_false, newEntry] at hbb hname
    exact absurd ⟨b, hb, hbb, hname.symm⟩ hnew
  · simp only [hai, hbi, if_true, if_false, newEntry] at hba hname
    exact absurd ⟨a, ha, hba, hname⟩ hnew
  · simp only [hai, hbi, if_false] at hba hbb hname
    exact hd a b ha hb hba hbb hname

/-- C10. `fs_create` returns -1 exactly when the entry count has reached
`MAX_NUM_FILES`, or no slot is unoccupied, or the name is longer than
`MAX_SIZE_FILENAME`, or an occupied slot already holds the name, and then the
state is unchanged; otherwise it returns 0, fills the lowest unoccupied slot
with the name, size 0, no head block, no descriptor, occupied, adds one to the
entry count, changes nothing else, and keeps occupied names pairwise distinct. -/
theorem fs_create_contract (st : State) (name : String) :
    ((fs_create st name).1 = -1 ↔ createRefused st name) ∧
    (createRefused st name → (fs_create st name).2 = st) ∧
    (¬ createRefused st name →
      ∃ i, i < MAX_NUM_FILES ∧ (st.my_directory i).busy = false ∧
        (∀ j, j < i → (st.my_directory j).busy = true) ∧
        fs_create st name =
          (0, { st with dir_size := st.dir_size + 1
                        my_directory := upd st.my_directory i (newEntry name) }) ∧
        (∀ j, j ≠ i → (fs_create st name).2.my_directory j = st.my_directory j) ∧
        (namesDistinct st → namesDistinct (fs_create st name).2)) := by
  refine ⟨⟨fun h => ?_, fun h => ?_⟩, fun h => ?_, fun h => ?_⟩
  · by_contra hn
    obtain ⟨i, _, _, _, he⟩ := fs_create_accepted st name hn
    rw [he] at h
    simp at h
  · rw [fs_create_refused st name h]
  · rw [fs_create_refused st name h]
  · obtain ⟨i, h1, h2, h3, he⟩ := fs_create_accepted st name h
    refine ⟨i, h1, h2, h3, he, ?_, ?_⟩
    · intro j hj
      rw [he]
      simp [hj]
    · intro hd
      rw [he]
      exact namesDistinct_create st name i (fun hc => h (Or.inr (Or.inr (Or.inr hc)))) hd

/-! ## fs_create followed by fs_delete -/

theorem delete_chain_none (N fuel : Nat) (st : State) :
    delete_chain N fuel st (-1) = some st := by
  cases fuel <;> simp [delete_chain]

/-- C9. When `fs_create(name)` returns 0, an immediately following
`fs_delete(name)` returns 0 and the allocation table, the occupied directory
entries (with all their fields), the entry count, `total_data_storage` and
`avail_data_blocks` (and the descriptor table and the device) are as before
the create. -/
theorem create_delete_roundtrip (N : Nat) (st st1 : State) (name : String)
    (hc : fs_create st name = (0, st1)) :
    ∃ st2, fs_delete N st1 name = some (0, st2) ∧
      st2.my_fat = st.my_fat ∧
      (∀ i, (st2.my_directory i).busy = (st.my_directory i).busy) ∧
      (∀ i, (st.my_directory i).busy = true → st2.my_directory i = st.my_directory i) ∧
      st2.dir_size = st.dir_size ∧
      st2.total_data_storage = st.total_data_storage ∧
      st2.avail_data_blocks = st.avail_data_blocks ∧
      st2.my_fds = st.my_fds ∧ st2.disk = st.disk := by
  have hnr : ¬ createRefused st name := by
    intro h
    rw [fs_create_refused st name h] at hc
    simp at hc
  obtain ⟨i, hi1, hi2, hi3, he⟩ := fs_create_accepted st name hnr
  rw [he] at hc
  have hst1 : st1 = { st with dir_size := st.dir_size + 1
                              my_directory := upd st.my_directory i (newEntry name) } :=
    (Prod.mk.inj hc).2.symm
  have hnt : ¬ nameTaken st name := fun h => hnr (Or.inr (Or.inr (Or.inr h)))
  have hidx : get_dir_index st1 name = some i := by
    rw [get_dir_index_eq_some]
    subst hst1
    refine ⟨hi1, by simp [newEntry], by simp [newEntry], ?_⟩
    intro j hj
    have hji : j ≠ i := by omega
    simp only [upd_other _ _ _ _ hji]
    intro hc2
    exact hnt ⟨j, by omega, hc2.1, hc2.2⟩
  unfold fs_delete
  rw [hidx]
  subst hst1
  simp only [upd_same, newEntry, ne_eq, not_true_eq_false, if_false, UNASSIGNED,
    delete_chain_none]
  refine ⟨_, rfl, rfl, ?_, ?_, ?_, ?_, rfl, rfl, rfl⟩
  · intro j
    by_cases hji : j = i
    · subst hji; simp [hi2]
    · simp [hji]
  · intro j hj
    have hji : j ≠ i := by
      rintro rfl
      rw [hi2] at hj
      cases hj
    simp [hji]
  · simp
  · simp

/-- C9 at a concrete input: create and delete "a.txt" on the formatted store. -/
theorem create_delete_roundtrip_witness :
    fs_create fresh "a.txt" = (0, (fs_create fresh "a.txt").2) ∧
    ∃ st2, fs_delete 8192 (fs_create fresh "a.txt").2 "a.txt" = some (0, st2) ∧
      st2.my_fat = fresh.my_fat ∧
      (∀ i, (st2.my_directory i).busy = (fresh.my_directory i).busy) ∧
      (∀ i, (fresh.my_directory i).busy = true → st2.my_directory i = fresh.my_directory i) ∧
      st2.dir_size = fresh.dir_size ∧
      st2.total_data_storage = fresh.total_data_storage ∧
      st2.avail_data_blocks = fresh.avail_data_blocks ∧
      st2.my_fds = fresh.my_fds ∧ st2.disk = fresh.disk :=
  ⟨Prod.ext (by decide) rfl,
   create_delete_roundtrip 8192 fresh _ "a.txt" (Prod.ext (by decide) rfl)⟩

/-! ## The code evaluated at inputs where it leaves the specification -/

/-- C3 (the code at the failing input). With one byte of capacity left the
request of 2 bytes is capped to 1: `fs_write` stores one byte in the first
block and returns 1 through the final `return bytes_written` (line 537), which
skips the "move to end" block: the descriptor's offset is still 0, not 1. -/
theorem fs_write_capped_keeps_offset :
    fd_lookup nearlyFull 0 = some { file_name := "big", dir_index := 0, offset := 0 } ∧
    (fs_write 4096 8192 nearlyFull 0 (fun _ => 88) 2).map
        (fun r => (r.1, (fd_lookup r.2 0).map (fun fd => fd.offset), r.2.disk 4096 0)) =
      some (1, some 0, 88) := by
  decide

/-- C5 (the code at the failing input). Truncating the one-block file of
`wrote5` to length 0 returns 0 and sets the size to 0, but the block stays
busy and stays the head of the file, and `avail_data_blocks` is unchanged:
zero blocks are released where the chain length minus `ceil(0 / B)` is one.
On the still empty file of `opened` (head -1) the same call has no defined
result: line 575 reads `my_fat[-1]`. -/
theorem fs_truncate_zero_keeps_head :
    (wrote5.my_directory 0).file_size = 5 ∧
    (wrote5.my_directory 0).first_block_num = 4096 ∧
    wrote5.my_fat 4096 = { busy := true, next := -1 } ∧
    wrote5.avail_data_blocks = 4096 ∧
    (fs_truncate 4096 8192 wrote5 0 0).map
        (fun r => (r.1, fs_get_filesize r.2 0, (r.2.my_directory 0).first_block_num,
          r.2.my_fat 4096, r.2.avail_data_blocks)) =
      some (0, 0, 4096, { busy := true, next := -1 }, 4096) ∧
    (opened.my_directory 0).first_block_num = -1 ∧
    (fs_truncate 4096 8192 opened 0 0).map (fun r => r.1) = none := by
  decide

/-- C6 (the code at the failing input). Descriptors 0 and 1 are bound to the
same file of 10 bytes, descriptor 1 at offset 10. `fs_truncate(0, 5)` returns 0
and leaves descriptor 1 at offset 10, beyond the new size 5. -/
theorem fs_truncate_leaves_other_descriptor :
    (fd_lookup twoFds 0).map (fun fd => (fd.dir_index, fd.offset)) = some (0, 0) ∧
    (fd_lookup twoFds 1).map (fun fd => (fd.dir_index, fd.offset)) = some (0, 10) ∧
    (fs_truncate 4096 8192 twoFds 0 5).map
        (fun r => (r.1, (r.2.my_directory 0).file_size,
          (fd_lookup r.2 1).map (fun fd => (fd.dir_index, fd.offset)))) =
      some (0, 5, some (0, 10)) := by
  decide

/-- C8 (the code at the failing input). Deleting the closed one-block file of
`closed5` returns 0, frees block 4096 and clears its `next`, but takes
`avail_data_blocks` from 4096 down to 4095 (line 327 decrements). -/
theorem fs_delete_decrements_avail :
    (closed5.my_directory 0).busy = true ∧
    (closed5.my_directory 0).total_fds = 0 ∧
    (closed5.my_directory 0).first_block_num = 4096 ∧
    closed5.my_fat 4096 = { busy := true, next := -1 } ∧
    closed5.avail_data_blocks = 4096 ∧
    (fs_delete 8192 closed5 "a").map
        (fun r => (r.1, r.2.my_fat 4096, (r.2.my_directory 0).busy, r.2.avail_data_blocks)) =
      some (0, { busy := false, next := -1 }, false, 4095) := by
  decide

/-! ## Chains -/

@[simp] theorem IsChain_nil (N : Nat) (fat : Nat → fat_t) (h : Int) :
    IsChain N fat h [] ↔ h = -1 := Iff.rfl

@[simp] theorem IsChain_cons (N : Nat) (fat : Nat → fat_t) (h : Int) (b : Nat) (bs : List Nat) :
    IsChain N fat h (b :: bs) ↔ h = (b : Int) ∧ b < N ∧ IsChain N fat (fat b).next bs :=
  Iff.rfl

theorem IsChain_drop (N : Nat) (fat : Nat → fat_t) (bs : List Nat) (h : Int) (q : Nat)
    (hc : IsChain N fat h bs) (hq : q < bs.length) :
    bs.getD q 0 < N ∧ IsChain N fat (bs.getD q 0 : Int) (bs.drop q) ∧
      IsChain N fat (fat (bs.getD q 0)).next (bs.drop (q + 1)) := by
  induction q generalizing bs h with
  | zero =>
    cases bs with
    | nil => simp at hq
    | cons b bs =>
      obtain ⟨_, h2, h3⟩ := hc
      exact ⟨h2, ⟨rfl, h2, h3⟩, h3⟩
  | succ q ih =>
    cases bs with
    | nil => simp at hq
    | cons b bs =>
      obtain ⟨_, _, h3⟩ := hc
      have := ih bs _ h3 (by simpa using hq)
      simpa using this

theorem IsChain_head_ne (N : Nat) (fat : Nat → fat_t) (bs : List Nat) (h : Int)
    (hc : IsChain N fat h bs) (hne : bs ≠ []) : h = (bs.getD 0 0 : Int) ∧ h ≠ -1 := by
  cases bs with
  | nil => exact absurd rfl hne
  | cons b bs =>
    obtain ⟨h1, _, _⟩ := hc
    subst h1
    simp only [List.getD_cons_zero, true_and]
    omega

theorem ceilDiv_spec (a b len : Nat) (hb : 0 < b) :
    len = ceilDiv a b ↔ a ≤ len * b ∧ len * b < a + b := by
  unfold ceilDiv
  constructor
  · intro h
    subst h
    have h1 := Nat.div_mul_le_self (a + b - 1) b
    have h2 := Nat.lt_div_mul_add hb (a := a + b - 1)
    constructor <;> omega
  · rintro ⟨h1, h2⟩
    symm
    apply Nat.div_eq_of_lt_le
    · omega
    · rw [Nat.succ_mul]; omega

/-! ## File contents -/

theorem fileSlice_zero (B : Nat) (disk : Nat → Nat → Byte) (bs : List Nat) (o : Nat) :
    fileSlice B disk bs o 0 = [] := rfl

theorem fileSlice_length (B : Nat) (disk : Nat → Nat → Byte) (bs : List Nat) (o n : Nat) :
    (fileSlice B disk bs o n).length = n := by
  simp [fileSlice]

theorem fileSlice_add (B : Nat) (disk : Nat → Nat → Byte) (bs : List Nat) (o a b : Nat) :
    fileSlice B disk bs o (a + b) = fileSlice B disk bs o a ++ fileSlice B disk bs (o + a) b := by
  unfold fileSlice
  rw [List.range_add, List.map_append, List.map_map]
  congr 1
  apply List.map_congr_left
  intro i _
  simp [Nat.add_assoc]

theorem fileByte_block (B : Nat) (disk : Nat → Nat → Byte) (bs : List Nat) (q j : Nat)
    (hj : j < B) : fileByte B disk bs (q * B + j) = disk (bs.getD q 0) j := by
  unfold fileByte
  have hB : 0 < B := by omega
  have h1 : (q * B + j) / B = q := by
    rw [Nat.add_comm, Nat.add_mul_div_right _ _ hB, Nat.div_eq_of_lt hj, Nat.zero_add]
  have h2 : (q * B + j) % B = j := by
    rw [Nat.add_comm, Nat.add_mul_mod_self_right, Nat.mod_eq_of_lt hj]
  rw [h1, h2]

theorem fileSlice_block (B : Nat) (disk : Nat → Nat → Byte) (bs : List Nat) (q r k : Nat)
    (hk : r + k ≤ B) :
    fileSlice B disk bs (q * B + r) k = (List.range k).map (fun j => disk (bs.getD q 0) (r + j)) := by
  unfold fileSlice
  apply List.map_congr_left
  intro i hi
  have hi2 : i < k := List.mem_range.1 hi
  rw [Nat.add_assoc]
  exact fileByte_block B disk bs q (r + i) (by omega)

/-! ## fs_read -/

theorem block_read_in (N : Nat) (disk : Nat → Nat → Byte) (b : Nat) (hb : b < N) :
    block_read N disk (b : Int) = some (disk b) := by
  unfold block_read inTable
  have h : 0 ≤ (b : Int) ∧ (b : Int) < (N : Int) := ⟨by omega, by omega⟩
  simp [h]

theorem inTable_nat (N b : Nat) : inTable N (b : Int) ↔ b < N := by
  unfold inTable
  constructor
  · intro h; omega
  · intro h; exact ⟨by omega, by omega⟩

theorem read_skip_chain (B N : Nat) (fat : Nat → fat_t) (q : Nat) :
    ∀ (bs : List Nat) (cur : Int) (fuel r : Nat), IsChain N fat cur bs → q < bs.length →
      r < B → q < fuel →
      read_skip B N fat fuel cur ((q * B + r : Nat) : Int) =
        some (some ((bs.getD q 0 : Int), (r : Int))) := by
  induction q with
  | zero =>
    intro bs cur fuel r hc hq hr hf
    obtain ⟨hcur, _⟩ := IsChain_head_ne N fat bs cur hc (by intro h; simp [h] at hq)
    cases fuel with
    | zero => omega
    | succ fuel =>
      have h1 : ¬ (((0 * B + r : Nat) : Int) ≥ (B : Int)) := by
        rw [Nat.zero_mul]; omega
      simp only [read_skip, h1, if_false, hcur]
      simp
  | succ q ih =>
    intro bs cur fuel r hc hq hr hf
    cases bs with
    | nil => simp at hq
    | cons b bs =>
      obtain ⟨h1, h2, h3⟩ := hc
      subst h1
      cases fuel with
      | zero => omega
      | succ fuel =>
        have hq2 : q < bs.length := by simpa using hq
        obtain ⟨hn1, hn2⟩ := IsChain_head_ne N fat bs _ h3 (by intro h; simp [h] at hq2)
        have hge : (((q + 1) * B + r : Nat) : Int) ≥ (B : Int) := by
          rw [Nat.succ_mul]; omega
        have hsub : (((q + 1) * B + r : Nat) : Int) - (B : Int) = ((q * B + r : Nat) : Int) := by
          rw [Nat.succ_mul]; omega
        simp only [read_skip, hge, if_true, (inTable_nat N b).2 h2, Int.toNat_ofNat, hn2,
          if_false, hsub]
        rw [ih bs _ fuel r h3 hq2 hr (by omega)]
        simp

theorem read_loop_chain (B N : Nat) (fat : Nat → fat_t) (disk : Nat → Nat → Byte)
    (bs : List Nat) (hB : 0 < B) :
    ∀ (fuel q rem : Nat) (cur : Int) (out : List Byte), IsChain N fat cur (bs.drop q) →
      q * B + rem ≤ bs.length * B → rem < fuel →
      read_loop B N fat disk fuel cur rem out =
        some (true, out ++ fileSlice B disk bs (q * B) rem) := by
  intro fuel
  induction fuel with
  | zero => intro q rem cur out _ _ hf; omega
  | succ fuel ih =>
    intro q rem cur out hc hle hf
    by_cases hrem : rem = 0
    · subst hrem
      simp [read_loop, fileSlice_zero]
    · have hpos : rem > 0 := by omega
      have hq : q < bs.length := by
        by_contra hn
        have : bs.length * B ≤ q * B := Nat.mul_le_mul_right B (by omega)
        omega
      have hq1 : (q + 1) * B ≤ bs.length * B := Nat.mul_le_mul_right B hq
      have hd : bs.drop q = bs.getD q 0 :: bs.drop (q + 1) := by
        rw [List.getD_eq_getElem _ _ hq]
        exact List.drop_eq_getElem_cons hq
      rw [hd] at hc
      obtain ⟨h1, h2, h3⟩ := hc
      subst h1
      have hne : ¬ ((bs.getD q 0 : Int) = -1) := by omega
      simp only [read_loop, hpos, if_true, hne, if_false, block_read_in N disk _ h2,
        Int.toNat_ofNat]
      by_cases hlt : rem < B
      · simp only [hlt, if_true, Nat.sub_self]
        rw [ih (q + 1) 0 _ _ h3 (by omega) (by omega)]
        rw [fileSlice_zero, List.append_nil]
        have := fileSlice_block B disk bs q 0 rem (by omega)
        simp only [Nat.add_zero, Nat.zero_add] at this
        rw [this]
      · simp only [hlt, if_false]
        rw [ih (q + 1) (rem - B) _ _ h3 (by rw [Nat.succ_mul] at hq1 ⊢; omega) (by omega)]
        have hsplit : rem = B + (rem - B) := by omega
        conv_rhs => rw [hsplit, fileSlice_add]
        have := fileSlice_block B disk bs q 0 B (by omega)
        simp only [Nat.add_zero, Nat.zero_add] at this
        rw [this, Nat.succ_mul, List.append_assoc]

theorem toSizeT_of_nonneg (x : Int) (h0 : 0 ≤ x) (h1 : x < 2 ^ 64) : toSizeT x = x.toNat := by
  unfold toSizeT
  rw [Int.emod_eq_of_lt h0 h1]

theorem state_fds_self (st : State) (i : Nat) (fd : fd_t) (h : st.my_fds i = some fd) :
    { st with my_fds := upd st.my_fds i (some { fd with offset := fd.offset + (0 : Nat) }) } = st := by
  have : upd st.my_fds i (some { fd with offset := fd.offset + (0 : Nat) }) = st.my_fds := by
    funext j
    by_cases hj : j = i
    · subst hj; simp [h]
    · simp [hj]
  rw [this]

theorem fd_lookup_some (st : State) (fildes : Int) (fd : fd_t) (h : fd_lookup st fildes = some fd) :
    0 ≤ fildes ∧ fildes < 32 ∧ st.my_fds fildes.toNat = some fd := by
  unfold fd_lookup at h
  by_cases hc : fildes < 0 ∨ fildes ≥ (MAX_NUM_FD : Int)
  · rw [if_pos hc] at h; cases h
  · rw [if_neg hc] at h
    simp only [MAX_NUM_FD, Nat.cast_ofNat] at hc
    exact ⟨by omega, by omega, h⟩

/-- What `fs_read` does on a descriptor inside its file, for a request the
guards accept. -/
theorem fs_read_ok (B N : Nat) (hB : 0 < B) (st : State) (fildes : Int) (nbyte : Nat)
    (fd : fd_t) (bs : List Nat)
    (hfd : fd_lookup st fildes = some fd)
    (hch : ChainOK B N st.my_fat (st.my_directory fd.dir_index) bs)
    (hsmax : (st.my_directory fd.dir_index).file_size ≤ INT_MAX)
    (hoff : 0 ≤ fd.offset) (hoff2 : fd.offset ≤ (st.my_directory fd.dir_index).file_size)
    (hn : 0 < nbyte) (hmax : nbyte ≤ MAX_FILE_SIZE B) :
    fs_read B N st fildes nbyte =
      some (((min nbyte ((st.my_directory fd.dir_index).file_size - fd.offset).toNat : Nat) : Int),
        fileSlice B st.disk bs fd.offset.toNat
          (min nbyte ((st.my_directory fd.dir_index).file_size - fd.offset).toNat),
        { st with
            my_fds := upd st.my_fds fildes.toNat
              (some { fd with offset := fd.offset +
                (min nbyte ((st.my_directory fd.dir_index).file_size - fd.offset).toNat : Nat) }) }) := by
  obtain ⟨hc, hs0, hlen, _⟩ := hch
  obtain ⟨_, _, hfds⟩ := fd_lookup_some st fildes fd hfd
  obtain ⟨hle1, hle2⟩ := (ceilDiv_spec _ B _ hB).1 hlen
  generalize hS : (st.my_directory fd.dir_index).file_size = size at *
  generalize ho : fd.offset = offset at *
  obtain ⟨S, rfl⟩ := Int.eq_ofNat_of_zero_le hs0
  obtain ⟨o, rfl⟩ := Int.eq_ofNat_of_zero_le hoff
  have hoS : o ≤ S := by omega
  have hsz : toSizeT ((S : Int) - (o : Int)) = S - o := by
    rw [toSizeT_of_nonneg _ (by omega) (by simp only [INT_MAX] at hsmax; omega)]
    omega
  have htn : ((S : Int) - (o : Int)).toNat = S - o := by omega
  simp only [Int.toNat_ofNat] at hle1 hle2 ⊢
  rw [htn]
  unfold fs_read
  have hg : ¬ (nbyte = 0 ∨ nbyte > MAX_FILE_SIZE B) := by omega
  simp only [hg, if_false, hfd, hS, ho, hsz, Int.toNat_ofNat]
  by_cases ha : S - o = 0
  · simp only [ha, if_true, Nat.min_zero, fileSlice_zero]
    have := state_fds_self st fildes.toNat fd hfds
    rw [ho] at this
    rw [this]
    simp
  · simp only [ha, if_false]
    have hbsne : bs ≠ [] := by
      intro h
      subst h
      simp at hle1
      omega
    obtain ⟨hh1, hh2⟩ := IsChain_head_ne N st.my_fat bs _ hc hbsne
    simp only [hh2, if_false]
    have hmin : (if S - o > nbyte then nbyte else S - o) = min nbyte (S - o) := by
      split <;> omega
    rw [hmin]
    generalize hn' : min nbyte (S - o) = n'
    have hn'1 : 0 < n' := by omega
    have hn'2 : o + n' ≤ S := by omega
    -- the skip loop
    have hq : o / B < bs.length := by
      rw [Nat.div_lt_iff_lt_mul hB]; omega
    have hr : o % B < B := Nat.mod_lt _ hB
    have hsplit : o = o / B * B + o % B := (Nat.div_add_mod' o B).symm
    generalize hqq : o / B = q at hq hsplit
    generalize hrr : o % B = r at hr hsplit
    have hskip := read_skip_chain B N st.my_fat q bs _ (o + 1) r hc hq hr
      (by rw [hsplit]; have := Nat.le_mul_of_pos_right q hB; omega)
    rw [← hsplit] at hskip
    rw [hskip]
    obtain ⟨hd1, hd2, hd3⟩ := IsChain_drop N st.my_fat bs _ q hc hq
    have hq1 : (q + 1) * B ≤ bs.length * B := Nat.mul_le_mul_right B hq
    rw [Nat.succ_mul] at hq1
    simp only [Int.toNat_ofNat]
    by_cases hr0 : r = 0
    · subst hr0
      simp only [Nat.cast_zero, gt_iff_lt, lt_self_iff_false, if_false]
      rw [read_loop_chain B N st.my_fat st.disk bs hB (n' + 1) q n' _ [] hd2 (by omega) (by omega)]
      simp only [Nat.add_zero] at hsplit
      simp only [read_finish, List.nil_append, fileSlice_length, ← hsplit, ho]
    · have hrpos : (r : Int) > 0 := by omega
      have hne : ¬ ((bs.getD q 0 : Int) = -1) := by omega
      simp only [hrpos, if_true, hne, if_false, block_read_in N st.disk _ hd1]
      generalize hk : (if n' + r < B then n' else B - r) = k
      have hk1 : r + k ≤ B := by rw [← hk]; split <;> omega
      have hk2 : k ≤ n' := by rw [← hk]; split <;> omega
      rw [read_loop_chain B N st.my_fat st.disk bs hB (n' - k + 1) (q + 1) (n' - k) _ _ hd3
        (by rw [Nat.succ_mul, ← hk]; split <;> omega) (by omega)]
      have hA := fileSlice_block B st.disk bs q r k hk1
      rw [← hsplit] at hA
      have hB2 : fileSlice B st.disk bs ((q + 1) * B) (n' - k) =
          fileSlice B st.disk bs (o + k) (n' - k) := by
        by_cases hz : n' - k = 0
        · rw [hz, fileSlice_zero, fileSlice_zero]
        · have : (q + 1) * B = o + k := by
            rw [Nat.succ_mul]
            by_cases hlt : n' + r < B
            · rw [if_pos hlt] at hk; omega
            · rw [if_neg hlt] at hk; omega
          rw [this]
      rw [hB2, ← hA, ← fileSlice_add]
      have : k + (n' - k) = n' := by omega
      rw [this]
      simp only [read_finish, fileSlice_length, ho]

/-- C4 (as amended). `fs_read` returns -1 and changes nothing for an
out-of-range or unbound descriptor, for `nbyte = 0` and for
`nbyte > MAX_FILE_SIZE`. For a bound descriptor with `0 ≤ offset ≤ size` on a
file whose chain is consistent with its size and `0 < nbyte ≤ MAX_FILE_SIZE`
(and a size that fits an `int`) it returns `r = min(nbyte, size - offset)`, the
buffer receives exactly the
bytes `[offset, offset + r)` of the file, and only the descriptor's offset
changes, growing by `r`. -/
theorem fs_read_contract (B N : Nat) (hB : 0 < B) (st : State) (fildes : Int) (nbyte : Nat) :
    (fd_lookup st fildes = none ∨ nbyte = 0 ∨ MAX_FILE_SIZE B < nbyte →
      fs_read B N st fildes nbyte = some (-1, [], st)) ∧
    (∀ (fd : fd_t) (bs : List Nat), fd_lookup st fildes = some fd →
      ChainOK B N st.my_fat (st.my_directory fd.dir_index) bs →
      (st.my_directory fd.dir_index).file_size ≤ INT_MAX →
      0 ≤ fd.offset → fd.offset ≤ (st.my_directory fd.dir_index).file_size →
      0 < nbyte → nbyte ≤ MAX_FILE_SIZE B →
      fs_read B N st fildes nbyte =
        some (((min nbyte ((st.my_directory fd.dir_index).file_size - fd.offset).toNat : Nat) : Int),
          fileSlice B st.disk bs fd.offset.toNat
            (min nbyte ((st.my_directory fd.dir_index).file_size - fd.offset).toNat),
          { st with
              my_fds := upd st.my_fds fildes.toNat
                (some { fd with offset := fd.offset +
                  (min nbyte ((st.my_directory fd.dir_index).file_size - fd.offset).toNat
                    : Nat) }) })) := by
  constructor
  · intro h
    unfold fs_read
    by_cases hg : nbyte = 0 ∨ nbyte > MAX_FILE_SIZE B
    · rw [if_pos hg]
    · rw [if_neg hg]
      rcases h with h | h | h
      · rw [h]
      · exact absurd (Or.inl h) hg
      · exact absurd (Or.inr h) hg
  · intro fd bs hfd hch hsm h0 h1 hn hmax
    exact fs_read_ok B N hB st fildes nbyte fd bs hfd hch hsm h0 h1 hn hmax

/-- C4 at a concrete input: 10 bytes requested at offset 2 of the 5-byte file
give the 3 bytes that are left. -/
theorem fs_read_contract_witness :
    (fs_read 4096 8192 seek2 0 10).map (fun r => (r.1, r.2.1, fd_lookup r.2.2 0)) =
      some (3, [88, 88, 88], some { file_name := "a", dir_index := 0, offset := 5 }) := by
  rw [(fs_read_contract 4096 8192 (by decide) seek2 0 10).2
    { file_name := "a", dir_index := 0, offset := 2 } [4096]
    (by decide) (by decide) (by decide) (by decide) (by decide) (by decide) (by decide)]
  decide

/-- C4 as stated fails. (1) Descriptor 0 of `seek2` is bound, the chain of its
file is consistent and `nbyte = MAX_FILE_SIZE + 1 > 0`, yet `fs_read` returns
-1 (guard `nbyte > MAX_FILE_SIZE`, line 343). (2) Descriptor 1 of `truncated5`
is bound to a file with a consistent chain (size 5) and stands at offset 10;
`fs_read` of 3 bytes returns 3 bytes from beyond the end of the file and moves
the offset to 13. -/
theorem fs_read_counterexample :
    ((fd_lookup seek2 0).isSome = true ∧
      ChainOK 4096 8192 seek2.my_fat (seek2.my_directory 0) [4096] ∧
      (fs_read 4096 8192 seek2 0 16777217).map (fun r => r.1) = some (-1)) ∧
    (fd_lookup truncated5 1 = some { file_name := "a", dir_index := 0, offset := 10 } ∧
      ChainOK 4096 8192 truncated5.my_fat (truncated5.my_directory 0) [4096] ∧
      (truncated5.my_directory 0).file_size = 5 ∧
      (fs_read 4096 8192 truncated5 1 3).map
          (fun r => (r.1, r.2.1, (fd_lookup r.2.2 1).map (fun fd => fd.offset))) =
        some (3, [0, 0, 0], some 13)) := by
  decide

/-! ## Allocation -/

theorem countP_flip (L : List Nat) (p p1 : Nat → Bool) (g : Nat) (hnd : L.Nodup) (hg : g ∈ L)
    (hpg : p g = true) (hp1g : p1 g = false) (hsame : ∀ i, i ≠ g → p1 i = p i) :
    L.countP p1 + 1 = L.countP p := by
  induction L with
  | nil => simp at hg
  | cons a L ih =>
    rw [List.nodup_cons] at hnd
    by_cases hag : a = g
    · subst hag
      have hrest : L.countP p1 = L.countP p := by
        apply List.countP_congr
        intro i hi
        have : i ≠ a := fun h => hnd.1 (h ▸ hi)
        rw [hsame i this]
      rw [List.countP_cons_of_neg _ _ (by simp [hp1g]), List.countP_cons_of_pos _ _ hpg, hrest]
    · have hgL : g ∈ L := by
        rcases List.mem_cons.1 hg with h | h
        · exact absurd h.symm hag
        · exact h
      have := ih hnd.2 hgL
      simp only [List.countP_cons, hsame a hag]
      omega

theorem freeCount_congr (N : Nat) (fat fat1 : Nat → fat_t)
    (h : ∀ i, (fat1 i).busy = (fat i).busy) : freeCount N fat1 = freeCount N fat := by
  unfold freeCount
  apply List.countP_congr
  intro i _
  rw [h i]

theorem get_free_block_spec (N : Nat) (fat : Nat → fat_t) (hfree : 0 < freeCount N fat) :
    ∃ g : Nat, get_free_block N fat = (g : Int) ∧ 4096 ≤ g ∧ g < N ∧ (fat g).busy = false := by
  unfold get_free_block
  cases hscan : firstIdx (fun i => !(fat i).busy) (N - 4096) 4096 with
  | none =>
    exfalso
    rw [firstIdx_eq_none] at hscan
    unfold freeCount at hfree
    rw [List.countP_pos_iff] at hfree
    obtain ⟨a, ha, hpa⟩ := hfree
    rw [List.mem_range'_1] at ha
    have := hscan a ha.1 ha.2
    simp [this] at hpa
  | some g =>
    rw [firstIdx_eq_some] at hscan
    obtain ⟨h1, h2, h3, _⟩ := hscan
    exact ⟨g, rfl, h1, by omega, by simpa using h3⟩

theorem get_free_block_none (N : Nat) (fat : Nat → fat_t) (hfree : freeCount N fat = 0) :
    get_free_block N fat = -1 := by
  unfold get_free_block
  cases hscan : firstIdx (fun i => !(fat i).busy) (N - 4096) 4096 with
  | none => rfl
  | some g =>
    exfalso
    rw [firstIdx_eq_some] at hscan
    obtain ⟨h1, h2, h3, _⟩ := hscan
    unfold freeCount at hfree
    rw [List.countP_eq_zero] at hfree
    exact hfree g (List.mem_range'_1.2 ⟨h1, h2⟩) h3

theorem freeCount_mark (N : Nat) (fat fat1 : Nat → fat_t) (g : Nat) (h1 : 4096 ≤ g) (h2 : g < N)
    (hg : (fat g).busy = false) (hg1 : (fat1 g).busy = true)
    (hsame : ∀ i, i ≠ g → (fat1 i).busy = (fat i).busy) :
    freeCount N fat1 + 1 = freeCount N fat := by
  unfold freeCount
  apply countP_flip _ _ _ g (List.nodup_range' _ _)
  · rw [List.mem_range'_1]; omega
  · simp [hg]
  · simp [hg1]
  · intro i hi
    rw [hsame i hi]

theorem linked_busy (fat : Nat → fat_t) (c g i : Nat) :
    (linked fat c g i).busy = if i = g then true else (fat i).busy := by
  unfold linked
  simp only [upd_apply]
  by_cases h1 : i = g
  · simp only [h1, if_true]
  · by_cases h2 : i = c
    · subst h2
      simp only [h1, if_true, if_false]
    · simp only [h1, h2, if_false]

theorem linked_next (fat : Nat → fat_t) (c g i : Nat) :
    (linked fat c g i).next = if i = g then -1 else if i = c then (g : Int) else (fat i).next := by
  unfold linked
  simp only [upd_apply]
  by_cases h1 : i = g
  · simp only [h1, if_true, UNASSIGNED]
  · by_cases h2 : i = c
    · subst h2
      simp only [h1, if_true, if_false]
    · simp only [h1, h2, if_false]

theorem append_block_spec (N : Nat) (st : State) (c : Nat) (hc : c < N)
    (hfree : 0 < freeCount N st.my_fat) :
    ∃ g : Nat, 4096 ≤ g ∧ g < N ∧ (st.my_fat g).busy = false ∧
      append_block N st (c : Int) = some { st with my_fat := linked st.my_fat c g } := by
  obtain ⟨g, hg, h1, h2, h3⟩ := get_free_block_spec N st.my_fat hfree
  refine ⟨g, h1, h2, h3, ?_⟩
  unfold append_block
  simp only [(inTable_nat N c).2 hc, if_true, hg, (inTable_nat N g).2 h2, Int.toNat_ofNat, linked]

/-! ## Chains under allocation -/

theorem IsChain_unique (N : Nat) (fat : Nat → fat_t) (l1 : List Nat) :
    ∀ (l2 : List Nat) (h : Int), IsChain N fat h l1 → IsChain N fat h l2 → l1 = l2 := by
  induction l1 with
  | nil =>
    intro l2 h h1 h2
    cases l2 with
    | nil => rfl
    | cons b l2 =>
      obtain ⟨hb, _, _⟩ := h2
      have : h = -1 := h1
      omega
  | cons a l1 ih =>
    intro l2 h h1 h2
    obtain ⟨ha, _, hr⟩ := h1
    cases l2 with
    | nil =>
      have : h = -1 := h2
      omega
    | cons b l2 =>
      obtain ⟨hb, _, hr2⟩ := h2
      have hab : a = b := by omega
      subst hab
      rw [ih l2 _ hr hr2]

theorem IsChain_nodup (N : Nat) (fat : Nat → fat_t) (bs : List Nat) :
    ∀ h : Int, IsChain N fat h bs → bs.Nodup := by
  induction bs with
  | nil => intro _ _; exact List.nodup_nil
  | cons b bs ih =>
    intro h hc
    obtain ⟨_, hbN, hr⟩ := hc
    rw [List.nodup_cons]
    refine ⟨?_, ih _ hr⟩
    intro hmem
    obtain ⟨q, hq, hget⟩ := List.getElem_of_mem hmem
    obtain ⟨_, hd, _⟩ := IsChain_drop N fat bs _ q hr hq
    rw [List.getD_eq_getElem _ _ hq, hget] at hd
    have hfull : IsChain N fat (b : Int) (b :: bs) := ⟨rfl, hbN, hr⟩
    have := IsChain_unique N fat _ _ _ hd hfull
    have hl := congrArg List.length this
    simp at hl
    omega

theorem IsChain_congr (N : Nat) (fat fat1 : Nat → fat_t) (bs : List Nat) :
    ∀ h : Int, (∀ b ∈ bs, (fat1 b).next = (fat b).next) → IsChain N fat h bs →
      IsChain N fat1 h bs := by
  induction bs with
  | nil => intro h _ hc; exact hc
  | cons b bs ih =>
    intro h hsame hc
    obtain ⟨h1, h2, h3⟩ := hc
    refine ⟨h1, h2, ?_⟩
    rw [hsame b (List.mem_cons_self _ _)]
    exact ih _ (fun x hx => hsame x (List.mem_cons_of_mem _ hx)) h3

theorem IsChain_last_next (N : Nat) (fat : Nat → fat_t) (bs : List Nat) (h : Int)
    (hc : IsChain N fat h bs) (hpos : 0 < bs.length) :
    (fat (bs.getD (bs.length - 1) 0)).next = -1 := by
  obtain ⟨_, _, h3⟩ := IsChain_drop N fat bs h (bs.length - 1) hc (by omega)
  have : bs.length - 1 + 1 = bs.length := by omega
  rw [this, List.drop_length] at h3
  exact h3

theorem getD_mem (bs : List Nat) (q : Nat) (hq : q < bs.length) : bs.getD q 0 ∈ bs := by
  rw [List.getD_eq_getElem _ _ hq]
  exact List.getElem_mem _

theorem IsChain_append_linked (N : Nat) (fat : Nat → fat_t) (g : Nat) (hg : g < N) (c : Nat) :
    ∀ (bs : List Nat) (h : Int), IsChain N fat h bs → bs.Nodup → 0 < bs.length →
      c = bs.getD (bs.length - 1) 0 → g ∉ bs → IsChain N (linked fat c g) h (bs ++ [g]) := by
  intro bs
  induction bs with
  | nil => intro h _ _ hpos; simp at hpos
  | cons b bs ih =>
    intro h hc hnd _ hlast hgn
    obtain ⟨h1, h2, h3⟩ := hc
    have hbg : b ≠ g := fun e => hgn (e ▸ List.mem_cons_self _ _)
    have hgbs : g ∉ bs := fun e => hgn (List.mem_cons_of_mem _ e)
    rw [List.nodup_cons] at hnd
    cases bs with
    | nil =>
      simp only [List.length_singleton, Nat.sub_self, List.getD_cons_zero] at hlast
      subst hlast
      refine ⟨h1, h2, ?_, hg, ?_⟩
      · rw [linked_next]; simp [hbg]
      · rw [linked_next]; simp
    | cons b2 rest =>
      have hlast2 : c = (b2 :: rest).getD ((b2 :: rest).length - 1) 0 := by
        rw [hlast]; simp
      have hcm : c ∈ b2 :: rest := by
        rw [hlast2]; exact getD_mem _ _ (by simp)
      have hbc : b ≠ c := fun e => hnd.1 (e ▸ hcm)
      refine ⟨h1, h2, ?_⟩
      have hn : (linked fat c g b).next = (fat b).next := by
        rw [linked_next]; simp [hbg, hbc]
      rw [hn]
      exact ih _ h3 hnd.2 (by simp) hlast2 hgbs

/-! ## Copying into a block -/

theorem copy_in_apply (buf : Nat → Byte) (k : Nat) :
    ∀ (blk : Nat → Byte) (i w j : Nat),
      copy_in buf k blk i w j = if i ≤ j ∧ j < i + k then buf (w + (j - i)) else blk j := by
  induction k with
  | zero =>
    intro blk i w j
    have : ¬ (i ≤ j ∧ j < i + 0) := by omega
    simp only [copy_in, this, if_false]
  | succ k ih =>
    intro blk i w j
    simp only [copy_in, ih, upd_apply]
    by_cases h1 : i + 1 ≤ j ∧ j < i + 1 + k
    · have h2 : i ≤ j ∧ j < i + (k + 1) := by omega
      have h3 : w + 1 + (j - (i + 1)) = w + (j - i) := by omega
      simp only [h1, h2, and_self, if_true, h3]
    · by_cases h4 : j = i
      · subst h4
        have h2 : j ≤ j ∧ j < j + (k + 1) := by omega
        simp only [h1, h2, and_self, if_true, if_false, Nat.sub_self, Nat.add_zero]
      · have h2 : ¬ (i ≤ j ∧ j < i + (k + 1)) := by omega
        simp only [h1, h2, h4, if_false]

theorem getD_inj (bs : List Nat) (hnd : bs.Nodup) (a b : Nat) (ha : a < bs.length)
    (hb : b < bs.length) (h : bs.getD a 0 = bs.getD b 0) : a = b := by
  rw [List.getD_eq_getElem _ _ ha, List.getD_eq_getElem _ _ hb] at h
  exact (List.Nodup.getElem_inj_iff hnd).1 h

theorem disk_combine (B : Nat) (buf : Nat → Byte) (bsF : List Nat) (hnd : bsF.Nodup)
    (i w rem o n : Nat) (d0 dL : Nat → Nat → Byte)
    (hi : i + 1 < bsF.length) (hw : w + o = (i + 1) * B) (hrem : w + rem = n)
    (hL : ∀ m j, m < bsF.length → j < B →
      dL (bsF.getD m 0) j =
        if (i + 2) * B ≤ m * B + j ∧ m * B + j < o + n then buf (m * B + j - o)
        else upd d0 (bsF.getD (i + 1) 0)
          (copy_in buf (if rem < B then rem else B) (d0 (bsF.getD (i + 1) 0)) 0 w)
          (bsF.getD m 0) j) :
    ∀ m j, m < bsF.length → j < B →
      dL (bsF.getD m 0) j =
        if (i + 1) * B ≤ m * B + j ∧ m * B + j < o + n then buf (m * B + j - o)
        else d0 (bsF.getD m 0) j := by
  intro m j hm hj
  rw [hL m j hm hj]
  simp only [Nat.add_mul, Nat.one_mul] at hw ⊢
  by_cases hmi : m = i + 1
  · subst hmi
    simp only [Nat.add_mul, Nat.one_mul, upd_same, copy_in_apply]
    have hc1 : ¬ (i * B + 2 * B ≤ i * B + B + j ∧ i * B + B + j < o + n) := by omega
    simp only [hc1, if_false, Nat.zero_le, true_and, Nat.zero_add, Nat.sub_zero]
    by_cases hlt : rem < B
    · simp only [hlt, if_true]
      by_cases hj2 : j < rem
      · have hc2 : i * B + B ≤ i * B + B + j ∧ i * B + B + j < o + n := by omega
        have he : w + j = i * B + B + j - o := by omega
        simp only [hj2, hc2, and_self, if_true, he]
      · have hc2 : ¬ (i * B + B ≤ i * B + B + j ∧ i * B + B + j < o + n) := by omega
        simp only [hj2, hc2, if_false]
    · have hc2 : i * B + B ≤ i * B + B + j ∧ i * B + B + j < o + n := by omega
      have he : w + j = i * B + B + j - o := by omega
      simp only [hlt, if_false, hj, hc2, and_self, if_true, he]
  · have hne : bsF.getD m 0 ≠ bsF.getD (i + 1) 0 := fun e =>
      hmi (getD_inj bsF hnd m (i + 1) hm hi e)
    simp only [upd_other _ _ _ _ hne]
    by_cases hle : m ≤ i
    · have h1 : m * B + B ≤ i * B + B := by
        have := Nat.mul_le_mul_right B hle
        omega
      have hc1 : ¬ (i * B + 2 * B ≤ m * B + j ∧ m * B + j < o + n) := by omega
      have hc2 : ¬ (i * B + B ≤ m * B + j ∧ m * B + j < o + n) := by omega
      simp only [hc1, hc2, if_false]
    · have h1 : (i + 2) * B ≤ m * B := Nat.mul_le_mul_right B (by omega)
      simp only [Nat.add_mul] at h1
      by_cases hc : m * B + j < o + n
      · have hc1 : i * B + 2 * B ≤ m * B + j ∧ m * B + j < o + n := by omega
        have hc2 : i * B + B ≤ m * B + j ∧ m * B + j < o + n := by omega
        simp only [hc1, hc2, and_self, if_true]
      · have hc1 : ¬ (i * B + 2 * B ≤ m * B + j ∧ m * B + j < o + n) := by omega
        have hc2 : ¬ (i * B + B ≤ m * B + j ∧ m * B + j < o + n) := by omega
        simp only [hc1, hc2, if_false]

/-! ## The write loop -/

/-- One pass of the loop of `fs_write` when the current block has a successor. -/
theorem write_loop_step_next (B N : Nat) (buf : Nat → Byte) (fildes : Int) (di : Nat)
    (fuel : Nat) (st : State) (c b1 w rem : Nat) (hc : c < N) (hb1 : b1 < N)
    (hnext : (st.my_fat c).next = (b1 : Int)) (hpos : 0 < rem) :
    write_loop B N buf fildes di (fuel + 1) st (c : Int) w rem =
      if rem - (if rem < B then rem else B) = 0 then
        some (((w + (if rem < B then rem else B) : Nat) : Int),
          write_finish
            (block_write st (b1 : Int)
              (copy_in buf (if rem < B then rem else B) (st.disk b1) 0 w))
            fildes di (w + (if rem < B then rem else B)))
      else
        write_loop B N buf fildes di fuel
          (block_write st (b1 : Int) (copy_in buf (if rem < B then rem else B) (st.disk b1) 0 w))
          (b1 : Int) (w + (if rem < B then rem else B)) (rem - (if rem < B then rem else B)) := by
  have hne : ¬ ((b1 : Int) = -1) := by omega
  simp only [write_loop, hpos, if_true, (inTable_nat N c).2 hc, Int.toNat_ofNat, hnext, hne,
    if_false, block_read_in N st.disk b1 hb1]

/-- One pass of the loop of `fs_write` when the current block is the last of
its chain and `g` is the block `get_free_block` finds. -/
theorem write_loop_step_alloc (B N : Nat) (buf : Nat → Byte) (fildes : Int) (di : Nat)
    (fuel : Nat) (st : State) (c g w rem : Nat) (hc : c < N) (hg : g < N) (hcg : c ≠ g)
    (hnext : (st.my_fat c).next = -1) (hpos : 0 < rem)
    (happ : append_block N st (c : Int) = some { st with my_fat := linked st.my_fat c g }) :
    write_loop B N buf fildes di (fuel + 1) st (c : Int) w rem =
      if rem - (if rem < B then rem else B) = 0 then
        some (((w + (if rem < B then rem else B) : Nat) : Int),
          write_finish
            (block_write
              { st with my_fat := linked st.my_fat c g
                        avail_data_blocks := st.avail_data_blocks - 1 }
              (g : Int) (copy_in buf (if rem < B then rem else B) (st.disk g) 0 w))
            fildes di (w + (if rem < B then rem else B)))
      else
        write_loop B N buf fildes di fuel
          (block_write
            { st with my_fat := linked st.my_fat c g
                      avail_data_blocks := st.avail_data_blocks - 1 }
            (g : Int) (copy_in buf (if rem < B then rem else B) (st.disk g) 0 w))
          (g : Int) (w + (if rem < B then rem else B)) (rem - (if rem < B then rem else B)) := by
  have hne : ¬ ((g : Int) = -1) := by omega
  have hl : (linked st.my_fat c g c).next = (g : Int) := by
    rw [linked_next]; simp [hcg]
  simp only [write_loop, hpos, if_true, (inTable_nat N c).2 hc, Int.toNat_ofNat, hnext, happ,
    Option.map_some', hl, hne, if_false, block_read_in N st.disk g hg]

theorem getD_append_left (bs ext : List Nat) (m : Nat) (hm : m < bs.length) :
    (bs ++ ext).getD m 0 = bs.getD m 0 := by
  rw [List.getD_eq_getElem _ _ hm, List.getD_eq_getElem _ _ (by simp; omega),
    List.getElem_append_left hm]

theorem getD_append_new (bs : List Nat) (g : Nat) : (bs ++ [g]).getD bs.length 0 = g := by
  rw [List.getD_eq_getElem _ _ (by simp)]
  simp

theorem IsChain_next_eq (N : Nat) (fat : Nat → fat_t) (bs : List Nat) (h : Int) (i : Nat)
    (hc : IsChain N fat h bs) (hi : i + 1 < bs.length) :
    (fat (bs.getD i 0)).next = (bs.getD (i + 1) 0 : Int) := by
  obtain ⟨_, _, h3⟩ := IsChain_drop N fat bs h i hc (by omega)
  obtain ⟨h4, _⟩ := IsChain_head_ne N fat (bs.drop (i + 1)) _ h3
    (by intro e; have := congrArg List.length e; simp at this; omega)
  rw [h4]
  simp

theorem IsChain_next_last (N : Nat) (fat : Nat → fat_t) (bs : List Nat) (h : Int) (i : Nat)
    (hc : IsChain N fat h bs) (hi : i + 1 = bs.length) :
    (fat (bs.getD i 0)).next = -1 := by
  have := IsChain_last_next N fat bs h hc (by omega)
  have e : bs.length - 1 = i := by omega
  rw [e] at this
  exact this

/-- The loop of `fs_write` from a block boundary: with enough free blocks it
writes all `rem` remaining bytes, growing the chain only where it ends. -/
theorem write_loop_spec (B N : Nat) (hB : 0 < B) (buf : Nat → Byte) (fildes : Int) (di : Nat)
    (head : Int) (o n : Nat) :
    ∀ (fuel : Nat) (st : State) (bs : List Nat) (i w rem : Nat),
      IsChain N st.my_fat head bs → (∀ b ∈ bs, (st.my_fat b).busy = true) →
      i < bs.length → 0 < rem → rem < fuel →
      w + o = (i + 1) * B → w + rem = n →
      (i + 1) * B + rem ≤ (bs.length + freeCount N st.my_fat) * B →
      ∃ (sL : State) (ext : List Nat),
        write_loop B N buf fildes di fuel st (bs.getD i 0 : Int) w rem =
          some ((n : Int), write_finish sL fildes di n) ∧
        sL.my_fds = st.my_fds ∧ sL.my_directory = st.my_directory ∧
        sL.total_data_storage = st.total_data_storage ∧
        IsChain N sL.my_fat head (bs ++ ext) ∧
        (∀ b ∈ bs ++ ext, (sL.my_fat b).busy = true) ∧
        o + n ≤ (bs ++ ext).length * B ∧
        (ext = [] ∨ (bs ++ ext).length * B < o + n + B) ∧
        (bs ++ ext).length + freeCount N sL.my_fat = bs.length + freeCount N st.my_fat ∧
        (∀ m j, m < (bs ++ ext).length → j < B →
          sL.disk ((bs ++ ext).getD m 0) j =
            if (i + 1) * B ≤ m * B + j ∧ m * B + j < o + n then buf (m * B + j - o)
            else st.disk ((bs ++ ext).getD m 0) j) := by
  intro fuel
  induction fuel with
  | zero => intro st bs i w rem _ _ _ _ hf; omega
  | succ fuel ih =>
    intro st bs i w rem hc hbusy hi hpos hfuel hw hrem hfree
    have hnd := IsChain_nodup N st.my_fat bs head hc
    obtain ⟨hcN, _, _⟩ := IsChain_drop N st.my_fat bs head i hc hi
    generalize hk : (if rem < B then rem else B) = k
    have hk1 : k ≤ rem := by rw [← hk]; split <;> omega
    have hk2 : k ≤ B := by rw [← hk]; split <;> omega
    have hk3 : 0 < k := by rw [← hk]; split <;> omega
    have hk4 : rem - k = 0 ↔ rem ≤ B := by rw [← hk]; split <;> omega
    have hk5 : ¬ rem ≤ B → k = B := by rw [← hk]; split <;> omega
    simp only [Nat.add_mul, Nat.one_mul] at hw hfree
    by_cases hlt : i + 1 < bs.length
    · -- the next block exists
      have hnext := IsChain_next_eq N st.my_fat bs head i hc hlt
      obtain ⟨hb1N, _, _⟩ := IsChain_drop N st.my_fat bs head (i + 1) hc hlt
      have hstep := write_loop_step_next B N buf fildes di fuel st _ _ w rem hcN hb1N hnext hpos
      rw [hk] at hstep
      have hlen : (i + 2) * B ≤ bs.length * B := Nat.mul_le_mul_right B (by omega)
      simp only [Nat.add_mul] at hlen
      by_cases hterm : rem ≤ B
      · rw [if_pos (hk4.2 hterm)] at hstep
        have hkr : k = rem := by omega
        refine ⟨block_write st (bs.getD (i + 1) 0 : Int)
          (copy_in buf k (st.disk (bs.getD (i + 1) 0)) 0 w), [], ?_, rfl, rfl, rfl, ?_, ?_, ?_,
          Or.inl rfl, ?_, ?_⟩
        · rw [hstep, hkr, hrem]
        · simpa [block_write] using hc
        · simpa [block_write] using hbusy
        · simp only [List.append_nil]; omega
        · simp [block_write]
        · simp only [List.append_nil]
          apply disk_combine B buf bs hnd i w rem o n st.disk _ hlt
            (by simp only [Nat.add_mul, Nat.one_mul]; exact hw) hrem
          intro m j hm hj
          have hcnd : ¬ ((i + 2) * B ≤ m * B + j ∧ m * B + j < o + n) := by
            simp only [Nat.add_mul]; omega
          simp only [hcnd, if_false, block_write, Int.toNat_ofNat, hk]
      · rw [if_neg (fun e => hterm (hk4.1 e))] at hstep
        have hkB : k = B := hk5 hterm
        obtain ⟨sL, ext, h1, h2, h3, h4, h5, h6, h7, h8, hfr, h9⟩ :=
          ih (block_write st (bs.getD (i + 1) 0 : Int) (copy_in buf k (st.disk (bs.getD (i + 1) 0)) 0 w))
            bs (i + 1) (w + k) (rem - k)
            (by simpa [block_write] using hc) (by simpa [block_write] using hbusy) hlt
            (by omega) (by omega) (by simp only [Nat.add_mul, Nat.one_mul]; omega) (by omega)
            (by simp only [Nat.add_mul, Nat.one_mul, block_write] at hfree ⊢; omega)
        refine ⟨sL, ext, ?_, h2, h3, h4, h5, h6, h7, h8, ?_, ?_⟩
        · rw [hstep, h1]
        · simpa [block_write] using hfr
        · have hnd2 : (bs ++ ext).Nodup := IsChain_nodup N sL.my_fat _ head h5
          have hlt2 : i + 1 < (bs ++ ext).length := by simp; omega
          apply disk_combine B buf (bs ++ ext) hnd2 i w rem o n st.disk _ hlt2
            (by simp only [Nat.add_mul, Nat.one_mul]; exact hw) hrem
          intro m j hm hj
          rw [h9 m j hm hj, getD_append_left bs ext (i + 1) hlt]
          simp only [block_write, Int.toNat_ofNat, hk]
    · -- the chain ends here: a block is appended
      have hlast : i + 1 = bs.length := by omega
      have hnext := IsChain_next_last N st.my_fat bs head i hc hlast
      have hfpos : 0 < freeCount N st.my_fat := by
        by_contra hz
        have hz2 : freeCount N st.my_fat = 0 := by omega
        rw [hz2, ← hlast] at hfree
        simp only [Nat.add_zero, Nat.add_mul, Nat.one_mul] at hfree
        omega
      obtain ⟨g, hg1, hg2, hg3, happ⟩ := append_block_spec N st _ hcN hfpos
      have hgn : g ∉ bs := by
        intro hmem
        have := hbusy g hmem
        rw [hg3] at this
        cases this
      have hcg : bs.getD i 0 ≠ g := fun e => hgn (e ▸ getD_mem bs i hi)
      have hstep := write_loop_step_alloc B N buf fildes di fuel st _ g w rem hcN hg2 hcg hnext
        hpos happ
      rw [hk] at hstep
      have hchain : IsChain N (linked st.my_fat (bs.getD i 0) g) head (bs ++ [g]) :=
        IsChain_append_linked N st.my_fat g hg2 _ bs head hc hnd (by omega)
          (by rw [← hlast]; simp) hgn
      have hbusy2 : ∀ b ∈ bs ++ [g], (linked st.my_fat (bs.getD i 0) g b).busy = true := by
        intro b hb
        rw [linked_busy]
        by_cases hbg : b = g
        · simp [hbg]
        · simp only [hbg, if_false]
          rcases List.mem_append.1 hb with h | h
          · exact hbusy b h
          · simp at h; exact absurd h hbg
      have hfc : freeCount N (linked st.my_fat (bs.getD i 0) g) + 1 = freeCount N st.my_fat := by
        apply freeCount_mark N _ _ g hg1 hg2 hg3
        · rw [linked_busy]; simp
        · intro j hj
          rw [linked_busy]; simp [hj]
      have hgd : (bs ++ [g]).getD (i + 1) 0 = g := by
        rw [hlast]; exact getD_append_new bs g
      have hlen2 : (bs ++ [g]).length = i + 2 := by simp; omega
      by_cases hterm : rem ≤ B
      · rw [if_pos (hk4.2 hterm)] at hstep
        have hkr : k = rem := by omega
        refine ⟨block_write
            { st with my_fat := linked st.my_fat (bs.getD i 0) g
                      avail_data_blocks := st.avail_data_blocks - 1 }
            (g : Int) (copy_in buf k (st.disk g) 0 w), [g], ?_, rfl, rfl, rfl, ?_, ?_, ?_,
          Or.inr ?_, ?_, ?_⟩
        · rw [hstep, hkr, hrem]
        · simpa [block_write] using hchain
        · simpa [block_write] using hbusy2
        · rw [hlen2]; simp only [Nat.add_mul]; omega
        · rw [hlen2]; simp only [Nat.add_mul]; omega
        · simp only [block_write, List.length_append, List.length_singleton]
          omega
        · have hnd2 : (bs ++ [g]).Nodup := IsChain_nodup N _ _ head hchain
          apply disk_combine B buf (bs ++ [g]) hnd2 i w rem o n st.disk _ (by omega)
            (by simp only [Nat.add_mul, Nat.one_mul]; exact hw) hrem
          intro m j hm hj
          have hcnd : ¬ ((i + 2) * B ≤ m * B + j ∧ m * B + j < o + n) := by
            simp only [Nat.add_mul]; omega
          simp only [hcnd, if_false, block_write, Int.toNat_ofNat, hk, hgd]
      · rw [if_neg (fun e => hterm (hk4.1 e))] at hstep
        have hkB : k = B := hk5 hterm
        obtain ⟨sL, ext, h1, h2, h3, h4, h5, h6, h7, h8, hfr, h9⟩ :=
          ih (block_write
                { st with my_fat := linked st.my_fat (bs.getD i 0) g
                          avail_data_blocks := st.avail_data_blocks - 1 }
                (g : Int) (copy_in buf k (st.disk g) 0 w))
            (bs ++ [g]) (i + 1) (w + k) (rem - k)
            (by simpa [block_write] using hchain) (by simpa [block_write] using hbusy2)
            (by omega) (by omega) (by omega)
            (by simp only [Nat.add_mul, Nat.one_mul]; omega) (by omega)
            (by
              rw [hlen2]
              simp only [Nat.add_mul, Nat.one_mul, block_write] at hfree ⊢
              rw [← hfc, ← hlast] at hfree
              simp only [Nat.add_mul, Nat.one_mul] at hfree
              omega)
        rw [hgd] at h1
        rw [List.append_assoc] at h5 h6 h7 h8 hfr h9
        refine ⟨sL, [g] ++ ext, ?_, h2, h3, h4, h5, h6, h7, Or.inr ?_, ?_, ?_⟩
        · rw [hstep, h1]
        · rcases h8 with h8 | h8
          · subst h8
            simp only [List.append_nil]
            rw [hlen2]; simp only [Nat.add_mul]; omega
          · exact h8
        · simp only [block_write, List.length_append, List.length_singleton] at hfr ⊢
          omega
        · have hnd2 : (bs ++ ([g] ++ ext)).Nodup := IsChain_nodup N sL.my_fat _ head h5
          have hlt2 : i + 1 < (bs ++ ([g] ++ ext)).length := by simp; omega
          have hgd2 : (bs ++ ([g] ++ ext)).getD (i + 1) 0 = g := by
            rw [← List.append_assoc, getD_append_left _ _ _ (by omega)]
            exact hgd
          apply disk_combine B buf _ hnd2 i w rem o n st.disk _ hlt2
            (by simp only [Nat.add_mul, Nat.one_mul]; exact hw) hrem
          intro m j hm hj
          rw [h9 m j hm hj, hgd2]
          simp only [block_write, Int.toNat_ofNat, hk]

/-! ## The skip loop of fs_write -/

/-- While the offset stays inside the chain the skip loop only walks. -/
theorem write_skip_walk (B N : Nat) (st : State) (q : Nat) :
    ∀ (bs : List Nat) (cur : Int) (fuel r : Nat), IsChain N st.my_fat cur bs → q < bs.length →
      r < B → q < fuel →
      write_skip B N fuel st cur ((q * B + r : Nat) : Int) =
        some (st, some ((bs.getD q 0 : Int), (r : Int))) := by
  induction q with
  | zero =>
    intro bs cur fuel r hc hq hr hf
    obtain ⟨hcur, _⟩ := IsChain_head_ne N st.my_fat bs cur hc (by intro h; simp [h] at hq)
    cases fuel with
    | zero => omega
    | succ fuel =>
      have h1 : ¬ (((0 * B + r : Nat) : Int) ≥ (B : Int)) := by
        rw [Nat.zero_mul]; omega
      simp only [write_skip, h1, if_false, hcur]
      simp
  | succ q ih =>
    intro bs cur fuel r hc hq hr hf
    cases bs with
    | nil => simp at hq
    | cons b bs =>
      obtain ⟨h1, h2, h3⟩ := hc
      subst h1
      cases fuel with
      | zero => omega
      | succ fuel =>
        have hq2 : q < bs.length := by simpa using hq
        obtain ⟨hn1, hn2⟩ := IsChain_head_ne N st.my_fat bs _ h3 (by intro h; simp [h] at hq2)
        have hge : (((q + 1) * B + r : Nat) : Int) ≥ (B : Int) := by
          rw [Nat.succ_mul]; omega
        have hsub : (((q + 1) * B + r : Nat) : Int) - (B : Int) = ((q * B + r : Nat) : Int) := by
          rw [Nat.succ_mul]; omega
        simp only [write_skip, hge, if_true, (inTable_nat N b).2 h2, Int.toNat_ofNat, hn2,
          if_false, hsub]
        rw [ih bs _ fuel r h3 hq2 hr (by omega)]
        simp

/-- At an offset that is the end of a full last block the skip loop appends a
block to the chain. -/
theorem write_skip_grow (B N : Nat) (hB : 0 < B) (st : State) (g : Nat) :
    ∀ (bs : List Nat) (cur : Int) (fuel : Nat), IsChain N st.my_fat cur bs → 0 < bs.length →
      bs.length < fuel → g ∉ bs →
      append_block N st (bs.getD (bs.length - 1) 0 : Int) =
        some { st with my_fat := linked st.my_fat (bs.getD (bs.length - 1) 0) g } →
      write_skip B N fuel st cur ((bs.length * B : Nat) : Int) =
        some ({ st with my_fat := linked st.my_fat (bs.getD (bs.length - 1) 0) g },
          some ((g : Int), 0)) := by
  intro bs
  induction bs with
  | nil => intro cur fuel _ hpos; simp at hpos
  | cons b bs ih =>
    intro cur fuel hc _ hf hgn happ
    obtain ⟨h1, h2, h3⟩ := hc
    subst h1
    have hbg : b ≠ g := fun e => hgn (e ▸ List.mem_cons_self _ _)
    have hgbs : g ∉ bs := fun e => hgn (List.mem_cons_of_mem _ e)
    cases fuel with
    | zero => omega
    | succ fuel =>
      have hge : ((((b :: bs).length) * B : Nat) : Int) ≥ (B : Int) := by
        simp only [List.length_cons, Nat.succ_mul]; omega
      have hsub : ((((b :: bs).length) * B : Nat) : Int) - (B : Int) =
          ((bs.length * B : Nat) : Int) := by
        simp only [List.length_cons, Nat.succ_mul]; omega
      cases bs with
      | nil =>
        have hnx : (st.my_fat b).next = -1 := h3
        simp only [List.length_singleton, Nat.sub_self, List.getD_cons_zero] at happ ⊢
        have hl : (linked st.my_fat b g b).next = (g : Int) := by
          rw [linked_next]; simp [hbg]
        have hne : ¬ ((g : Int) = -1) := by omega
        have hge1 : ((1 * B : Nat) : Int) ≥ (B : Int) := by omega
        have hsub1 : ((1 * B : Nat) : Int) - (B : Int) = 0 := by omega
        cases fuel with
        | zero => simp at hf
        | succ fuel =>
          have hB0 : ¬ ((0 : Int) ≥ (B : Int)) := by omega
          simp only [write_skip, hge1, if_true, (inTable_nat N b).2 h2, Int.toNat_ofNat, hnx,
            happ, hl, hne, if_false, hsub1, hB0]
      | cons b2 rest =>
        obtain ⟨hn1, hn2⟩ := IsChain_head_ne N st.my_fat (b2 :: rest) _ h3 (by simp)
        have hlast : (b :: b2 :: rest).getD ((b :: b2 :: rest).length - 1) 0 =
            (b2 :: rest).getD ((b2 :: rest).length - 1) 0 := by simp
        rw [hlast] at happ ⊢
        simp only [write_skip, hge, if_true, (inTable_nat N b).2 h2, Int.toNat_ofNat, hn2,
          if_false, hsub]
        exact ih _ fuel h3 (by simp) (by simpa using hf) hgbs happ

/-! ## From the first block on -/

theorem disk_combine_first (B : Nat) (buf : Nat → Byte) (bsF : List Nat) (hnd : bsF.Nodup)
    (q r k o n : Nat) (d0 dL : Nat → Nat → Byte)
    (hq : q < bsF.length) (ho : o = q * B + r) (hk : r + k = B) (hkn : k ≤ n)
    (hL : ∀ m j, m < bsF.length → j < B →
      dL (bsF.getD m 0) j =
        if (q + 1) * B ≤ m * B + j ∧ m * B + j < o + n then buf (m * B + j - o)
        else upd d0 (bsF.getD q 0) (copy_in buf k (d0 (bsF.getD q 0)) r 0) (bsF.getD m 0) j) :
    ∀ m j, m < bsF.length → j < B →
      dL (bsF.getD m 0) j =
        if o ≤ m * B + j ∧ m * B + j < o + n then buf (m * B + j - o)
        else d0 (bsF.getD m 0) j := by
  intro m j hm hj
  rw [hL m j hm hj]
  subst ho
  simp only [Nat.add_mul, Nat.one_mul]
  by_cases hmq : m = q
  · subst hmq
    simp only [upd_same, copy_in_apply, Nat.zero_add]
    have hc1 : ¬ (m * B + B ≤ m * B + j ∧ m * B + j < m * B + r + n) := by omega
    simp only [hc1, if_false]
    by_cases hrj : r ≤ j
    · have hc2 : r ≤ j ∧ j < r + k := by omega
      have hc3 : m * B + r ≤ m * B + j ∧ m * B + j < m * B + r + n := by omega
      have he : j - r = m * B + j - (m * B + r) := by omega
      simp only [hc2, hc3, and_self, if_true, he]
    · have hc2 : ¬ (r ≤ j ∧ j < r + k) := by omega
      have hc3 : ¬ (m * B + r ≤ m * B + j ∧ m * B + j < m * B + r + n) := by omega
      simp only [hc2, hc3, if_false]
  · have hne : bsF.getD m 0 ≠ bsF.getD q 0 := fun e => hmq (getD_inj bsF hnd m q hm hq e)
    simp only [upd_other _ _ _ _ hne]
    by_cases hle : m < q
    · have h1 : m * B + B ≤ q * B := by
        have := Nat.mul_le_mul_right B (show m + 1 ≤ q by omega)
        simp only [Nat.add_mul, Nat.one_mul] at this
        exact this
      have hc1 : ¬ (q * B + B ≤ m * B + j ∧ m * B + j < q * B + r + n) := by omega
      have hc2 : ¬ (q * B + r ≤ m * B + j ∧ m * B + j < q * B + r + n) := by omega
      simp only [hc1, hc2, if_false]
    · have h1 : (q + 1) * B ≤ m * B := Nat.mul_le_mul_right B (by omega)
      simp only [Nat.add_mul, Nat.one_mul] at h1
      by_cases hc : m * B + j < q * B + r + n
      · have hc1 : q * B + B ≤ m * B + j ∧ m * B + j < q * B + r + n := by omega
        have hc2 : q * B + r ≤ m * B + j ∧ m * B + j < q * B + r + n := by omega
        simp only [hc1, hc2, and_self, if_true]
      · have hc1 : ¬ (q * B + B ≤ m * B + j ∧ m * B + j < q * B + r + n) := by omega
        have hc2 : ¬ (q * B + r ≤ m * B + j ∧ m * B + j < q * B + r + n) := by omega
        simp only [hc1, hc2, if_false]

/-- Lines 479-538 entered at offset `o = q * B + r` inside block `q` of the
chain, after the first block has been overwritten from `r` on: all `n` bytes
get written. -/
theorem write_rest_spec (B N : Nat) (hB : 0 < B) (buf : Nat → Byte) (fildes : Int) (di : Nat)
    (head : Int) (s : State) (bs : List Nat) (q r o n : Nat)
    (hc : IsChain N s.my_fat head bs) (hbusy : ∀ b ∈ bs, (s.my_fat b).busy = true)
    (hq : q < bs.length) (hr : r < B) (ho : o = q * B + r)
    (hfree : o + n ≤ (bs.length + freeCount N s.my_fat) * B) :
    ∃ (sL : State) (ext : List Nat),
      write_rest B N buf fildes di n s (bs.getD q 0 : Int)
          (copy_in buf (if n + r < B then n else B - r) (s.disk (bs.getD q 0)) r 0)
          (if n + r < B then n else B - r) (n - (if n + r < B then n else B - r)) =
        some ((n : Int), write_finish sL fildes di n) ∧
      sL.my_fds = s.my_fds ∧ sL.my_directory = s.my_directory ∧
      sL.total_data_storage = s.total_data_storage ∧
      IsChain N sL.my_fat head (bs ++ ext) ∧
      (∀ b ∈ bs ++ ext, (sL.my_fat b).busy = true) ∧
      o + n ≤ (bs ++ ext).length * B ∧
      (ext = [] ∨ (bs ++ ext).length * B < o + n + B) ∧
      (bs ++ ext).length + freeCount N sL.my_fat = bs.length + freeCount N s.my_fat ∧
      (∀ m j, m < (bs ++ ext).length → j < B →
        sL.disk ((bs ++ ext).getD m 0) j =
          if o ≤ m * B + j ∧ m * B + j < o + n then buf (m * B + j - o)
          else s.disk ((bs ++ ext).getD m 0) j) := by
  have hnd := IsChain_nodup N s.my_fat bs head hc
  generalize hk : (if n + r < B then n else B - r) = k
  have hk1 : k ≤ n := by rw [← hk]; split <;> omega
  have hk2 : r + k ≤ B := by rw [← hk]; split <;> omega
  have hk3 : k ≠ n → r + k = B := by rw [← hk]; split <;> omega
  have hlen : (q + 1) * B ≤ bs.length * B := Nat.mul_le_mul_right B (by omega)
  simp only [Nat.add_mul, Nat.one_mul] at hlen hfree
  unfold write_rest
  by_cases hkn : k = n
  · simp only [hkn, if_true]
    refine ⟨block_write s (bs.getD q 0 : Int) (copy_in buf n (s.disk (bs.getD q 0)) r 0), [],
      rfl, rfl, rfl, rfl, ?_, ?_, ?_, Or.inl rfl, ?_, ?_⟩
    · simpa [block_write] using hc
    · simpa [block_write] using hbusy
    · simp only [List.append_nil]; omega
    · simp [block_write]
    · simp only [List.append_nil, block_write, Int.toNat_ofNat]
      intro m j hm hj
      subst ho
      by_cases hmq : m = q
      · subst hmq
        simp only [upd_same, copy_in_apply, Nat.zero_add]
        by_cases hrj : r ≤ j ∧ j < r + n
        · have hc3 : m * B + r ≤ m * B + j ∧ m * B + j < m * B + r + n := by omega
          have he : j - r = m * B + j - (m * B + r) := by omega
          simp only [hrj, hc3, and_self, if_true, he]
        · have hc3 : ¬ (m * B + r ≤ m * B + j ∧ m * B + j < m * B + r + n) := by omega
          simp only [hrj, hc3, if_false]
      · have hne : bs.getD m 0 ≠ bs.getD q 0 := fun e => hmq (getD_inj bs hnd m q hm hq e)
        simp only [upd_other _ _ _ _ hne]
        have hc3 : ¬ (q * B + r ≤ m * B + j ∧ m * B + j < q * B + r + n) := by
          by_cases hle : m < q
          · have h1 := Nat.mul_le_mul_right B (show m + 1 ≤ q by omega)
            simp only [Nat.add_mul, Nat.one_mul] at h1
            omega
          · have h1 := Nat.mul_le_mul_right B (show q + 1 ≤ m by omega)
            simp only [Nat.add_mul, Nat.one_mul] at h1
            omega
        simp only [hc3, if_false]
  · simp only [hkn, if_false]
    have hrk := hk3 hkn
    obtain ⟨sL, ext, h1, h2, h3, h4, h5, h6, h7, h8, hfr, h9⟩ :=
      write_loop_spec B N hB buf fildes di head o n (n - k + 1)
        (block_write s (bs.getD q 0 : Int) (copy_in buf k (s.disk (bs.getD q 0)) r 0))
        bs q k (n - k)
        (by simpa [block_write] using hc) (by simpa [block_write] using hbusy) hq
        (by omega) (by omega) (by simp only [Nat.add_mul, Nat.one_mul]; omega) (by omega)
        (by simp only [Nat.add_mul, Nat.one_mul, block_write]; omega)
    refine ⟨sL, ext, h1, h2, h3, h4, h5, h6, h7, h8, by simpa [block_write] using hfr, ?_⟩
    have hnd2 : (bs ++ ext).Nodup := IsChain_nodup N sL.my_fat _ head h5
    apply disk_combine_first B buf (bs ++ ext) hnd2 q r k o n s.disk _ (by simp; omega) ho hrk
      hk1
    intro m j hm hj
    rw [h9 m j hm hj, getD_append_left bs ext q hq]
    simp only [block_write, Int.toNat_ofNat]

theorem write_skip_stay (B N : Nat) (st : State) (cur off : Int) (fuel : Nat)
    (h : off < (B : Int)) :
    write_skip B N (fuel + 1) st cur off = some (st, some (cur, off)) := by
  have : ¬ (off ≥ (B : Int)) := by omega
  simp only [write_skip, this, if_false]

theorem write_first_at (B N : Nat) (buf : Nat → Byte) (fildes : Int) (di n : Nat) (s : State)
    (c r : Nat) (hc : c < N) :
    write_first B N buf fildes di n n s (c : Int) (r : Int) =
      write_rest B N buf fildes di n s (c : Int)
        (copy_in buf (if n + r < B then n else B - r) (s.disk c) r 0)
        (if n + r < B then n else B - r) (n - (if n + r < B then n else B - r)) := by
  have hne : ¬ ((c : Int) = -1) := by omega
  unfold write_first
  by_cases hr : r = 0
  · subst hr
    simp only [Nat.cast_zero, gt_iff_lt, lt_self_iff_false, if_false, hne, false_and,
      block_read_in N s.disk c hc, Nat.add_zero, Nat.sub_zero]
  · have hpos : (r : Int) > 0 := by omega
    simp only [hpos, if_true, hne, if_false, block_read_in N s.disk c hc, Int.toNat_ofNat]

theorem write_first_head (B N : Nat) (buf : Nat → Byte) (fildes : Int) (di n : Nat) (s : State)
    (g : Nat) (hg : g < N) (hfree : get_free_block N s.my_fat = (g : Int)) :
    write_first B N buf fildes di n n s (-1) 0 =
      write_rest B N buf fildes di n
        { s with
            my_directory := upd s.my_directory di
              { s.my_directory di with first_block_num := (g : Int) }
            my_fat := upd s.my_fat g { busy := true, next := UNASSIGNED } }
        (g : Int)
        (copy_in buf (if n + 0 < B then n else B - 0) (s.disk g) 0 0)
        (if n + 0 < B then n else B - 0) (n - (if n + 0 < B then n else B - 0)) := by
  have hne : ¬ ((g : Int) = -1) := by omega
  have h0 : ¬ ((0 : Int) > 0) := by omega
  unfold write_first
  rw [if_neg h0]
  generalize get_free_block N s.my_fat = x at hfree
  subst hfree
  simp only [hne, and_false, if_false, if_true, block_read_in N s.disk g hg, Int.toNat_ofNat,
    Nat.add_zero, Nat.sub_zero]

theorem ceilDiv_le (a b c : Nat) (hb : 0 < b) : ceilDiv a b ≤ c ↔ a ≤ c * b := by
  obtain ⟨h1, h2⟩ := (ceilDiv_spec a b (ceilDiv a b) hb).1 rfl
  constructor
  · intro h
    have := Nat.mul_le_mul_right b h
    omega
  · intro h
    by_contra hn
    have := Nat.mul_le_mul_right b (show c + 1 ≤ ceilDiv a b by omega)
    simp only [Nat.add_mul, Nat.one_mul] at this
    omega

/-! ## fs_write on a consistent file -/

/-- A write that fits the remaining capacity and the free blocks writes all
its bytes and reaches the "move to end" block. -/
theorem fs_write_ok (B N : Nat) (hB : 0 < B) (hM : (MAX_FILE_SIZE B : Int) ≤ INT_MAX)
    (st : State) (fildes : Int) (buf : Nat → Byte) (n : Nat) (fd : fd_t) (bs : List Nat)
    (hfd : fd_lookup st fildes = some fd)
    (hch : ChainOK B N st.my_fat (st.my_directory fd.dir_index) bs)
    (hoff : 0 ≤ fd.offset) (hoff2 : fd.offset ≤ (st.my_directory fd.dir_index).file_size)
    (hn : 0 < n) (htot : 0 ≤ st.total_data_storage)
    (hcap : st.total_data_storage + (n : Int) ≤ (MAX_FILE_SIZE B : Int))
    (hfree : ceilDiv (fd.offset.toNat + n) B ≤ bs.length + freeCount N st.my_fat) :
    ∃ (sL : State) (bs1 : List Nat),
      fs_write B N st fildes buf n = some ((n : Int), write_finish sL fildes fd.dir_index n) ∧
      Written B N st sL fd.dir_index bs bs1 buf fd.offset.toNat n := by
  obtain ⟨hc, hs0, hlen, hbusy⟩ := hch
  obtain ⟨hle1, hle2⟩ := (ceilDiv_spec _ B _ hB).1 hlen
  rw [ceilDiv_le _ _ _ hB] at hfree
  generalize hdi : fd.dir_index = di at *
  generalize hS : (st.my_directory di).file_size = size at *
  generalize ho : fd.offset = offset at *
  obtain ⟨S, rfl⟩ := Int.eq_ofNat_of_zero_le hs0
  obtain ⟨o, rfl⟩ := Int.eq_ofNat_of_zero_le hoff
  simp only [Int.toNat_ofNat] at hle1 hle2 hfree ⊢
  have hoS : o ≤ S := by omega
  have hcapv : toSizeT ((MAX_FILE_SIZE B : Int) - st.total_data_storage) =
      ((MAX_FILE_SIZE B : Int) - st.total_data_storage).toNat := by
    apply toSizeT_of_nonneg
    · omega
    · simp only [INT_MAX] at hM; omega
  generalize hcv : ((MAX_FILE_SIZE B : Int) - st.total_data_storage).toNat = cap at hcapv
  have hcap2 : n ≤ cap := by omega
  have hbtw : (if cap > n then n else cap) = n := by split <;> omega
  have hn0 : ¬ (n = 0) := by omega
  have hcap0 : ¬ (cap = 0) := by omega
  unfold fs_write
  simp only [hn0, if_false, hfd, hcapv, hcap0, hbtw, hdi, ho, Int.toNat_ofNat]
  have hq := Nat.div_add_mod' o B
  have hr : o % B < B := Nat.mod_lt _ hB
  generalize hqq : o / B = q at hq
  generalize hrr : o % B = r at hq hr
  have hqo : q ≤ o := by
    have := Nat.le_mul_of_pos_right q hB
    omega
  by_cases hlt : q < bs.length
  · -- the offset lies inside the chain
    have hskip := write_skip_walk B N st q bs _ (o + 1) r hc hlt hr (by omega)
    rw [hq] at hskip
    rw [hskip]
    obtain ⟨hcN, _, _⟩ := IsChain_drop N st.my_fat bs _ q hc hlt
    simp only []
    rw [write_first_at B N buf fildes di n st _ r hcN]
    obtain ⟨sL, ext, h1, h2, h3, h4, h5, h6, h7, h8, hfr, h9⟩ :=
      write_rest_spec B N hB buf fildes di _ st bs q r o n hc hbusy hlt hr hq.symm hfree
    refine ⟨sL, bs ++ ext, h1, ⟨h2, h4, fun j _ => by rw [h3], ⟨_, by rw [h3]⟩, ?_, ⟨ext, rfl⟩,
      h6, h7, ?_, h9, hfr⟩⟩
    · rw [h3]; exact h5
    · rcases h8 with h8 | h8
      · left; rw [h8, List.append_nil]
      · right; exact h8
  · have hqlen : bs.length * B ≤ q * B := Nat.mul_le_mul_right B (by omega)
    by_cases hemp : bs.length = 0
    · -- an empty file: the head block is allocated
      have hbs : bs = [] := List.length_eq_zero.1 hemp
      subst hbs
      have hS0 : S = 0 := by simpa using hle1
      have ho0 : o = 0 := by omega
      subst hS0 ho0
      have hhead : (st.my_directory di).first_block_num = -1 := hc
      rw [hhead, write_skip_stay B N st _ _ _ (by simp; omega)]
      have hfpos : 0 < freeCount N st.my_fat := by
        by_contra hz
        have hz2 : freeCount N st.my_fat = 0 := by omega
        rw [hz2] at hfree
        simp at hfree
        omega
      obtain ⟨g, hg, hg1, hg2, hg3⟩ := get_free_block_spec N st.my_fat hfpos
      simp only [Nat.cast_zero]
      rw [write_first_head B N buf fildes di n st g hg2 hg]
      have hfc : freeCount N (upd st.my_fat g { busy := true, next := UNASSIGNED }) + 1 =
          freeCount N st.my_fat := by
        apply freeCount_mark N _ _ g hg1 hg2 hg3
        · simp
        · intro j hj; simp [hj]
      obtain ⟨sL, ext, h1, h2, h3, h4, h5, h6, h7, h8, hfr, h9⟩ :=
        write_rest_spec B N hB buf fildes di (g : Int)
          { st with
              my_directory := upd st.my_directory di
                { st.my_directory di with first_block_num := (g : Int) }
              my_fat := upd st.my_fat g { busy := true, next := UNASSIGNED } }
          [g] 0 0 0 n
          (by simp [hg2]) (by simp) (by simp) hB (by simp)
          (by
            simp only [List.length_singleton, List.length_nil, Nat.zero_add, Nat.add_mul,
              Nat.one_mul] at hfree ⊢
            rw [← hfc] at hfree
            simp only [Nat.add_mul, Nat.one_mul] at hfree
            omega)
      simp only [List.getD_cons_zero] at h1
      refine ⟨sL, [g] ++ ext, h1, ⟨h2, h4, ?_, ⟨(g : Int), ?_⟩, ?_, ⟨[g] ++ ext, rfl⟩, h6, h7, ?_,
        h9, ?_⟩⟩
      · intro j hj
        rw [h3]
        simp [hj]
      · rw [h3]; simp
      · rw [h3]; simpa using h5
      · right
        rcases h8 with h8 | h8
        · rw [h8]; simp; omega
        · exact h8
      · simp only [List.length_append, List.length_singleton, List.length_nil] at hfr ⊢
        omega
    · -- the offset is the end of a full last block: the skip loop appends one
      have hql : q = bs.length := by
        by_contra hne
        have := Nat.mul_le_mul_right B (show bs.length + 1 ≤ q by omega)
        simp only [Nat.add_mul, Nat.one_mul] at this
        omega
      have hr0 : r = 0 := by omega
      subst hr0
      have hoq : o = bs.length * B := by omega
      have hfpos : 0 < freeCount N st.my_fat := by
        by_contra hz
        have hz2 : freeCount N st.my_fat = 0 := by omega
        rw [hz2] at hfree
        simp only [Nat.add_zero] at hfree
        omega
      obtain ⟨hcN, _, _⟩ := IsChain_drop N st.my_fat bs _ (bs.length - 1) hc (by omega)
      obtain ⟨g, hg1, hg2, hg3, happ⟩ := append_block_spec N st _ hcN hfpos
      have hgn : g ∉ bs := by
        intro hmem
        have := hbusy g hmem
        rw [hg3] at this
        cases this
      have hnd := IsChain_nodup N st.my_fat bs _ hc
      have hskip := write_skip_grow B N hB st g bs _ (o + 1) hc (by omega) (by omega) hgn
        happ
      rw [← hoq] at hskip
      rw [hskip]
      simp only []
      have hchain := IsChain_append_linked N st.my_fat g hg2 _ bs _ hc hnd (by omega) rfl hgn
      have hbusy2 : ∀ b ∈ bs ++ [g],
          (linked st.my_fat (bs.getD (bs.length - 1) 0) g b).busy = true := by
        intro b hb
        rw [linked_busy]
        by_cases hbg : b = g
        · simp [hbg]
        · simp only [hbg, if_false]
          rcases List.mem_append.1 hb with h | h
          · exact hbusy b h
          · simp at h; exact absurd h hbg
      have hfc : freeCount N (linked st.my_fat (bs.getD (bs.length - 1) 0) g) + 1 =
          freeCount N st.my_fat := by
        apply freeCount_mark N _ _ g hg1 hg2 hg3
        · rw [linked_busy]; simp
        · intro j hj
          rw [linked_busy]; simp [hj]
      have h0 : ((0 : Nat) : Int) = 0 := rfl
      rw [← h0, write_first_at B N buf fildes di n _ g 0 hg2]
      obtain ⟨sL, ext, h1, h2, h3, h4, h5, h6, h7, h8, hfr, h9⟩ :=
        write_rest_spec B N hB buf fildes di _
          { st with my_fat := linked st.my_fat (bs.getD (bs.length - 1) 0) g }
          (bs ++ [g]) bs.length 0 o n hchain hbusy2 (by simp) hB (by omega)
          (by
            simp only [List.length_append, List.length_singleton, Nat.add_mul, Nat.one_mul]
              at hfree ⊢
            rw [← hfc] at hfree
            simp only [Nat.add_mul, Nat.one_mul] at hfree
            omega)
      rw [getD_append_new] at h1
      rw [List.append_assoc] at h5 h6 h7 h8 hfr h9
      refine ⟨sL, bs ++ ([g] ++ ext), h1, ⟨h2, h4, fun j _ => by rw [h3], ⟨_, by rw [h3]⟩, ?_,
        ⟨[g] ++ ext, rfl⟩, h6, h7, ?_, ?_, ?_⟩⟩
      · rw [h3]; exact h5
      · right
        rcases h8 with h8 | h8
        · rw [h8]; simp only [List.append_nil, List.length_append, List.length_singleton,
            Nat.add_mul, Nat.one_mul]
          omega
        · exact h8
      · intro m j hm hj
        rw [h9 m j hm hj]
      · simp only [List.length_append, List.length_singleton] at hfr ⊢
        omega

/-! ## The "move to end" block and the content after a write -/

theorem write_finish_spec (s : State) (fildes : Int) (di n : Nat) (fd : fd_t)
    (hfd : s.my_fds fildes.toNat = some fd) :
    (write_finish s fildes di n).my_fat = s.my_fat ∧
    (write_finish s fildes di n).disk = s.disk ∧
    (write_finish s fildes di n).my_fds =
      upd s.my_fds fildes.toNat (some { fd with offset := fd.offset + n }) ∧
    (write_finish s fildes di n).my_directory di =
      { s.my_directory di with
          file_size := max (s.my_directory di).file_size (fd.offset + n) } ∧
    (∀ j, j ≠ di → (write_finish s fildes di n).my_directory j = s.my_directory j) ∧
    (write_finish s fildes di n).total_data_storage =
      s.total_data_storage + (max (s.my_directory di).file_size (fd.offset + n) -
        (s.my_directory di).file_size) := by
  unfold write_finish
  simp only [hfd]
  by_cases hlt : (s.my_directory di).file_size < fd.offset + n
  · have hmax : max (s.my_directory di).file_size (fd.offset + n) = fd.offset + n := by omega
    simp only [hlt, if_true, hmax, upd_same, true_and]
    exact ⟨fun j hj => by simp [hj], trivial⟩
  · have hmax : max (s.my_directory di).file_size (fd.offset + n) =
        (s.my_directory di).file_size := by omega
    simp only [hlt, if_false, hmax, true_and, sub_self, add_zero, implies_true, and_true]

theorem fileByte_written (B N : Nat) (hB : 0 < B) (st sL : State) (di : Nat)
    (bs bs1 : List Nat) (buf : Nat → Byte) (o n : Nat)
    (hW : Written B N st sL di bs bs1 buf o n) (p : Nat) (hp : p < bs1.length * B) :
    fileByte B sL.disk bs1 p =
      if o ≤ p ∧ p < o + n then buf (p - o) else fileByte B st.disk bs1 p := by
  unfold fileByte
  have hm : p / B < bs1.length := by
    rw [Nat.div_lt_iff_lt_mul hB]; exact hp
  have := hW.data (p / B) (p % B) hm (Nat.mod_lt _ hB)
  rw [Nat.div_add_mod'] at this
  exact this

theorem fileSlice_congr (B : Nat) (d1 d2 : Nat → Nat → Byte) (l1 l2 : List Nat) (o n : Nat)
    (h : ∀ p, o ≤ p → p < o + n → fileByte B d1 l1 p = fileByte B d2 l2 p) :
    fileSlice B d1 l1 o n = fileSlice B d2 l2 o n := by
  unfold fileSlice
  apply List.map_congr_left
  intro i hi
  have := List.mem_range.1 hi
  exact h (o + i) (by omega) (by omega)

theorem fileByte_prefix (B : Nat) (hB : 0 < B) (d : Nat → Nat → Byte) (bs ext : List Nat)
    (p : Nat) (hp : p < bs.length * B) : fileByte B d (bs ++ ext) p = fileByte B d bs p := by
  unfold fileByte
  rw [getD_append_left bs ext (p / B) (by rw [Nat.div_lt_iff_lt_mul hB]; exact hp)]

theorem range_map_getD (d : List Byte) : (List.range d.length).map (fun i => d.getD i 0) = d := by
  apply List.ext_getElem
  · simp
  · intro i h1 h2
    rw [List.getElem_map, List.getElem_range, List.getD_eq_getElem _ _ h2]

/-- The bytes of the file after a complete write: the old bytes before the
offset, the data, the old bytes after the written range. -/
theorem fileBytes_written (B N : Nat) (hB : 0 < B) (st sL : State) (di : Nat)
    (bs bs1 : List Nat) (d : List Byte) (o S : Nat)
    (hW : Written B N st sL di bs bs1 (fun i => d.getD i 0) o d.length)
    (hoS : o ≤ S) (hS : S ≤ bs.length * B) :
    fileBytes B sL.disk bs1 (max S (o + d.length)) =
      (fileBytes B st.disk bs S).take o ++ d ++ (fileBytes B st.disk bs S).drop (o + d.length) := by
  obtain ⟨ext, hext⟩ := hW.grows
  have hfit := hW.fits
  have hlen1 : bs.length * B ≤ bs1.length * B := by
    rw [hext]; simp only [List.length_append, Nat.add_mul]; omega
  -- the old content, split at the offset
  have hC1 : (fileBytes B st.disk bs S).take o = fileSlice B st.disk bs 0 o := by
    unfold fileBytes
    have : S = o + (S - o) := by omega
    rw [this, fileSlice_add]
    exact List.take_left' (fileSlice_length _ _ _ _ _)
  have hC3 : (fileBytes B st.disk bs S).drop (o + d.length) =
      fileSlice B st.disk bs (o + d.length) (S - (o + d.length)) := by
    unfold fileBytes
    by_cases hle : o + d.length ≤ S
    · have : S = (o + d.length) + (S - (o + d.length)) := by omega
      conv_lhs => rw [this, fileSlice_add]
      rw [Nat.zero_add]
      exact List.drop_left' (fileSlice_length _ _ _ _ _)
    · have h0 : S - (o + d.length) = 0 := by omega
      rw [h0, fileSlice_zero]
      apply List.drop_eq_nil_of_le
      rw [fileSlice_length]; omega
  -- the new content, split the same way
  have hsplit : max S (o + d.length) = o + (d.length + (S - (o + d.length))) := by omega
  unfold fileBytes at hC1 hC3 ⊢
  rw [hC1, hC3, hsplit, fileSlice_add, fileSlice_add, Nat.zero_add, List.append_assoc]
  congr 1
  · apply fileSlice_congr
    intro p _ hp
    rw [fileByte_written B N hB st sL di bs bs1 _ o d.length hW p (by omega)]
    have hc : ¬ (o ≤ p ∧ p < o + d.length) := by omega
    rw [if_neg hc, hext, fileByte_prefix B hB _ bs ext p (by omega)]
  · congr 1
    · have : fileSlice B sL.disk bs1 o d.length = (List.range d.length).map (fun i => d.getD i 0) := by
        unfold fileSlice
        apply List.map_congr_left
        intro i hi
        have hi2 := List.mem_range.1 hi
        rw [fileByte_written B N hB st sL di bs bs1 _ o d.length hW (o + i) (by omega)]
        have hc : o ≤ o + i ∧ o + i < o + d.length := by omega
        rw [if_pos hc]
        simp
      rw [this, range_map_getD]
    · apply fileSlice_congr
      intro p hp1 hp2
      rw [fileByte_written B N hB st sL di bs bs1 _ o d.length hW p (by omega)]
      have hc : ¬ (o ≤ p ∧ p < o + d.length) := by omega
      rw [if_neg hc, hext, fileByte_prefix B hB _ bs ext p (by omega)]

/-- The state and the content a complete write leaves. -/
theorem fs_write_content (B N : Nat) (hB : 0 < B) (hM : (MAX_FILE_SIZE B : Int) ≤ INT_MAX)
    (st : State) (fildes : Int) (d : List Byte) (fd : fd_t) (bs : List Nat)
    (hfd : fd_lookup st fildes = some fd)
    (hch : ChainOK B N st.my_fat (st.my_directory fd.dir_index) bs)
    (hoff : 0 ≤ fd.offset) (hoff2 : fd.offset ≤ (st.my_directory fd.dir_index).file_size)
    (hn : 0 < d.length) (htot : 0 ≤ st.total_data_storage)
    (hcap : st.total_data_storage + (d.length : Int) ≤ (MAX_FILE_SIZE B : Int))
    (hfree : ceilDiv (fd.offset.toNat + d.length) B ≤ bs.length + freeCount N st.my_fat) :
    ∃ (st1 : State) (bs1 : List Nat),
      fs_write B N st fildes (fun i => d.getD i 0) d.length = some ((d.length : Int), st1) ∧
      (st1.my_directory fd.dir_index).file_size =
        max (st.my_directory fd.dir_index).file_size (fd.offset + d.length) ∧
      ChainOK B N st1.my_fat (st1.my_directory fd.dir_index) bs1 ∧
      fd_lookup st1 fildes = some { fd with offset := fd.offset + d.length } ∧
      fileBytes B st1.disk bs1 (st1.my_directory fd.dir_index).file_size.toNat =
        (fileBytes B st.disk bs (st.my_directory fd.dir_index).file_size.toNat).take
            fd.offset.toNat ++ d ++
          (fileBytes B st.disk bs (st.my_directory fd.dir_index).file_size.toNat).drop
            (fd.offset.toNat + d.length) := by
  obtain ⟨sL, bs1, hw, hW⟩ := fs_write_ok B N hB hM st fildes (fun i => d.getD i 0) d.length fd bs hfd hch hoff hoff2
    hn htot hcap hfree
  obtain ⟨hc, hs0, hlen, hbusy⟩ := hch
  obtain ⟨hle1, hle2⟩ := (ceilDiv_spec _ B _ hB).1 hlen
  obtain ⟨hf0, hf1, hfds⟩ := fd_lookup_some st fildes fd hfd
  have hfdL : sL.my_fds fildes.toNat = some fd := by rw [hW.fds]; exact hfds
  obtain ⟨g1, g2, g3, g4, g5, g6⟩ := write_finish_spec sL fildes fd.dir_index d.length fd hfdL
  obtain ⟨h, hdir⟩ := hW.dir_same
  have hsize : (sL.my_directory fd.dir_index).file_size =
      (st.my_directory fd.dir_index).file_size := by rw [hdir]
  have hfirst : ((write_finish sL fildes fd.dir_index d.length).my_directory
      fd.dir_index).first_block_num = (sL.my_directory fd.dir_index).first_block_num := by
    rw [g4]
  have hnew : ((write_finish sL fildes fd.dir_index d.length).my_directory
      fd.dir_index).file_size =
      max (st.my_directory fd.dir_index).file_size (fd.offset + d.length) := by
    rw [g4, hsize]
  generalize hS : (st.my_directory fd.dir_index).file_size = size at *
  generalize ho : fd.offset = offset at *
  obtain ⟨S, rfl⟩ := Int.eq_ofNat_of_zero_le hs0
  obtain ⟨o, rfl⟩ := Int.eq_ofNat_of_zero_le hoff
  simp only [Int.toNat_ofNat] at hle1 hle2 hW ⊢
  have hmaxN : max (S : Int) ((o : Int) + (d.length : Int)) = ((max S (o + d.length) : Nat) : Int) := by
    omega
  have hfit := hW.fits
  obtain ⟨ext, hext⟩ := hW.grows
  have hlen1 : bs.length * B ≤ bs1.length * B := by
    rw [hext]; simp only [List.length_append, Nat.add_mul]; omega
  refine ⟨write_finish sL fildes fd.dir_index d.length, bs1, hw, hnew, ?_, ?_, ?_⟩
  · refine ⟨?_, ?_, ?_, ?_⟩
    · rw [g1, hfirst]; exact hW.chain
    · rw [hnew]; omega
    · rw [hnew, hmaxN, Int.toNat_ofNat, ceilDiv_spec _ _ _ hB]
      rcases hW.tight with ht | ht
      · rw [ht] at hfit ⊢
        omega
      · omega
    · rw [g1]; exact hW.busy
  · unfold fd_lookup
    have hg : ¬ (fildes < 0 ∨ fildes ≥ (MAX_NUM_FD : Int)) := by
      simp only [MAX_NUM_FD, Nat.cast_ofNat]; omega
    rw [if_neg hg, g3, upd_same]
  · rw [hnew, hmaxN, Int.toNat_ofNat, g2]
    exact fileBytes_written B N hB st sL fd.dir_index bs bs1 d o S hW (by omega) hle1

/-- C2. On a file whose chain is consistent with its size `S`, through a bound
descriptor at offset `0 ≤ o ≤ S`, a write of the `n ≥ 1` bytes `d` that fits the
remaining capacity (`total_data_storage + n ≤ MAX_FILE_SIZE`) and the free
blocks (`ceil((o + n) / B)` at most the chain length plus the free blocks)
returns `n`; afterwards the size is `max S (o + n)`, the chain is consistent
with it, the descriptor stands at `o + n`, and the content is
`C[0..o) ++ d ++ C[o+n..S)` for the old content `C`, block boundaries or not. -/
theorem fs_write_overwrites (B N : Nat) (hB : 0 < B) (hM : (MAX_FILE_SIZE B : Int) ≤ INT_MAX)
    (st : State) (fildes : Int) (d : List Byte) (fd : fd_t) (bs : List Nat)
    (hfd : fd_lookup st fildes = some fd)
    (hch : ChainOK B N st.my_fat (st.my_directory fd.dir_index) bs)
    (hoff : 0 ≤ fd.offset) (hoff2 : fd.offset ≤ (st.my_directory fd.dir_index).file_size)
    (hn : 0 < d.length) (htot : 0 ≤ st.total_data_storage)
    (hcap : st.total_data_storage + (d.length : Int) ≤ (MAX_FILE_SIZE B : Int))
    (hfree : ceilDiv (fd.offset.toNat + d.length) B ≤ bs.length + freeCount N st.my_fat) :
    ∃ (st1 : State) (bs1 : List Nat),
      fs_write B N st fildes (fun i => d.getD i 0) d.length = some ((d.length : Int), st1) ∧
      (st1.my_directory fd.dir_index).file_size =
        max (st.my_directory fd.dir_index).file_size (fd.offset + d.length) ∧
      ChainOK B N st1.my_fat (st1.my_directory fd.dir_index) bs1 ∧
      fd_lookup st1 fildes = some { fd with offset := fd.offset + d.length } ∧
      fileBytes B st1.disk bs1 (st1.my_directory fd.dir_index).file_size.toNat =
        (fileBytes B st.disk bs (st.my_directory fd.dir_index).file_size.toNat).take
            fd.offset.toNat ++ d ++
          (fileBytes B st.disk bs (st.my_directory fd.dir_index).file_size.toNat).drop
            (fd.offset.toNat + d.length) :=
  fs_write_content B N hB hM st fildes d fd bs hfd hch hoff hoff2 hn htot hcap hfree

/-- C2 at a concrete input (`BLOCK_SIZE = 4`): 7 bytes written at offset 2 of
the 5-byte file of `smallFile` cross two block boundaries and append a block. -/
theorem fs_write_overwrites_witness :
    ∃ (st1 : State) (bs1 : List Nat),
      fs_write 4 4100 smallFile 0 (fun i => [1, 2, 3, 4, 5, 6, 7].getD i 0) 7 = some (7, st1) ∧
      (st1.my_directory 0).file_size = 9 ∧
      ChainOK 4 4100 st1.my_fat (st1.my_directory 0) bs1 ∧
      fd_lookup st1 0 = some { file_name := "a", dir_index := 0, offset := 9 } ∧
      fileBytes 4 st1.disk bs1 (st1.my_directory 0).file_size.toNat =
        [88, 88, 1, 2, 3, 4, 5, 6, 7] :=
  fs_write_overwrites 4 4100 (by decide) (by decide) smallFile 0 [1, 2, 3, 4, 5, 6, 7]
    { file_name := "a", dir_index := 0, offset := 2 } [4096, 4097]
    (by decide) (by decide) (by decide) (by decide) (by decide) (by decide) (by decide)
    (by decide)

/-! ## Write then read on a fresh file -/

theorem get_dir_index_created (st : State) (name : String) (i : Nat)
    (hi : i < MAX_NUM_FILES) (hnt : ¬ nameTaken st name) :
    get_dir_index
      { st with dir_size := st.dir_size + 1
                my_directory := upd st.my_directory i (newEntry name) } name = some i := by
  rw [get_dir_index_eq_some]
  refine ⟨hi, by simp [newEntry], by simp [newEntry], ?_⟩
  intro j hj
  have hji : j ≠ i := by omega
  simp only [upd_other _ _ _ _ hji]
  intro hc2
  exact hnt ⟨j, by omega, hc2.1, hc2.2⟩

theorem fs_open_ok (st st2 : State) (name : String) (fdi : Int)
    (ho : fs_open st name = (fdi, st2)) (hne : fdi ≠ -1) :
    ∃ di k : Nat, get_dir_index st name = some di ∧ k < MAX_NUM_FD ∧ fdi = (k : Int) ∧
      st.my_fds k = none ∧
      st2 = { st with
                my_directory := upd st.my_directory di
                  { st.my_directory di with total_fds := (st.my_directory di).total_fds + 1 }
                my_fds := upd st.my_fds k
                  (some { file_name := name, dir_index := di, offset := 0 }) } := by
  unfold fs_open at ho
  cases hidx : get_dir_index st name with
  | none =>
    rw [hidx] at ho
    simp only [Prod.mk.injEq] at ho
    exact absurd ho.1.symm hne
  | some di =>
    rw [hidx] at ho
    simp only at ho
    cases hscan : firstIdx (fun i => (st.my_fds i).isNone) MAX_NUM_FD 0 with
    | none =>
      rw [hscan] at ho
      simp only [Prod.mk.injEq] at ho
      exact absurd ho.1.symm hne
    | some k =>
      rw [hscan] at ho
      simp only [Prod.mk.injEq] at ho
      rw [firstIdx_eq_some] at hscan
      obtain ⟨_, h2, h3, _⟩ := hscan
      refine ⟨di, k, rfl, by omega, ho.1.symm, by simpa using h3, ho.2.symm⟩

theorem fd_lookup_nat (st : State) (k : Nat) (hk : k < MAX_NUM_FD) :
    fd_lookup st (k : Int) = st.my_fds k := by
  unfold fd_lookup
  have hg : ¬ ((k : Int) < 0 ∨ (k : Int) ≥ (MAX_NUM_FD : Int)) := by omega
  rw [if_neg hg, Int.toNat_ofNat]

theorem ceilDiv_zero (B : Nat) (hB : 0 < B) : ceilDiv 0 B = 0 := by
  unfold ceilDiv
  apply Nat.div_eq_of_lt
  omega

theorem fs_lseek_ok (st : State) (fildes : Int) (off : Int) (fd : fd_t)
    (hfd : fd_lookup st fildes = some fd) (h0 : 0 ≤ off)
    (h1 : off ≤ (st.my_directory fd.dir_index).file_size) :
    ∃ st4 : State, fs_lseek st fildes off = (0, st4) ∧
      fd_lookup st4 fildes = some { fd with offset := off } ∧
      st4.my_fat = st.my_fat ∧ st4.my_directory = st.my_directory ∧ st4.disk = st.disk := by
  obtain ⟨hf0, hf1, _⟩ := fd_lookup_some st fildes fd hfd
  unfold fs_lseek
  rw [hfd]
  have hg : ¬ (off < 0 ∨ off > (st.my_directory fd.dir_index).file_size) := by omega
  simp only [hg, if_false]
  refine ⟨_, rfl, ?_, rfl, rfl, rfl⟩
  unfold fd_lookup
  have hg2 : ¬ (fildes < 0 ∨ fildes ≥ (MAX_NUM_FD : Int)) := by
    simp only [MAX_NUM_FD, Nat.cast_ofNat]; omega
  rw [if_neg hg2]
  simp

/-- Create, open, write `d`, seek to 0 and read `d.length` bytes: the bytes
read are `d`. -/
theorem write_read_fresh (B N : Nat) (hB : 0 < B) (hM : (MAX_FILE_SIZE B : Int) ≤ INT_MAX)
    (st st1 st2 : State) (name : String) (fdi : Int) (d : List Byte)
    (hc : fs_create st name = (0, st1)) (ho : fs_open st1 name = (fdi, st2)) (hfdi : fdi ≠ -1)
    (hL : 0 < d.length) (htot : 0 ≤ st.total_data_storage)
    (hcap : st.total_data_storage + (d.length : Int) ≤ (MAX_FILE_SIZE B : Int))
    (hfree : ceilDiv d.length B ≤ freeCount N st.my_fat) :
    ∃ st3 st4 st5 : State,
      fs_write B N st2 fdi (fun i => d.getD i 0) d.length = some ((d.length : Int), st3) ∧
      fs_lseek st3 fdi 0 = (0, st4) ∧
      fs_read B N st4 fdi d.length = some ((d.length : Int), d, st5) := by
  -- the created slot
  have hnr : ¬ createRefused st name := by
    intro h
    rw [fs_create_refused st name h] at hc
    simp at hc
  obtain ⟨i, hi1, _, _, he⟩ := fs_create_accepted st name hnr
  rw [he] at hc
  have hst1 := (Prod.mk.inj hc).2.symm
  have hnt : ¬ nameTaken st name := fun h => hnr (Or.inr (Or.inr (Or.inr h)))
  have hidx := get_dir_index_created st name i hi1 hnt
  rw [← hst1] at hidx
  -- the descriptor
  obtain ⟨di, k, hdi, hk, hfdk, _, hst2⟩ := fs_open_ok st1 st2 name fdi ho hfdi
  rw [hidx] at hdi
  have hdi2 : di = i := (Option.some.inj hdi).symm
  subst hdi2
  subst hfdk
  have hfd2 : fd_lookup st2 (k : Int) =
      some { file_name := name, dir_index := di, offset := 0 } := by
    rw [fd_lookup_nat st2 k hk, hst2]
    simp
  have hent : st2.my_directory di = { newEntry name with total_fds := 0 + 1 } := by
    rw [hst2, hst1]
    simp [newEntry]
  have hfat : st2.my_fat = st.my_fat := by rw [hst2, hst1]
  have htot2 : st2.total_data_storage = st.total_data_storage := by rw [hst2, hst1]
  have hch : ChainOK B N st2.my_fat (st2.my_directory di) [] := by
    rw [hent]
    refine ⟨rfl, by simp [newEntry], ?_, by simp⟩
    simp [newEntry, ceilDiv_zero B hB]
  -- the write
  obtain ⟨st3, bs1, hw, hsz, hch3, hfd3, hcont⟩ :=
    fs_write_content B N hB hM st2 (k : Int) d
      { file_name := name, dir_index := di, offset := 0 } [] hfd2 hch (by simp)
      (by rw [hent]; simp [newEntry]) hL (by rw [htot2]; exact htot)
      (by rw [htot2]; exact hcap) (by rw [hfat]; simpa using hfree)
  simp only [hent, newEntry, Int.toNat_zero, zero_add] at hsz hcont
  have hsz3 : (st3.my_directory di).file_size = (d.length : Int) := by
    rw [hsz]; omega
  rw [hsz3, Int.toNat_ofNat] at hcont
  have hcont2 : fileBytes B st3.disk bs1 d.length = d := by
    rw [hcont]
    simp [fileBytes, fileSlice]
  -- the seek
  obtain ⟨st4, hseek, hfd4, hfat4, hdir4, hdisk4⟩ := fs_lseek_ok st3 (k : Int) 0 _ hfd3
    (le_refl _) (by simp only; rw [hsz3]; omega)
  -- the read
  have hch4 : ChainOK B N st4.my_fat (st4.my_directory di) bs1 := by
    rw [hfat4, hdir4]; exact hch3
  have hread := fs_read_ok B N hB st4 (k : Int) d.length _ bs1 hfd4 hch4
    (by simp only [INT_MAX] at hM ⊢; rw [hdir4, hsz3]; omega)
    (by simp) (by simp only; rw [hdir4, hsz3]; omega) hL
    (by have : ((d.length : Nat) : Int) ≤ ((MAX_FILE_SIZE B : Nat) : Int) := by omega
        exact_mod_cast this)
  simp only [hdir4, hsz3, sub_zero, Int.toNat_ofNat, Nat.min_self, Int.toNat_zero, hdisk4]
    at hread
  have hd : fileSlice B st3.disk bs1 0 d.length = d := hcont2
  rw [hd] at hread
  exact ⟨st3, st4, _, hw, hseek, hread⟩

/-- C1. In a state with `0 ≤ total_data_storage`, at least `ceil(L / B)` free
data blocks and `total_data_storage + L ≤ MAX_FILE_SIZE`, after
`fs_create(name)` and `fd = fs_open(name)` have succeeded, `fs_write(fd, d, L)`
of any `L ≥ 1` bytes returns `L`, `fs_lseek(fd, 0)` returns 0, and
`fs_read(fd, buf, L)` returns `L` with the buffer equal to `d`. -/
theorem write_read_roundtrip (B N : Nat) (hB : 0 < B) (hM : (MAX_FILE_SIZE B : Int) ≤ INT_MAX)
    (st st1 st2 : State) (name : String) (fdi : Int) (d : List Byte)
    (hc : fs_create st name = (0, st1)) (ho : fs_open st1 name = (fdi, st2)) (hfdi : fdi ≠ -1)
    (hL : 0 < d.length) (htot : 0 ≤ st.total_data_storage)
    (hcap : st.total_data_storage + (d.length : Int) ≤ (MAX_FILE_SIZE B : Int))
    (hfree : ceilDiv d.length B ≤ freeCount N st.my_fat) :
    ∃ st3 st4 st5 : State,
      fs_write B N st2 fdi (fun i => d.getD i 0) d.length = some ((d.length : Int), st3) ∧
      fs_lseek st3 fdi 0 = (0, st4) ∧
      fs_read B N st4 fdi d.length = some ((d.length : Int), d, st5) :=
  write_read_fresh B N hB hM st st1 st2 name fdi d hc ho hfdi hL htot hcap hfree

/-- C1 at a concrete input: `BLOCK_SIZE = 4`, `DISK_BLOCKS = 4104`, a file of
`3 * 4 + 7 = 19` bytes on the formatted store. -/
theorem write_read_roundtrip_witness :
    ∃ st3 st4 st5 : State,
      fs_write 4 4104 opened 0
          (fun i => [1, 2, 3, 4, 5, 6, 7, 8, 9, 10, 11, 12, 13, 14, 15, 16, 17, 18, 19].getD i 0)
          19 = some (19, st3) ∧
      fs_lseek st3 0 0 = (0, st4) ∧
      fs_read 4 4104 st4 0 19 =
        some (19, [1, 2, 3, 4, 5, 6, 7, 8, 9, 10, 11, 12, 13, 14, 15, 16, 17, 18, 19], st5) :=
  write_read_roundtrip 4 4104 (by decide) (by decide) fresh (fs_create fresh "a").2 opened "a" 0
    [1, 2, 3, 4, 5, 6, 7, 8, 9, 10, 11, 12, 13, 14, 15, 16, 17, 18, 19]
    (Prod.ext (by decide) rfl) (Prod.ext (by decide) rfl) (by decide) (by decide) (by decide)
    (by decide) (by decide)

/-! ## What read, write, seek and truncate keep -/

theorem Keeps.refl (N : Nat) (st : State) : Keeps N st st :=
  ⟨fun _ => rfl, fun _ => ⟨rfl, rfl⟩, fun h => h, fun _ h => h⟩

theorem Keeps.trans {N : Nat} {a b c : State} (h1 : Keeps N a b) (h2 : Keeps N b c) :
    Keeps N a c :=
  ⟨fun i => (h2.fds i).trans (h1.fds i),
   fun j => ⟨((h2.dir j).1).trans ((h1.dir j).1), ((h2.dir j).2).trans ((h1.dir j).2)⟩,
   fun h => h2.fat (h1.fat h),
   fun j h => h2.head j (h1.head j h)⟩

theorem Keeps.of_fat (N : Nat) (st s : State) (hfds : s.my_fds = st.my_fds)
    (hdir : s.my_directory = st.my_directory)
    (hfat : (∀ b, b < N → ptrOK N (st.my_fat b).next) → ∀ b, b < N → ptrOK N (s.my_fat b).next) :
    Keeps N st s :=
  ⟨fun i => by rw [hfds], fun j => by rw [hdir]; exact ⟨rfl, rfl⟩, hfat,
   fun j h => by rw [hdir]; exact h⟩

theorem ptrOK_upd_free (N : Nat) (fat : Nat → fat_t) (c : Nat) (busy : Bool)
    (h : ∀ b, b < N → ptrOK N (fat b).next) :
    ∀ b, b < N → ptrOK N (upd fat c { busy := busy, next := UNASSIGNED } b).next := by
  intro b hb
  rw [upd_apply]
  by_cases hbc : b = c
  · rw [if_pos hbc]; exact Or.inl rfl
  · rw [if_neg hbc]; exact h b hb

theorem append_block_keeps (N : Nat) (st s : State) (cur : Int)
    (h : append_block N st cur = some s) : Keeps N st s := by
  unfold append_block at h
  generalize get_free_block N st.my_fat = g at h
  by_cases h1 : inTable N cur
  · rw [if_pos h1] at h
    simp only at h
    by_cases h2 : inTable N g
    · rw [if_pos h2] at h
      have hs := (Option.some.inj h).symm
      subst hs
      refine ⟨fun _ => rfl, fun _ => ⟨rfl, rfl⟩, ?_, fun _ hh => hh⟩
      intro hfat b hb
      simp only [upd_apply]
      by_cases hbg : b = g.toNat
      · rw [if_pos hbg]; exact Or.inl rfl
      · rw [if_neg hbg]
        by_cases hbc : b = cur.toNat
        · rw [if_pos hbc]
          exact Or.inr h2
        · rw [if_neg hbc]; exact hfat b hb
    · rw [if_neg h2] at h; cases h
  · rw [if_neg h1] at h; cases h

theorem block_write_keeps (N : Nat) (st : State) (b : Int) (blk : Nat → Byte) :
    Keeps N st (block_write st b blk) :=
  Keeps.of_fat N st _ rfl rfl (fun h => h)

theorem write_finish_keeps (N : Nat) (st : State) (fildes : Int) (di n : Nat) :
    Keeps N st (write_finish st fildes di n) := by
  unfold write_finish
  cases hfd : st.my_fds fildes.toNat with
  | none => exact Keeps.refl N st
  | some fd =>
    simp only
    have hfdsK : ∀ i, (upd st.my_fds fildes.toNat
        (some { fd with offset := fd.offset + (n : Int) }) i).map (fun fd => fd.dir_index) =
        (st.my_fds i).map (fun fd => fd.dir_index) := by
      intro i
      rw [upd_apply]
      by_cases hi : i = fildes.toNat
      · rw [if_pos hi, hi, hfd]; rfl
      · rw [if_neg hi]
    split
    · refine ⟨hfdsK, ?_, fun h => h, ?_⟩
      · intro j
        simp only [upd_apply]
        by_cases hj : j = di
        · subst hj; simp
        · simp [hj]
      · intro j hj
        simp only [upd_apply]
        by_cases hjd : j = di
        · subst hjd; simpa using hj
        · simpa [hjd] using hj
    · exact ⟨hfdsK, fun j => ⟨rfl, rfl⟩, fun h => h, fun j h => h⟩

theorem write_skip_keeps (B N : Nat) :
    ∀ (fuel : Nat) (st s : State) (cur off : Int) (x : Option (Int × Int)),
      write_skip B N fuel st cur off = some (s, x) → Keeps N st s := by
  intro fuel
  induction fuel with
  | zero => intro st s cur off x h; simp [write_skip] at h
  | succ fuel ih =>
    intro st s cur off x h
    simp only [write_skip] at h
    by_cases h1 : off ≥ (B : Int)
    · rw [if_pos h1] at h
      by_cases h2 : inTable N cur
      · rw [if_pos h2] at h
        cases hm : (if (st.my_fat cur.toNat).next = -1 then append_block N st cur else some st) with
        | none => rw [hm] at h; cases h
        | some st1 =>
          rw [hm] at h
          simp only at h
          have hk1 : Keeps N st st1 := by
            by_cases hn : (st.my_fat cur.toNat).next = -1
            · rw [if_pos hn] at hm
              exact append_block_keeps N st st1 cur hm
            · rw [if_neg hn] at hm
              rw [← Option.some.inj hm]
              exact Keeps.refl N st
          by_cases h3 : (st1.my_fat cur.toNat).next = -1
          · rw [if_pos h3] at h
            have := (Prod.mk.inj (Option.some.inj h)).1
            rw [← this]; exact hk1
          · rw [if_neg h3] at h
            exact hk1.trans (ih st1 s _ _ x h)
      · rw [if_neg h2] at h; cases h
    · rw [if_neg h1] at h
      have := (Prod.mk.inj (Option.some.inj h)).1
      rw [← this]; exact Keeps.refl N st

theorem write_loop_keeps (B N : Nat) (buf : Nat → Byte) (fildes : Int) (di : Nat) :
    ∀ (fuel : Nat) (st s : State) (cur : Int) (w rem : Nat) (r : Int),
      write_loop B N buf fildes di fuel st cur w rem = some (r, s) → Keeps N st s := by
  intro fuel
  induction fuel with
  | zero =>
    intro st s cur w rem r h
    simp only [write_loop] at h
    by_cases h1 : rem > 0
    · rw [if_pos h1] at h; cases h
    · rw [if_neg h1] at h
      have := (Prod.mk.inj (Option.some.inj h)).2
      rw [← this]; exact Keeps.refl N st
  | succ fuel ih =>
    intro st s cur w rem r h
    simp only [write_loop] at h
    by_cases h1 : rem > 0
    · rw [if_pos h1] at h
      by_cases h2 : inTable N cur
      · rw [if_pos h2] at h
        cases hm : (if (st.my_fat cur.toNat).next = -1 then
                 (append_block N st cur).map
                   (fun s => { s with avail_data_blocks := s.avail_data_blocks - 1 })
               else some st) with
        | none => rw [hm] at h; cases h
        | some st1 =>
          rw [hm] at h
          simp only at h
          have hk1 : Keeps N st st1 := by
            by_cases hn : (st.my_fat cur.toNat).next = -1
            · rw [if_pos hn] at hm
              cases happ : append_block N st cur with
              | none => rw [happ] at hm; cases hm
              | some s0 =>
                rw [happ] at hm
                have hs := Option.some.inj hm
                rw [← hs]
                exact (append_block_keeps N st s0 cur happ).trans
                  ⟨fun _ => rfl, fun _ => ⟨rfl, rfl⟩, fun hh => hh, fun _ hh => hh⟩
            · rw [if_neg hn] at hm
              rw [← Option.some.inj hm]
              exact Keeps.refl N st
          by_cases h3 : (st1.my_fat cur.toNat).next = -1
          · rw [if_pos h3] at h
            have := (Prod.mk.inj (Option.some.inj h)).2
            rw [← this]
            exact hk1.trans (write_finish_keeps N st1 fildes di w)
          · rw [if_neg h3] at h
            cases hbr : block_read N st1.disk (st1.my_fat cur.toNat).next with
            | none => rw [hbr] at h; cases h
            | some blk =>
              rw [hbr] at h
              simp only at h
              generalize (if rem < B then rem else B) = k at h
              split at h
              · have := (Prod.mk.inj (Option.some.inj h)).2
                rw [← this]
                exact hk1.trans ((block_write_keeps N st1 _ _).trans
                  (write_finish_keeps N _ fildes di _))
              · exact hk1.trans ((block_write_keeps N st1 _ _).trans (ih _ s _ _ _ r h))
      · rw [if_neg h2] at h; cases h
    · rw [if_neg h1] at h
      have := (Prod.mk.inj (Option.some.inj h)).2
      rw [← this]; exact Keeps.refl N st

theorem write_rest_keeps (B N : Nat) (buf : Nat → Byte) (fildes : Int) (di n : Nat)
    (st s : State) (cur : Int) (blk : Nat → Byte) (w rem : Nat) (r : Int)
    (h : write_rest B N buf fildes di n st cur blk w rem = some (r, s)) : Keeps N st s := by
  unfold write_rest at h
  simp only at h
  split at h
  · have := (Prod.mk.inj (Option.some.inj h)).2
    rw [← this]
    exact (block_write_keeps N st _ _).trans (write_finish_keeps N _ fildes di _)
  · exact (block_write_keeps N st _ _).trans (write_loop_keeps B N buf fildes di _ _ s _ _ _ r h)

theorem write_first_keeps (B N : Nat) (buf : Nat → Byte) (fildes : Int) (di n btw : Nat)
    (st s : State) (cur off : Int) (r : Int)
    (h : write_first B N buf fildes di n btw st cur off = some (r, s)) : Keeps N st s := by
  unfold write_first at h
  generalize hg : get_free_block N st.my_fat = g at h
  by_cases h1 : off > 0
  · rw [if_pos h1] at h
    by_cases h2 : cur = -1
    · rw [if_pos h2] at h
      have := (Prod.mk.inj (Option.some.inj h)).2
      rw [← this]; exact Keeps.refl N st
    · rw [if_neg h2] at h
      cases hbr : block_read N st.disk cur with
      | none => rw [hbr] at h; cases h
      | some blk =>
        rw [hbr] at h
        exact write_rest_keeps B N buf fildes di n st s cur _ _ _ r h
  · rw [if_neg h1] at h
    simp only at h
    by_cases h2 : cur = -1 ∧ g = -1
    · rw [if_pos h2] at h
      have := (Prod.mk.inj (Option.some.inj h)).2
      rw [← this]; exact Keeps.refl N st
    · rw [if_neg h2] at h
      by_cases h3 : cur = -1
      · simp only [h3, if_true] at h
        cases hbr : block_read N st.disk g with
        | none => rw [hbr] at h; cases h
        | some blk =>
          rw [hbr] at h
          simp only at h
          have hgt : inTable N g := by
            unfold block_read at hbr
            by_contra hn
            rw [if_neg hn] at hbr
            cases hbr
          have hk := write_rest_keeps B N buf fildes di n _ s g _ _ _ r h
          refine Keeps.trans ?_ hk
          refine ⟨fun _ => rfl, ?_, ?_, ?_⟩
          · intro j
            simp only [upd_apply]
            by_cases hj : j = di
            · subst hj; simp
            · simp [hj]
          · intro hfat b hb
            exact ptrOK_upd_free N st.my_fat g.toNat true hfat b hb
          · intro j hj
            simp only [upd_apply]
            by_cases hjd : j = di
            · subst hjd
              simp only [if_true]
              exact Or.inr hgt
            · simpa [hjd] using hj
      · simp only [h3, if_false] at h
        cases hbr : block_read N st.disk cur with
        | none => rw [hbr] at h; cases h
        | some blk =>
          rw [hbr] at h
          exact write_rest_keeps B N buf fildes di n st s cur _ _ _ r h

theorem fs_write_keeps (B N : Nat) (st s : State) (fildes : Int) (buf : Nat → Byte)
    (nbyte : Nat) (r : Int) (h : fs_write B N st fildes buf nbyte = some (r, s)) :
    Keeps N st s := by
  unfold fs_write at h
  have hsame : ∀ v : Int, some (v, st) = some (r, s) → Keeps N st s := by
    intro v hv
    have := (Prod.mk.inj (Option.some.inj hv)).2
    rw [← this]; exact Keeps.refl N st
  by_cases h1 : nbyte = 0
  · rw [if_pos h1] at h; exact hsame _ h
  · rw [if_neg h1] at h
    cases hfd : fd_lookup st fildes with
    | none => rw [hfd] at h; exact hsame _ h
    | some fd =>
      rw [hfd] at h
      simp only at h
      by_cases h2 : toSizeT ((MAX_FILE_SIZE B : Int) - st.total_data_storage) = 0
      · rw [if_pos h2] at h; exact hsame _ h
      · rw [if_neg h2] at h
        cases hsk : write_skip B N (fd.offset.toNat + 1) st
            (st.my_directory fd.dir_index).first_block_num fd.offset with
        | none => rw [hsk] at h; cases h
        | some p =>
          obtain ⟨st1, x⟩ := p
          rw [hsk] at h
          have hk1 := write_skip_keeps B N _ st st1 _ _ x hsk
          cases x with
          | none =>
            simp only at h
            have := (Prod.mk.inj (Option.some.inj h)).2
            rw [← this]; exact hk1
          | some co =>
            obtain ⟨cur, off⟩ := co
            simp only at h
            exact hk1.trans (write_first_keeps B N buf fildes fd.dir_index nbyte _ st1 s cur off r h)

theorem fds_offset_keeps (N : Nat) (st : State) (k : Nat) (fd : fd_t) (off : Int)
    (hfd : st.my_fds k = some fd) :
    Keeps N st { st with my_fds := upd st.my_fds k (some { fd with offset := off }) } := by
  refine ⟨?_, fun _ => ⟨rfl, rfl⟩, fun h => h, fun _ h => h⟩
  intro i
  simp only [upd_apply]
  by_cases hi : i = k
  · rw [if_pos hi, hi, hfd]; rfl
  · rw [if_neg hi]

theorem fs_lseek_keeps (N : Nat) (st : State) (fildes : Int) (offset : Int) :
    Keeps N st (fs_lseek st fildes offset).2 := by
  unfold fs_lseek
  cases hfd : fd_lookup st fildes with
  | none => exact Keeps.refl N st
  | some fd =>
    obtain ⟨_, _, hfds⟩ := fd_lookup_some st fildes fd hfd
    simp only
    split
    · exact Keeps.refl N st
    · exact fds_offset_keeps N st _ fd offset hfds

theorem read_finish_keeps (N : Nat) (st s : State) (fildes : Int) (fd : fd_t)
    (hfds : st.my_fds fildes.toNat = some fd) (x : Option (Bool × List Byte)) (r : Int)
    (out : List Byte) (h : read_finish st fildes fd x = some (r, out, s)) : Keeps N st s := by
  unfold read_finish at h
  cases x with
  | none => cases h
  | some p =>
    obtain ⟨ok, o2⟩ := p
    cases ok with
    | false =>
      simp only at h
      have := (Prod.mk.inj (Prod.mk.inj (Option.some.inj h)).2).2
      rw [← this]; exact Keeps.refl N st
    | true =>
      simp only at h
      have := (Prod.mk.inj (Prod.mk.inj (Option.some.inj h)).2).2
      rw [← this]
      exact fds_offset_keeps N st _ fd _ hfds

theorem fs_read_keeps (B N : Nat) (st s : State) (fildes : Int) (nbyte : Nat) (r : Int)
    (out : List Byte) (h : fs_read B N st fildes nbyte = some (r, out, s)) : Keeps N st s := by
  unfold fs_read at h
  have hsame : ∀ (v : Int) (l : List Byte), some (v, l, st) = some (r, out, s) → Keeps N st s := by
    intro v l hv
    have := (Prod.mk.inj (Prod.mk.inj (Option.some.inj hv)).2).2
    rw [← this]; exact Keeps.refl N st
  split at h
  · exact hsame _ _ h
  · cases hfd : fd_lookup st fildes with
    | none => rw [hfd] at h; exact hsame _ _ h
    | some fd =>
      obtain ⟨_, _, hfds⟩ := fd_lookup_some st fildes fd hfd
      rw [hfd] at h
      simp only at h
      split at h
      · exact hsame _ _ h
      · split at h
        · exact hsame _ _ h
        · split at h
          · cases h
          · exact hsame _ _ h
          · split at h
            · split at h
              · exact hsame _ _ h
              · split at h
                · cases h
                · exact read_finish_keeps N st s fildes fd hfds _ r out h
            · exact read_finish_keeps N st s fildes fd hfds _ r out h

theorem trunc_free_keeps (N : Nat) :
    ∀ (fuel : Nat) (st s : State) (cur : Int), trunc_free N fuel st cur = some s →
      Keeps N st s := by
  intro fuel
  induction fuel with
  | zero =>
    intro st s cur h
    simp only [trunc_free] at h
    split at h
    · cases h
    · rw [← Option.some.inj h]; exact Keeps.refl N st
  | succ fuel ih =>
    intro st s cur h
    simp only [trunc_free] at h
    split at h
    · split at h
      · refine Keeps.trans ?_ (ih _ s _ h)
        exact ⟨fun _ => rfl, fun _ => ⟨rfl, rfl⟩,
          fun hfat => ptrOK_upd_free N st.my_fat cur.toNat false hfat, fun _ hh => hh⟩
      · cases h
    · rw [← Option.some.inj h]; exact Keeps.refl N st

theorem fs_truncate_keeps (B N : Nat) (st s : State) (fildes : Int) (length : Int) (r : Int)
    (h : fs_truncate B N st fildes length = some (r, s)) : Keeps N st s := by
  unfold fs_truncate at h
  have hsame : ∀ v : Int, some (v, st) = some (r, s) → Keeps N st s := by
    intro v hv
    have := (Prod.mk.inj (Option.some.inj hv)).2
    rw [← this]; exact Keeps.refl N st
  cases hfd : fd_lookup st fildes with
  | none => rw [hfd] at h; exact hsame _ h
  | some fd =>
    obtain ⟨_, _, hfds⟩ := fd_lookup_some st fildes fd hfd
    rw [hfd] at h
    simp only at h
    split at h
    · exact hsame _ h
    · split at h
      · cases h
      · exact hsame _ h
      · split at h
        · cases hfree : trunc_free N (N + 1) st (st.my_fat _).next with
          | none => rw [hfree] at h; cases h
          | some st1 =>
            rw [hfree] at h
            simp only at h
            have hk1 := trunc_free_keeps N _ st st1 _ hfree
            have := (Prod.mk.inj (Option.some.inj h)).2
            rw [← this]
            refine hk1.trans ⟨?_, ?_, fun hh => hh, ?_⟩
            · intro i
              simp only [upd_apply]
              by_cases hi : i = fildes.toNat
              · rw [if_pos hi, hi]
                have := hk1.fds fildes.toNat
                rw [hfds] at this
                rw [this]; rfl
              · rw [if_neg hi]
            · intro j
              simp only [upd_apply]
              by_cases hj : j = fd.dir_index
              · subst hj; simp
              · simp [hj]
            · intro j hj
              simp only [upd_apply]
              by_cases hjd : j = fd.dir_index
              · subst hjd; simpa using hj
              · simpa [hjd] using hj
        · cases h

/-! ## The chain walk of fs_delete -/

theorem delete_chain_frame (N : Nat) :
    ∀ (fuel : Nat) (st s : State) (cur : Int), delete_chain N fuel st cur = some s →
      s.my_fds = st.my_fds ∧ s.my_directory = st.my_directory ∧
      s.total_data_storage = st.total_data_storage ∧ s.dir_size = st.dir_size ∧
      s.disk = st.disk ∧
      ((∀ b, b < N → ptrOK N (st.my_fat b).next) → ∀ b, b < N → ptrOK N (s.my_fat b).next) := by
  intro fuel
  induction fuel with
  | zero =>
    intro st s cur h
    simp only [delete_chain] at h
    split at h
    · cases h
    · rw [← Option.some.inj h]; exact ⟨rfl, rfl, rfl, rfl, rfl, fun hh => hh⟩
  | succ fuel ih =>
    intro st s cur h
    simp only [delete_chain] at h
    split at h
    · split at h
      · obtain ⟨h1, h2, h3, h4, h5, h6⟩ := ih _ s _ h
        exact ⟨h1, h2, h3, h4, h5,
          fun hfat => h6 (ptrOK_upd_free N st.my_fat cur.toNat false hfat)⟩
      · cases h
    · rw [← Option.some.inj h]; exact ⟨rfl, rfl, rfl, rfl, rfl, fun hh => hh⟩

/-- The number of table entries whose `next` is set. -/
theorem delete_chain_total (N : Nat) :
    ∀ (fuel : Nat) (st : State) (cur : Int), ptrOK N cur →
      (∀ b, b < N → ptrOK N (st.my_fat b).next) →
      (List.range N).countP (fun b => decide ((st.my_fat b).next ≠ -1)) < fuel →
      ∃ s, delete_chain N fuel st cur = some s := by
  intro fuel
  induction fuel with
  | zero => intro st cur _ _ hf; omega
  | succ fuel ih =>
    intro st cur hcur hfat hf
    simp only [delete_chain]
    by_cases h1 : cur = -1
    · have : ¬ (cur ≠ UNASSIGNED) := by simpa using h1
      rw [if_neg this]
      exact ⟨st, rfl⟩
    · have h1b : cur ≠ UNASSIGNED := h1
      rw [if_pos h1b]
      have hin : inTable N cur := by
        rcases hcur with h | h
        · exact absurd h h1
        · exact h
      rw [if_pos hin]
      have hcN : cur.toNat < N := by
        unfold inTable at hin
        omega
      by_cases hnx : (st.my_fat cur.toNat).next = -1
      · rw [hnx]
        exact ⟨_, delete_chain_none N fuel _⟩
      · apply ih
        · exact hfat _ hcN
        · exact ptrOK_upd_free N st.my_fat cur.toNat false hfat
        · have hflip : (List.range N).countP (fun b => decide
                ((upd st.my_fat cur.toNat { busy := false, next := UNASSIGNED } b).next ≠ -1)) + 1 =
              (List.range N).countP (fun b => decide ((st.my_fat b).next ≠ -1)) :=
            countP_flip (List.range N) _ _
              cur.toNat (List.nodup_range N) (List.mem_range.2 hcN) (by simpa using hnx)
              (by simp) (by intro i hi; simp [hi])
          show (List.range N).countP (fun b => decide
            ((upd st.my_fat cur.toNat { busy := false, next := UNASSIGNED } b).next ≠ -1)) < fuel
          omega

/-! ## Descriptors counted by total_fds -/

theorem refers_eq (st : State) (j i : Nat) :
    refers st j i = decide ((st.my_fds i).map (fun fd => fd.dir_index) = some j) := by
  unfold refers
  cases st.my_fds i with
  | none => simp
  | some fd => simp

theorem refers_true (st : State) (j i : Nat) :
    refers st j i = true ↔ ∃ fd, st.my_fds i = some fd ∧ fd.dir_index = j := by
  unfold refers
  cases st.my_fds i with
  | none => simp
  | some fd => simp

theorem fdCount_keeps (N : Nat) (st s : State) (hk : Keeps N st s) (j : Nat) :
    fdCount s j = fdCount st j := by
  unfold fdCount
  apply List.countP_congr
  intro i _
  rw [refers_eq, refers_eq, hk.fds i]

theorem fdCount_zero (st : State) (j : Nat) :
    fdCount st j = 0 ↔ ¬ ∃ i, i < MAX_NUM_FD ∧ refers st j i = true := by
  unfold fdCount
  rw [List.countP_eq_zero]
  constructor
  · rintro h ⟨i, hi, hr⟩
    exact h i (List.mem_range.2 hi) hr
  · intro h i hi hr
    exact h ⟨i, List.mem_range.1 hi, hr⟩

theorem fdCount_other (st s : State) (k j : Nat)
    (hsame : ∀ i, i ≠ k → s.my_fds i = st.my_fds i)
    (h1 : refers st j k = false) (h2 : refers s j k = false) : fdCount s j = fdCount st j := by
  unfold fdCount
  apply List.countP_congr
  intro i _
  by_cases hi : i = k
  · subst hi; rw [h1, h2]
  · unfold refers; rw [hsame i hi]

theorem fdCount_bind (st s : State) (k j : Nat) (hk : k < MAX_NUM_FD)
    (hsame : ∀ i, i ≠ k → s.my_fds i = st.my_fds i)
    (h1 : refers st j k = false) (h2 : refers s j k = true) :
    fdCount s j = fdCount st j + 1 := by
  unfold fdCount
  have := countP_flip (List.range MAX_NUM_FD) (refers s j) (refers st j) k
    (List.nodup_range _) (List.mem_range.2 hk) h2 h1
    (by intro i hi; unfold refers; rw [hsame i hi])
  omega

theorem mounted_inv (N : Nat) (st : State) (hm : Mounted N st) (h2 : NoOpenCount st) :
    CountInv N st := by
  obtain ⟨h1, h3, h4⟩ := hm
  refine ⟨?_, ?_, h3, h4⟩
  · intro i fd hi hfd
    rw [h1 i hi] at hfd
    cases hfd
  · intro j hj hb
    rw [h2 j hj hb]
    have : fdCount st j = 0 := by
      rw [fdCount_zero]
      rintro ⟨i, hi, hr⟩
      rw [refers_true] at hr
      obtain ⟨fd, hfd, _⟩ := hr
      rw [h1 i hi] at hfd
      cases hfd
    rw [this]; rfl

theorem inv_of_keeps (N : Nat) (st s : State) (hinv : CountInv N st) (hk : Keeps N st s) :
    CountInv N s := by
  obtain ⟨h1, h2, h3, h4⟩ := hinv
  refine ⟨?_, ?_, hk.fat h3, ?_⟩
  · intro i fd hi hfd
    have hmap := hk.fds i
    rw [hfd] at hmap
    cases hst : st.my_fds i with
    | none => rw [hst] at hmap; cases hmap
    | some fd0 =>
      rw [hst] at hmap
      have hidx : fd.dir_index = fd0.dir_index := Option.some.inj hmap
      obtain ⟨ha, hb⟩ := h1 i fd0 hi hst
      rw [hidx]
      exact ⟨ha, by rw [(hk.dir _).1]; exact hb⟩
  · intro j hj hb
    rw [(hk.dir j).1] at hb
    rw [(hk.dir j).2, fdCount_keeps N st s hk j]
    exact h2 j hj hb
  · intro j hj hb
    rw [(hk.dir j).1] at hb
    exact hk.head j (h4 j hj hb)

theorem inv_create (N : Nat) (st : State) (name : String) (hinv : CountInv N st) :
    CountInv N (fs_create st name).2 := by
  by_cases hr : createRefused st name
  · rw [fs_create_refused st name hr]; exact hinv
  · obtain ⟨i, hi1, hi2, _, he⟩ := fs_create_accepted st name hr
    rw [he]
    obtain ⟨h1, h2, h3, h4⟩ := hinv
    have hnoref : ∀ k fd, k < MAX_NUM_FD → st.my_fds k = some fd → fd.dir_index ≠ i := by
      intro k fd hk hfd e
      have := (h1 k fd hk hfd).2
      rw [e, hi2] at this
      cases this
    refine ⟨?_, ?_, h3, ?_⟩
    · intro k fd hk hfd
      obtain ⟨ha, hb⟩ := h1 k fd hk hfd
      refine ⟨ha, ?_⟩
      simp only [upd_apply]
      rw [if_neg (hnoref k fd hk hfd)]
      exact hb
    · intro j hj hb
      have hcnt : fdCount { st with dir_size := st.dir_size + 1
                                    my_directory := upd st.my_directory i (newEntry name) } j =
          fdCount st j := rfl
      rw [hcnt]
      simp only [upd_apply] at hb ⊢
      by_cases hji : j = i
      · subst hji
        simp only [if_true, newEntry]
        have : fdCount st j = 0 := by
          rw [fdCount_zero]
          rintro ⟨k, hk, hr⟩
          rw [refers_true] at hr
          obtain ⟨fd, hfd, hidx⟩ := hr
          exact hnoref k fd hk hfd hidx
        rw [this]; rfl
      · rw [if_neg hji] at hb ⊢
        exact h2 j hj hb
    · intro j hj hb
      simp only [upd_apply] at hb ⊢
      by_cases hji : j = i
      · subst hji
        simp only [if_true, newEntry]
        exact Or.inl rfl
      · rw [if_neg hji] at hb ⊢
        exact h4 j hj hb

theorem inv_open (N : Nat) (st : State) (name : String) (hinv : CountInv N st) :
    CountInv N (fs_open st name).2 := by
  by_cases hne : (fs_open st name).1 = -1
  · have hsame : (fs_open st name).2 = st := by
      unfold fs_open at hne ⊢
      cases hidx : get_dir_index st name with
      | none => rfl
      | some di =>
        rw [hidx] at hne
        simp only at hne ⊢
        cases hscan : firstIdx (fun i => (st.my_fds i).isNone) MAX_NUM_FD 0 with
        | none => rfl
        | some k =>
          rw [hscan] at hne
          simp only at hne
          omega
    rw [hsame]; exact hinv
  · obtain ⟨di, k, hdi, hk, _, hnone, hst2⟩ :=
      fs_open_ok st (fs_open st name).2 name (fs_open st name).1 rfl hne
    rw [hst2]
    rw [get_dir_index_eq_some] at hdi
    obtain ⟨hdi1, hdi2, _, _⟩ := hdi
    obtain ⟨h1, h2, h3, h4⟩ := hinv
    have hrk : ∀ j, refers st j k = false := by
      intro j; unfold refers; rw [hnone]
    refine ⟨?_, ?_, h3, ?_⟩
    · intro i fd hi hfd
      simp only [upd_apply] at hfd ⊢
      by_cases hik : i = k
      · rw [if_pos hik] at hfd
        have hfd2 := (Option.some.inj hfd).symm
        subst hfd2
        simp only [if_true]
        exact ⟨hdi1, hdi2⟩
      · rw [if_neg hik] at hfd
        obtain ⟨ha, hb⟩ := h1 i fd hi hfd
        refine ⟨ha, ?_⟩
        by_cases hd : fd.dir_index = di
        · rw [if_pos hd]; exact hdi2
        · rw [if_neg hd]; exact hb
    · intro j hj hb
      simp only [upd_apply] at hb ⊢
      by_cases hjd : j = di
      · subst hjd
        simp only [if_true]
        rw [fdCount_bind st _ k j hk (fun i hi => by simp [hi]) (hrk j)
          (by unfold refers; simp)]
        rw [h2 j hj hdi2]
        push_cast; rfl
      · rw [if_neg hjd] at hb ⊢
        rw [fdCount_other st _ k j (fun i hi => by simp [hi]) (hrk j)
          (by unfold refers; simp; exact fun e => hjd e.symm)]
        exact h2 j hj hb
    · intro j hj hb
      simp only [upd_apply] at hb ⊢
      by_cases hjd : j = di
      · subst hjd
        simp only [if_true]
        exact h4 j hj hdi2
      · rw [if_neg hjd] at hb ⊢
        exact h4 j hj hb

theorem inv_unbind (N : Nat) (st s : State) (k : Nat) (fd : fd_t) (hk : k < MAX_NUM_FD)
    (hfds : st.my_fds k = some fd) (hinv : CountInv N st)
    (e1 : s.my_fds = upd st.my_fds k none)
    (e2 : s.my_directory = upd st.my_directory fd.dir_index
      { st.my_directory fd.dir_index with
          total_fds := (st.my_directory fd.dir_index).total_fds - 1 })
    (e3 : s.my_fat = st.my_fat) : CountInv N s := by
  obtain ⟨h1, h2, h3, h4⟩ := hinv
  obtain ⟨hd1, hd2⟩ := h1 _ fd hk hfds
  refine ⟨?_, ?_, by rw [e3]; exact h3, ?_⟩
  · intro i fd2 hi hfd2
    rw [e1] at hfd2
    rw [e2]
    simp only [upd_apply] at hfd2 ⊢
    by_cases hik : i = k
    · rw [if_pos hik] at hfd2; cases hfd2
    · rw [if_neg hik] at hfd2
      obtain ⟨ha, hb⟩ := h1 i fd2 hi hfd2
      refine ⟨ha, ?_⟩
      by_cases hd : fd2.dir_index = fd.dir_index
      · rw [if_pos hd]; exact hd2
      · rw [if_neg hd]; exact hb
  · intro j hj hb
    rw [e2] at hb ⊢
    simp only [upd_apply] at hb ⊢
    by_cases hjd : j = fd.dir_index
    · subst hjd
      simp only [if_true]
      have hb2 : fdCount st fd.dir_index = fdCount s fd.dir_index + 1 :=
        fdCount_bind s st k fd.dir_index hk
          (fun i hi => by rw [e1]; simp [hi]) (by unfold refers; rw [e1]; simp)
          (by unfold refers; rw [hfds]; simp)
      have := h2 _ hj hd2
      omega
    · rw [if_neg hjd] at hb ⊢
      rw [fdCount_other st s k j (fun i hi => by rw [e1]; simp [hi])
        (by unfold refers; rw [hfds]; simp; exact fun e => hjd e.symm)
        (by unfold refers; rw [e1]; simp)]
      exact h2 j hj hb
  · intro j hj hb
    rw [e2] at hb ⊢
    simp only [upd_apply] at hb ⊢
    by_cases hjd : j = fd.dir_index
    · subst hjd
      simp only [if_true]
      exact h4 _ hj hd2
    · rw [if_neg hjd] at hb ⊢
      exact h4 j hj hb

theorem inv_close (N : Nat) (st : State) (fildes : Int) (hinv : CountInv N st) :
    CountInv N (fs_close st fildes).2 := by
  unfold fs_close
  cases hfd : fd_lookup st fildes with
  | none => exact hinv
  | some fd =>
    obtain ⟨hf0, hf1, hfds⟩ := fd_lookup_some st fildes fd hfd
    have hk : fildes.toNat < MAX_NUM_FD := by
      simp only [MAX_NUM_FD]; omega
    exact inv_unbind N st _ fildes.toNat fd hk hfds hinv rfl rfl rfl

theorem inv_vacate (N : Nat) (st s : State) (j : Nat) (hj1 : j < MAX_NUM_FILES)
    (hj2 : (st.my_directory j).busy = true) (hz : (st.my_directory j).total_fds = 0)
    (hinv : CountInv N st) (e1 : s.my_fds = st.my_fds)
    (e2 : s.my_directory = upd st.my_directory j { st.my_directory j with busy := false })
    (e3 : ∀ b, b < N → ptrOK N (s.my_fat b).next) : CountInv N s := by
  obtain ⟨h1, h2, h3, h4⟩ := hinv
  have hcnt0 : fdCount st j = 0 := by
    have := h2 j hj1 hj2
    rw [hz] at this
    omega
  rw [fdCount_zero] at hcnt0
  have hnoref : ∀ k fd, k < MAX_NUM_FD → st.my_fds k = some fd → fd.dir_index ≠ j := by
    intro k fd hk hfd e
    exact hcnt0 ⟨k, hk, (refers_true st j k).2 ⟨fd, hfd, e⟩⟩
  have hc : ∀ j2, fdCount s j2 = fdCount st j2 := by
    intro j2
    unfold fdCount refers
    rw [e1]
  refine ⟨?_, ?_, e3, ?_⟩
  · intro i fd hi hfd
    rw [e1] at hfd
    obtain ⟨ha, hb⟩ := h1 i fd hi hfd
    refine ⟨ha, ?_⟩
    rw [e2]
    simp only [upd_apply]
    rw [if_neg (hnoref i fd hi hfd)]
    exact hb
  · intro j2 hj2b hb
    rw [e2] at hb ⊢
    simp only [upd_apply] at hb ⊢
    by_cases hjj : j2 = j
    · rw [if_pos hjj] at hb; cases hb
    · rw [if_neg hjj] at hb ⊢
      rw [hc]
      exact h2 j2 hj2b hb
  · intro j2 hj2b hb
    rw [e2] at hb ⊢
    simp only [upd_apply] at hb ⊢
    by_cases hjj : j2 = j
    · rw [if_pos hjj] at hb; cases hb
    · rw [if_neg hjj] at hb ⊢
      exact h4 j2 hj2b hb

theorem inv_delete (N : Nat) (st s : State) (name : String) (r : Int) (hinv : CountInv N st)
    (h : fs_delete N st name = some (r, s)) : CountInv N s := by
  unfold fs_delete at h
  cases hidx : get_dir_index st name with
  | none =>
    rw [hidx] at h
    rw [← (Prod.mk.inj (Option.some.inj h)).2]; exact hinv
  | some j =>
    rw [hidx] at h
    simp only at h
    rw [get_dir_index_eq_some] at hidx
    obtain ⟨hj1, hj2, _, _⟩ := hidx
    by_cases hfds : (st.my_directory j).total_fds ≠ 0
    · rw [if_pos hfds] at h
      rw [← (Prod.mk.inj (Option.some.inj h)).2]; exact hinv
    · rw [if_neg hfds] at h
      have hz : (st.my_directory j).total_fds = 0 := by simpa using hfds
      cases hdc : delete_chain N (N + 1) st (st.my_directory j).first_block_num with
      | none => rw [hdc] at h; cases h
      | some st1 =>
        rw [hdc] at h
        simp only at h
        obtain ⟨f1, f2, _, _, _, f6⟩ := delete_chain_frame N _ st st1 _ hdc
        rw [← (Prod.mk.inj (Option.some.inj h)).2]
        exact inv_vacate N st _ j hj1 hj2 hz hinv f1 (by simp only [f2]) (f6 hinv.2.2.1)

theorem inv_step (B N : Nat) (st s : State) (c : Call) (hinv : CountInv N st)
    (h : step B N st c = some s) : CountInv N s := by
  cases c with
  | create name =>
    rw [← Option.some.inj h]; exact inv_create N st name hinv
  | delete name =>
    simp only [step] at h
    cases hd : fs_delete N st name with
    | none => rw [hd] at h; cases h
    | some p =>
      rw [hd] at h
      rw [← Option.some.inj h]
      exact inv_delete N st p.2 name p.1 hinv hd
  | opn name =>
    rw [← Option.some.inj h]; exact inv_open N st name hinv
  | close fildes =>
    rw [← Option.some.inj h]; exact inv_close N st fildes hinv
  | read fildes nbyte =>
    simp only [step] at h
    cases hd : fs_read B N st fildes nbyte with
    | none => rw [hd] at h; cases h
    | some p =>
      rw [hd] at h
      rw [← Option.some.inj h]
      exact inv_of_keeps N st _ hinv (fs_read_keeps B N st p.2.2 fildes nbyte p.1 p.2.1 hd)
  | write fildes buf nbyte =>
    simp only [step] at h
    cases hd : fs_write B N st fildes buf nbyte with
    | none => rw [hd] at h; cases h
    | some p =>
      rw [hd] at h
      rw [← Option.some.inj h]
      exact inv_of_keeps N st _ hinv (fs_write_keeps B N st p.2 fildes buf nbyte p.1 hd)
  | seek fildes offset =>
    rw [← Option.some.inj h]
    exact inv_of_keeps N st _ hinv (fs_lseek_keeps N st fildes offset)
  | truncate fildes length =>
    simp only [step] at h
    cases hd : fs_truncate B N st fildes length with
    | none => rw [hd] at h; cases h
    | some p =>
      rw [hd] at h
      rw [← Option.some.inj h]
      exact inv_of_keeps N st _ hinv (fs_truncate_keeps B N st p.2 fildes length p.1 hd)

theorem inv_reachable (B N : Nat) (st0 st : State) (hm : Mounted N st0) (h0 : NoOpenCount st0)
    (hr : Reachable B N st0 st) : CountInv N st := by
  induction hr with
  | start => exact mounted_inv N st0 hm h0
  | call s s1 c _ hstep ih => exact inv_step B N s s1 c ih hstep

/-- What `fs_delete` does to a found file under the counting invariant. -/
theorem fs_delete_of_inv (N : Nat) (st : State) (name : String) (j : Nat)
    (hinv : CountInv N st) (hj : get_dir_index st name = some j) :
    ((st.my_directory j).total_fds = 0 ↔ ¬ ∃ i, i < MAX_NUM_FD ∧ refers st j i = true) ∧
    ((∃ i, i < MAX_NUM_FD ∧ refers st j i = true) → fs_delete N st name = some (-1, st)) ∧
    ((¬ ∃ i, i < MAX_NUM_FD ∧ refers st j i = true) →
      ∃ s, fs_delete N st name = some (0, s)) := by
  obtain ⟨h1, h2, h3, h4⟩ := hinv
  have hjj := (get_dir_index_eq_some st name j).1 hj
  obtain ⟨hj1, hj2, _, _⟩ := hjj
  have hcnt := h2 j hj1 hj2
  have hiff : (st.my_directory j).total_fds = 0 ↔
      ¬ ∃ i, i < MAX_NUM_FD ∧ refers st j i = true := by
    rw [← fdCount_zero, hcnt]
    omega
  refine ⟨hiff, ?_, ?_⟩
  · intro hex
    have hne : (st.my_directory j).total_fds ≠ 0 := fun e => (hiff.1 e) hex
    unfold fs_delete
    rw [hj]
    simp only [hne, ne_eq, not_false_eq_true, if_true]
  · intro hno
    have hz := hiff.2 hno
    unfold fs_delete
    rw [hj]
    simp only [hz, ne_eq, not_true_eq_false, if_false]
    obtain ⟨s1, hs1⟩ := delete_chain_total N (N + 1) st (st.my_directory j).first_block_num
      (h4 j hj1 hj2) h3
      (by
        have := List.countP_le_length (fun b => decide ((st.my_fat b).next ≠ -1))
          (l := List.range N)
        rw [List.length_range] at this
        omega)
    rw [hs1]
    exact ⟨_, rfl⟩

theorem fresh_mounted : Mounted 8192 fresh :=
  ⟨fun _ _ => rfl, fun _ _ => Or.inl rfl, fun _ _ _ => Or.inl rfl⟩

theorem fresh_no_open_count : NoOpenCount fresh := fun _ _ _ => rfl

theorem opened_reachable : Reachable 4096 8192 fresh opened :=
  Reachable.call _ _ (Call.opn "a") (Reachable.call _ _ (Call.create "a") Reachable.start rfl) rfl

theorem closed_reachable : Reachable 4096 8192 fresh (fs_close opened 0).2 :=
  Reachable.call _ _ (Call.close 0) opened_reachable rfl

/-- Within a session: in every state reached by create, open, close, read,
write, seek, truncate and delete from a mounted state in which no occupied
entry counts an open descriptor, for an existing file: `total_fds` is zero
exactly when no bound descriptor refers to the file; while some bound
descriptor refers to it `fs_delete` returns -1 and leaves the whole state
unchanged; once none does, `fs_delete` returns 0. -/
theorem delete_vs_open_descriptors (B N : Nat) (st0 st : State) (hm : Mounted N st0)
    (h0 : NoOpenCount st0) (hr : Reachable B N st0 st) (name : String) (j : Nat)
    (hj : get_dir_index st name = some j) :
    ((st.my_directory j).total_fds = 0 ↔ ¬ ∃ i, i < MAX_NUM_FD ∧ refers st j i = true) ∧
    ((∃ i, i < MAX_NUM_FD ∧ refers st j i = true) → fs_delete N st name = some (-1, st)) ∧
    ((¬ ∃ i, i < MAX_NUM_FD ∧ refers st j i = true) →
      ∃ s, fs_delete N st name = some (0, s)) :=
  fs_delete_of_inv N st name j (inv_reachable B N st0 st hm h0 hr) hj

/-- On the formatted store, after create and open of "a" the delete is
refused; after the close it succeeds. -/
theorem delete_vs_open_descriptors_witness :
    fs_delete 8192 opened "a" = some (-1, opened) ∧
    ∃ s, fs_delete 8192 (fs_close opened 0).2 "a" = some (0, s) :=
  ⟨(delete_vs_open_descriptors 4096 8192 fresh opened fresh_mounted fresh_no_open_count
      opened_reachable "a" 0 (by decide)).2.1 ⟨0, by decide, by decide⟩,
   (delete_vs_open_descriptors 4096 8192 fresh (fs_close opened 0).2 fresh_mounted
      fresh_no_open_count closed_reachable "a" 0 (by decide)).2.2 (by decide)⟩

/-- The loop that reads the table ends when the blocks it is told to read fit
the array. -/
theorem mount_fat_total (L : Layout) (B N : Nat) (disk : Nat → Nat → Byte) (count : Nat) :
    ∀ (b : Int) (off : Nat) (fat : Nat → fat_t), off + count * B ≤ N * L.sizeof_fat_t →
      ∃ t, mount_fat L B N disk count b off fat = some t := by
  induction count with
  | zero => intro b off fat _; exact ⟨fat, rfl⟩
  | succ n ih =>
    intro b off fat h
    have h1 : off + B ≤ N * L.sizeof_fat_t := by
      have : off + B ≤ off + (n + 1) * B := by
        have : B ≤ (n + 1) * B := Nat.le_mul_of_pos_left B (Nat.succ_pos n)
        omega
      omega
    have h2 : (off + B) + n * B ≤ N * L.sizeof_fat_t := by
      have : (n + 1) * B = n * B + B := Nat.succ_mul n B
      omega
    obtain ⟨t, ht⟩ := ih (b + 1) (off + B) (L.fat_store fat off B (dev_read N disk b)) h2
    exact ⟨t, by simp only [mount_fat, if_pos h1, ht]⟩

/-- What `mount_fs` returns when the table fits its array and the directory
takes less than one block: `start` and `sz` are the values of `dir_start_block`
and `dir_size` that line 155 leaves in the super block. -/
theorem mount_fs_small (L : Layout) (B N : Nat) (mem : State) (junk : Nat → fat_t)
    (start sz : Int) (hB : 0 < B)
    (hst : sb_load L (dev_read N mem.disk 0) 0 mem.dir_start_block = start)
    (hsz : sb_load L (dev_read N mem.disk 0) 1 mem.dir_size = sz)
    (hfat : (sb_load L (dev_read N mem.disk 0) 3 mem.fat_total_blocks).toNat * B ≤
      N * L.sizeof_fat_t)
    (hnum : (toSizeT sz * L.sizeof_directory_t) % 2 ^ 64 / B = 0)
    (hrem : (toSizeT sz * L.sizeof_directory_t) % 2 ^ 64 % B ≠ 0)
    (hstart : start ≠ UNASSIGNED)
    (hfit : (toSizeT sz * L.sizeof_directory_t) % 2 ^ 64 % B ≤
      MAX_NUM_FILES * L.sizeof_directory_t) :
    mount_fs L B N mem false junk = some (0,
      { dir_start_block := start
        dir_size := sz
        fat_start_block := sb_load L (dev_read N mem.disk 0) 2 mem.fat_start_block
        fat_total_blocks := sb_load L (dev_read N mem.disk 0) 3 mem.fat_total_blocks
        total_data_storage := sb_load L (dev_read N mem.disk 0) 4 mem.total_data_storage
        avail_data_blocks := sb_load L (dev_read N mem.disk 0) 5 mem.avail_data_blocks
        my_directory := L.dir_store mem.my_directory 0
          ((toSizeT sz * L.sizeof_directory_t) % 2 ^ 64 % B) (dev_read N mem.disk start)
        my_fat := mem.my_fat
        my_fds := fun i => if i < MAX_NUM_FD then none else mem.my_fds i
        disk := mem.disk }) := by
  obtain ⟨t, ht⟩ := mount_fat_total L B N mem.disk
    (sb_load L (dev_read N mem.disk 0) 3 mem.fat_total_blocks).toNat
    (sb_load L (dev_read N mem.disk 0) 2 mem.fat_start_block) 0 junk (by omega)
  unfold mount_fs
  rw [if_pos hB]
  simp only [ht, hst, hsz, hnum, mount_dir, Bool.false_eq_true, if_false]
  rw [if_pos ⟨hstart, hrem⟩]
  simp only [Nat.zero_add]
  rw [if_pos hfit]

/-- C7 (code defect). `umount_fs` frees the bound descriptors (lines 242-247)
without the `total_fds--` that `fs_close` performs (line 276), and the
directory it stores keeps the counts. With `BLOCK_SIZE = 4096`,
`DISK_BLOCKS = 8192` and the layout `lp64le`: on the formatted store, after
`fs_create("a")` and `fs_open("a")` (descriptor 0 bound to "a"), `umount_fs`
succeeds and leaves no descriptor bound; the `mount_fs` that follows returns 0,
whatever the memory it works in holds (`raw`: the fields of the fresh super
block and the array its directory pointer designates; `junk1`, `junk2`: the
fresh table arrays) as long as the table count found there fits the table. In
the mounted state no call has been made yet, the file "a" exists, no bound
descriptor refers to it, yet its `total_fds` is 1 and `fs_delete("a")` returns
-1 and changes nothing. -/
theorem delete_refused_after_remount (raw : State) (junk1 junk2 : Nat → fat_t)
    (hfat : raw.fat_total_blocks.toNat * 4096 ≤ 8192 * 8) :
    refers opened 0 0 = true ∧
    ∃ d f s,
      umount_fs lp64le 4096 8192 junk1 opened = some (d, f) ∧
      mount_fs lp64le 4096 8192 { raw with disk := d, my_fds := f } false junk2 = some (0, s) ∧
      (∀ i, i < MAX_NUM_FD → s.my_fds i = none) ∧
      get_dir_index s "a" = some 0 ∧
      (¬ ∃ i, i < MAX_NUM_FD ∧ refers s 0 i = true) ∧
      (s.my_directory 0).total_fds = 1 ∧
      fs_delete 8192 s "a" = some (-1, s) := by
  refine ⟨by decide, ?_⟩
  have h0 : ∀ x, sb_load lp64le
      (fun j => if j < 8 then sb_bytes lp64le [17, 1, 1, 16, 0, 4096] j else 0) 0 x = 17 := by
    intro x
    unfold sb_load
    rw [if_pos (by decide)]
    decide
  have h1 : ∀ x, sb_load lp64le
      (fun j => if j < 8 then sb_bytes lp64le [17, 1, 1, 16, 0, 4096] j else 0) 1 x = 1 := by
    intro x
    unfold sb_load
    rw [if_pos (by decide)]
    decide
  have hm := mount_fs_small lp64le 4096 8192
    { raw with
        disk := dev_write 8192 (write_image 8192 32 (lp64le.fat_bytes junk1) 16 1 0
          (dev_write 8192 opened.disk 17
            (fun j => if j < 32 then lp64le.dir_bytes opened.my_directory (0 + j)
                      else opened.disk 17 j))) 0
          (fun j => if j < 8 then sb_bytes lp64le [17, 1, 1, 16, 0, 4096] j else 0)
        my_fds := fun i => if i < MAX_NUM_FD then none else opened.my_fds i }
    junk2 17 1 (by decide) (h0 _) (h1 _) hfat (by decide) (by decide) (by decide) (by decide)
  have hd : (lp64le.dir_store raw.my_directory 0 32
      (fun j => if j < 32 then lp64le.dir_bytes opened.my_directory (0 + j)
                else opened.disk 17 j)) 0 = opened.my_directory 0 := by
    show entry_of _ = _
    decide
  obtain ⟨s, hs, hsd, hsf⟩ : ∃ s, mount_fs lp64le 4096 8192
      { raw with
          disk := dev_write 8192 (write_image 8192 32 (lp64le.fat_bytes junk1) 16 1 0
            (dev_write 8192 opened.disk 17
              (fun j => if j < 32 then lp64le.dir_bytes opened.my_directory (0 + j)
                        else opened.disk 17 j))) 0
            (fun j => if j < 8 then sb_bytes lp64le [17, 1, 1, 16, 0, 4096] j else 0)
          my_fds := fun i => if i < MAX_NUM_FD then none else opened.my_fds i }
      false junk2 = some (0, s) ∧ s.my_directory 0 = opened.my_directory 0 ∧
      ∀ i, i < MAX_NUM_FD → s.my_fds i = none :=
    ⟨_, hm, hd, fun i hi => if_pos hi⟩
  have hg : get_dir_index s "a" = some 0 := (get_dir_index_eq_some s "a" 0).2
    ⟨by decide,
      (congrArg directory_t.busy hsd).trans (show (opened.my_directory 0).busy = true by decide),
      (congrArg directory_t.file_name hsd).trans
        (show (opened.my_directory 0).file_name = "a" by decide),
      fun j hj => absurd hj (Nat.not_lt_zero j)⟩
  have ht : (s.my_directory 0).total_fds = 1 :=
    (congrArg directory_t.total_fds hsd).trans
      (show (opened.my_directory 0).total_fds = 1 by decide)
  refine ⟨_, _, s, rfl, hs, hsf, hg, ?_, ht, ?_⟩
  · rintro ⟨i, hi, hr⟩
    unfold refers at hr
    rw [hsf i hi] at hr
    exact Bool.false_ne_true hr
  · unfold fs_delete
    rw [hg]
    simp only []
    rw [if_pos (by rw [ht]; decide)]

/-- C7 at a concrete input: the memory that `mount_fs` works in holds what
`opened` held, the fresh table arrays hold the table of `fresh`. -/
theorem delete_refused_after_remount_witness :
    opened.fat_total_blocks.toNat * 4096 ≤ 8192 * 8 ∧
    refers opened 0 0 = true ∧
    ∃ d f s,
      umount_fs lp64le 4096 8192 fresh.my_fat opened = some (d, f) ∧
      mount_fs lp64le 4096 8192 { opened with disk := d, my_fds := f } false fresh.my_fat =
        some (0, s) ∧
      (∀ i, i < MAX_NUM_FD → s.my_fds i = none) ∧
      get_dir_index s "a" = some 0 ∧
      (¬ ∃ i, i < MAX_NUM_FD ∧ refers s 0 i = true) ∧
      (s.my_directory 0).total_fds = 1 ∧
      fs_delete 8192 s "a" = some (-1, s) :=
  ⟨by decide, delete_refused_after_remount opened fresh.my_fat fresh.my_fat (by decide)⟩

/-! ## fs_lseek -/

/-- C12. Seek contract. For a bound descriptor, `fs_lseek(fildes, offset)`
returns 0 exactly when `0 ≤ offset ≤ file_size`. In that case the slot of the
descriptor holds the same descriptor with `offset` as its offset and every
other part of the state is as before. For a negative offset or an offset
beyond the size it returns -1 and the state, the offset of the descriptor
included, is unchanged. -/
theorem fs_lseek_contract (st : State) (fildes : Int) (offset : Int) (fd : fd_t)
    (hfd : fd_lookup st fildes = some fd) :
    ((fs_lseek st fildes offset).1 = 0 ↔
      0 ≤ offset ∧ offset ≤ (st.my_directory fd.dir_index).file_size) ∧
    (0 ≤ offset ∧ offset ≤ (st.my_directory fd.dir_index).file_size →
      fs_lseek st fildes offset =
        (0, { st with
                my_fds := upd st.my_fds fildes.toNat (some { fd with offset := offset }) }) ∧
      fd_lookup (fs_lseek st fildes offset).2 fildes = some { fd with offset := offset } ∧
      ∀ i, i ≠ fildes.toNat → (fs_lseek st fildes offset).2.my_fds i = st.my_fds i) ∧
    (offset < 0 ∨ (st.my_directory fd.dir_index).file_size < offset →
      fs_lseek st fildes offset = (-1, st) ∧
      fd_lookup (fs_lseek st fildes offset).2 fildes = some fd) := by
  obtain ⟨hf0, hf1, _⟩ := fd_lookup_some st fildes fd hfd
  have hg2 : ¬ (fildes < 0 ∨ fildes ≥ (MAX_NUM_FD : Int)) := by
    simp only [MAX_NUM_FD, Nat.cast_ofNat]; omega
  by_cases hc : offset < 0 ∨ offset > (st.my_directory fd.dir_index).file_size
  · have e : fs_lseek st fildes offset = (-1, st) := by
      unfold fs_lseek
      rw [hfd]
      simp only [hc, if_true]
    refine ⟨?_, ?_, ?_⟩
    · rw [e]
      constructor
      · intro h; simp at h
      · intro h; omega
    · intro h; omega
    · intro _
      rw [e]
      exact ⟨rfl, hfd⟩
  · have e : fs_lseek st fildes offset =
        (0, { st with
                my_fds := upd st.my_fds fildes.toNat (some { fd with offset := offset }) }) := by
      unfold fs_lseek
      rw [hfd]
      simp only [hc, if_false]
    refine ⟨?_, ?_, ?_⟩
    · rw [e]
      constructor
      · intro _; omega
      · intro _; rfl
    · intro _
      refine ⟨e, ?_, ?_⟩
      · rw [e]
        unfold fd_lookup
        rw [if_neg hg2]
        simp
      · intro i hi
        rw [e]
        simp [hi]
    · intro h
      exact absurd (by omega) hc

theorem fs_lseek_contract_witness :
    fd_lookup wrote5 0 = some { file_name := "a", dir_index := 0, offset := 5 } ∧
    (fs_lseek wrote5 0 2).1 = 0 ∧ (fs_lseek wrote5 0 6).1 ≠ 0 ∧
    fs_lseek wrote5 0 6 = (-1, wrote5) :=
  ⟨by decide,
   ((fs_lseek_contract wrote5 0 2 _ (by decide : fd_lookup wrote5 0 =
      some { file_name := "a", dir_index := 0, offset := 5 })).1).2 (by decide),
   by decide,
   ((fs_lseek_contract wrote5 0 6 _ (by decide : fd_lookup wrote5 0 =
      some { file_name := "a", dir_index := 0, offset := 5 })).2.2 (by decide)).1⟩

/-! ## get_free_block -/

theorem get_free_block_full (N : Nat) (fat : Nat → fat_t)
    (h : ∀ j, 4096 ≤ j → j < N → (fat j).busy = true) : get_free_block N fat = -1 := by
  unfold get_free_block
  cases hscan : firstIdx (fun i => !(fat i).busy) (N - 4096) 4096 with
  | none => rfl
  | some i =>
    exfalso
    rw [firstIdx_eq_some] at hscan
    obtain ⟨h1, h2, h3, _⟩ := hscan
    have := h i h1 (by omega)
    simp [this] at h3

/-- C20 (as amended). Free-block search. `get_free_block` returns the lowest
index of the range `4096 .. DISK_BLOCKS - 1` whose entry is not busy, and `-1`
exactly when every entry of that range is busy. It never returns an index below
4096, so never block 0 and never a block of the table stored from block 1 on
while that image ends below block 4096. The table is an argument that is only
read. -/
theorem get_free_block_contract (N : Nat) (fat : Nat → fat_t) :
    (∀ g : Nat, get_free_block N fat = (g : Int) ↔
      4096 ≤ g ∧ g < N ∧ (fat g).busy = false ∧
        ∀ j, 4096 ≤ j → j < g → (fat j).busy = true) ∧
    (get_free_block N fat = -1 ↔ ∀ j, 4096 ≤ j → j < N → (fat j).busy = true) ∧
    (∀ k : Int, k < 4096 → k ≠ -1 → get_free_block N fat ≠ k) := by
  unfold get_free_block
  cases hscan : firstIdx (fun i => !(fat i).busy) (N - 4096) 4096 with
  | none =>
    rw [firstIdx_eq_none] at hscan
    have hall : ∀ j, 4096 ≤ j → j < N → (fat j).busy = true := by
      intro j h1 h2
      have := hscan j h1 (by omega)
      simpa using this
    refine ⟨?_, ?_, ?_⟩
    · intro g
      constructor
      · intro h
        exfalso
        have : (-1 : Int) < 0 := by decide
        simp only at h
        omega
      · rintro ⟨h1, h2, h3, _⟩
        rw [hall g h1 h2] at h3
        cases h3
    · simp only [true_iff]
      exact hall
    · intro k _ hk h
      exact hk h.symm
  | some i =>
    rw [firstIdx_eq_some] at hscan
    obtain ⟨h1, h2, h3, h4⟩ := hscan
    have hi3 : (fat i).busy = false := by simpa using h3
    have hlow : ∀ j, 4096 ≤ j → j < i → (fat j).busy = true := by
      intro j a b
      simpa using h4 j a b
    refine ⟨?_, ?_, ?_⟩
    · intro g
      simp only [Nat.cast_inj]
      constructor
      · rintro rfl
        exact ⟨h1, by omega, hi3, hlow⟩
      · rintro ⟨a, b, c, d⟩
        rcases Nat.lt_trichotomy i g with hlt | heq | hgt
        · have := d i h1 hlt
          rw [hi3] at this
          cases this
        · exact heq
        · have := hlow g a hgt
          rw [c] at this
          cases this
    · simp only
      constructor
      · intro h
        exfalso
        omega
      · intro h
        have := h i h1 (by omega)
        rw [hi3] at this
        cases this
    · intro k hk _ h
      simp only at h
      omega

/-- C20 (the claim as stated fails). In `fresh` block 0 holds the super block
and blocks 1 to 16 the table; block 17 is none of them and is not busy, yet
`get_free_block` returns 4096. In `nearlyFull` block 17 is free as well and
`get_free_block` returns -1. -/
theorem get_free_block_counterexample :
    fresh.fat_start_block = 1 ∧ fresh.fat_total_blocks = 16 ∧
    (fresh.my_fat 17).busy = false ∧ get_free_block 8192 fresh.my_fat = 4096 ∧
    nearlyFull.fat_start_block = 1 ∧ nearlyFull.fat_total_blocks = 16 ∧
    (nearlyFull.my_fat 17).busy = false ∧ get_free_block 8192 nearlyFull.my_fat = -1 := by
  refine ⟨rfl, rfl, rfl, by decide, rfl, rfl, by decide, ?_⟩
  apply get_free_block_full
  intro j h1 h2
  simp only [nearlyFull, decide_eq_true_eq]
  omega

/-! ## Calls that return -1 -/

theorem write_skip_unassigned (B N : Nat) :
    ∀ (fuel : Nat) (st s : State) (cur off c o : Int),
      write_skip B N fuel st cur off = some (s, some (c, o)) → c = -1 →
        s = st ∧ cur = -1 := by
  intro fuel
  induction fuel with
  | zero => intro st s cur off c o h; simp [write_skip] at h
  | succ fuel ih =>
    intro st s cur off c o h hc
    simp only [write_skip] at h
    by_cases hoff : off ≥ (B : Int)
    · rw [if_pos hoff] at h
      by_cases hin : inTable N cur
      · rw [if_pos hin] at h
        cases hap : (if (st.my_fat cur.toNat).next = -1 then append_block N st cur
            else some st) with
        | none => rw [hap] at h; cases h
        | some st1 =>
          rw [hap] at h
          simp only at h
          by_cases hn : (st1.my_fat cur.toNat).next = -1
          · rw [if_pos hn] at h; cases h
          · rw [if_neg hn] at h
            exact absurd (ih _ _ _ _ _ _ h hc).2 hn
      · rw [if_neg hin] at h; cases h
    · rw [if_neg hoff] at h
      simp only [Option.some.injEq, Prod.mk.injEq] at h
      obtain ⟨h1, h2, _⟩ := h
      exact ⟨h1.symm, by rw [h2]; exact hc⟩

theorem write_loop_nonneg (B N : Nat) (buf : Nat → Byte) (fildes : Int) (di : Nat) :
    ∀ (fuel : Nat) (st s : State) (cur : Int) (written rem : Nat) (r : Int),
      write_loop B N buf fildes di fuel st cur written rem = some (r, s) → 0 ≤ r := by
  intro fuel
  induction fuel with
  | zero =>
    intro st s cur written rem r h
    simp only [write_loop] at h
    split at h
    · cases h
    · simp only [Option.some.injEq, Prod.mk.injEq] at h
      omega
  | succ fuel ih =>
    intro st s cur written rem r h
    simp only [write_loop] at h
    by_cases h1 : rem > 0
    · rw [if_pos h1] at h
      by_cases h2 : inTable N cur
      · rw [if_pos h2] at h
        cases hm : (if (st.my_fat cur.toNat).next = -1 then
                 (append_block N st cur).map
                   (fun s => { s with avail_data_blocks := s.avail_data_blocks - 1 })
               else some st) with
        | none => rw [hm] at h; cases h
        | some st1 =>
          rw [hm] at h
          simp only at h
          by_cases h3 : (st1.my_fat cur.toNat).next = -1
          · rw [if_pos h3] at h
            simp only [Option.some.injEq, Prod.mk.injEq] at h
            omega
          · rw [if_neg h3] at h
            cases hbr : block_read N st1.disk (st1.my_fat cur.toNat).next with
            | none => rw [hbr] at h; cases h
            | some blk =>
              rw [hbr] at h
              simp only at h
              generalize (if rem < B then rem else B) = k at h
              split at h
              · simp only [Option.some.injEq, Prod.mk.injEq] at h
                omega
              · exact ih _ _ _ _ _ _ h
      · rw [if_neg h2] at h; cases h
    · rw [if_neg h1] at h
      simp only [Option.some.injEq, Prod.mk.injEq] at h
      omega

theorem write_rest_nonneg (B N : Nat) (buf : Nat → Byte) (fildes : Int) (di n : Nat)
    (st s : State) (cur : Int) (blk : Nat → Byte) (written rem : Nat) (r : Int)
    (h : write_rest B N buf fildes di n st cur blk written rem = some (r, s)) : 0 ≤ r := by
  unfold write_rest at h
  simp only at h
  split at h
  · simp only [Option.some.injEq, Prod.mk.injEq] at h
    omega
  · exact write_loop_nonneg B N buf fildes di _ _ _ _ _ _ _ h

theorem write_first_failed (B N : Nat) (buf : Nat → Byte) (fildes : Int) (di n btw : Nat)
    (st1 s : State) (cur off : Int)
    (h : write_first B N buf fildes di n btw st1 cur off = some (-1, s)) :
    s = st1 ∧ cur = -1 := by
  unfold write_first at h
  split at h
  · split at h
    · rename_i hc
      simp only [Option.some.injEq, Prod.mk.injEq, true_and] at h
      exact ⟨h.symm, hc⟩
    · split at h
      · cases h
      · have := write_rest_nonneg _ _ _ _ _ _ _ _ _ _ _ _ _ h
        omega
  · simp only at h
    split at h
    · simp only [Option.some.injEq, Prod.mk.injEq] at h
      omega
    · split at h
      · cases h
      · have := write_rest_nonneg _ _ _ _ _ _ _ _ _ _ _ _ _ h
        omega

theorem fs_write_failed (B N : Nat) (st s : State) (fildes : Int) (buf : Nat → Byte)
    (nbyte : Nat) (h : fs_write B N st fildes buf nbyte = some (-1, s)) : s = st := by
  unfold fs_write at h
  split at h
  · simp only [Option.some.injEq, Prod.mk.injEq, true_and] at h
    exact h.symm
  · split at h
    · simp only [Option.some.injEq, Prod.mk.injEq, true_and] at h
      exact h.symm
    · simp only at h
      split at h
      · simp only [Option.some.injEq, Prod.mk.injEq] at h
        omega
      · split at h
        · cases h
        · simp only [Option.some.injEq, Prod.mk.injEq] at h
          omega
        · rename_i st1 cur off hsk
          obtain ⟨h1, h2⟩ := write_first_failed _ _ _ _ _ _ _ _ _ _ _ h
          rw [h1]
          exact (write_skip_unassigned B N _ _ _ _ _ _ _ hsk h2).1

theorem read_finish_failed (st s : State) (fildes : Int) (fd : fd_t)
    (x : Option (Bool × List Byte)) (out : List Byte)
    (h : read_finish st fildes fd x = some (-1, out, s)) : s = st := by
  unfold read_finish at h
  split at h
  · cases h
  · simp only [Option.some.injEq, Prod.mk.injEq, true_and] at h
    exact h.2.symm
  · simp only [Option.some.injEq, Prod.mk.injEq] at h
    omega

theorem fs_read_failed (B N : Nat) (st s : State) (fildes : Int) (nbyte : Nat)
    (out : List Byte) (h : fs_read B N st fildes nbyte = some (-1, out, s)) : s = st := by
  unfold fs_read at h
  have hsame : ∀ (v : Int) (l : List Byte), some (v, l, st) = some (-1, out, s) → s = st := by
    intro v l hv
    simp only [Option.some.injEq, Prod.mk.injEq] at hv
    exact hv.2.2.symm
  split at h
  · exact hsame _ _ h
  · split at h
    · exact hsame _ _ h
    · simp only at h
      split at h
      · exact hsame _ _ h
      · split at h
        · exact hsame _ _ h
        · split at h
          · cases h
          · exact hsame _ _ h
          · split at h
            · split at h
              · exact hsame _ _ h
              · split at h
                · cases h
                · exact read_finish_failed _ _ _ _ _ _ h
            · exact read_finish_failed _ _ _ _ _ _ h

theorem fs_truncate_failed (B N : Nat) (st s : State) (fildes : Int) (length : Int)
    (h : fs_truncate B N st fildes length = some (-1, s)) : s = st := by
  unfold fs_truncate at h
  have hsame : ∀ v : Int, some (v, st) = some (-1, s) → s = st := by
    intro v hv
    simp only [Option.some.injEq, Prod.mk.injEq] at hv
    exact hv.2.symm
  split at h
  · exact hsame _ h
  · simp only at h
    split at h
    · exact hsame _ h
    · split at h
      · cases h
      · exact hsame _ h
      · split at h
        · split at h
          · cases h
          · simp only [Option.some.injEq, Prod.mk.injEq] at h
            omega
        · cases h

theorem fs_delete_failed (N : Nat) (st s : State) (name : String)
    (h : fs_delete N st name = some (-1, s)) : s = st := by
  unfold fs_delete at h
  have hsame : ∀ v : Int, some (v, st) = some (-1, s) → s = st := by
    intro v hv
    simp only [Option.some.injEq, Prod.mk.injEq] at hv
    exact hv.2.symm
  split at h
  · exact hsame _ h
  · simp only at h
    split at h
    · exact hsame _ h
    · split at h
      · cases h
      · simp only [Option.some.injEq, Prod.mk.injEq] at h
        omega

theorem fs_create_failed (st : State) (name : String) (h : (fs_create st name).1 = -1) :
    (fs_create st name).2 = st := by
  unfold fs_create at h ⊢
  split
  · rfl
  · split
    · rfl
    · split
      · rfl
      · split
        · rename_i i hi
          simp only [ge_iff_le, gt_iff_lt, *, if_false] at h
          simp at h
        · rfl

theorem fs_open_failed (st : State) (name : String) (h : (fs_open st name).1 = -1) :
    (fs_open st name).2 = st := by
  unfold fs_open at h ⊢
  split
  · rfl
  · split
    · rename_i i hi
      simp only [*] at h
      omega
    · rfl

theorem fs_close_failed (st : State) (fildes : Int) (h : (fs_close st fildes).1 = -1) :
    (fs_close st fildes).2 = st := by
  unfold fs_close at h ⊢
  split
  · rfl
  · simp only [*] at h
    simp at h

theorem fs_lseek_failed (st : State) (fildes : Int) (offset : Int)
    (h : (fs_lseek st fildes offset).1 = -1) : (fs_lseek st fildes offset).2 = st := by
  unfold fs_lseek at h ⊢
  split
  · rfl
  · split
    · rfl
    · simp only [*, if_false] at h
      simp at h

theorem fd_lookup_eq_none (st : State) (fildes : Int) :
    fd_lookup st fildes = none ↔
      (fildes < 0 ∨ (MAX_NUM_FD : Int) ≤ fildes ∨ st.my_fds fildes.toNat = none) := by
  unfold fd_lookup
  by_cases hc : fildes < 0 ∨ fildes ≥ (MAX_NUM_FD : Int)
  · rw [if_pos hc]
    simp only [true_iff]
    rcases hc with hc | hc
    · exact Or.inl hc
    · exact Or.inr (Or.inl hc)
  · rw [if_neg hc]
    constructor
    · intro h; exact Or.inr (Or.inr h)
    · rintro (h | h | h)
      · exact absurd (Or.inl h) hc
      · exact absurd (Or.inr h) hc
      · exact h

/-- C13. Failure atomicity. Whenever `fs_create`, `fs_delete`, `fs_open`,
`fs_close`, `fs_read`, `fs_write`, `fs_lseek` or `fs_truncate` returns -1, the
state it leaves (counters, directory, table, descriptors, device) is the state
it was called in; `fs_get_filesize` only reads the state. A call with a
descriptor index that is negative, at least `MAX_NUM_FD` or unbound does
return -1 (with that unchanged state). -/
theorem failure_leaves_state (B N : Nat) (st : State) :
    (∀ name, (fs_create st name).1 = -1 → (fs_create st name).2 = st) ∧
    (∀ name s, fs_delete N st name = some (-1, s) → s = st) ∧
    (∀ name, (fs_open st name).1 = -1 → (fs_open st name).2 = st) ∧
    (∀ fildes, (fs_close st fildes).1 = -1 → (fs_close st fildes).2 = st) ∧
    (∀ fildes nbyte out s, fs_read B N st fildes nbyte = some (-1, out, s) → s = st) ∧
    (∀ fildes buf nbyte s, fs_write B N st fildes buf nbyte = some (-1, s) → s = st) ∧
    (∀ fildes offset, (fs_lseek st fildes offset).1 = -1 → (fs_lseek st fildes offset).2 = st) ∧
    (∀ fildes length s, fs_truncate B N st fildes length = some (-1, s) → s = st) ∧
    (∀ fildes : Int,
      fildes < 0 ∨ (MAX_NUM_FD : Int) ≤ fildes ∨ st.my_fds fildes.toNat = none →
        fs_close st fildes = (-1, st) ∧
        (∀ nbyte, fs_read B N st fildes nbyte = some (-1, [], st)) ∧
        (∀ buf nbyte, fs_write B N st fildes buf nbyte = some (-1, st)) ∧
        (∀ offset, fs_lseek st fildes offset = (-1, st)) ∧
        (∀ length, fs_truncate B N st fildes length = some (-1, st)) ∧
        fs_get_filesize st fildes = -1) := by
  refine ⟨fs_create_failed st, fun name s => fs_delete_failed N st s name,
    fs_open_failed st, fs_close_failed st,
    fun fildes nbyte out s => fs_read_failed B N st s fildes nbyte out,
    fun fildes buf nbyte s => fs_write_failed B N st s fildes buf nbyte,
    fs_lseek_failed st, fun fildes length s => fs_truncate_failed B N st s fildes length, ?_⟩
  intro fildes hbad
  have hfd : fd_lookup st fildes = none := (fd_lookup_eq_none st fildes).2 hbad
  refine ⟨?_, ?_, ?_, ?_, ?_, ?_⟩
  · unfold fs_close; rw [hfd]
  · intro nbyte
    unfold fs_read
    rw [hfd]
    split <;> rfl
  · intro buf nbyte
    unfold fs_write
    rw [hfd]
    split <;> rfl
  · intro offset
    unfold fs_lseek; rw [hfd]
  · intro length
    unfold fs_truncate; rw [hfd]
  · unfold fs_get_filesize; rw [hfd]

theorem failure_leaves_state_witness :
    (fs_create opened "a").1 = -1 ∧ (fs_create opened "a").2 = opened ∧
    opened.my_fds (7 : Int).toNat = none ∧ fs_close opened 7 = (-1, opened) ∧
    fs_write 4096 8192 opened (-3) (fun _ => 88) 5 = some (-1, opened) :=
  ⟨by decide, (failure_leaves_state 4096 8192 opened).1 "a" (by decide), by decide,
   ((failure_leaves_state 4096 8192 opened).2.2.2.2.2.2.2.2 7 (Or.inr (Or.inr (by decide)))).1,
   ((failure_leaves_state 4096 8192 opened).2.2.2.2.2.2.2.2 (-3) (Or.inl (by decide))).2.2.1
     (fun _ => 88) 5⟩

/-! ## What a call through one descriptor leaves alone -/

theorem Frame.same (k di : Nat) (st : State) : Frame k di st st :=
  ⟨fun _ _ => rfl, fun _ _ => rfl, rfl, rfl⟩

theorem Frame.andThen {k di : Nat} {a b c : State} (h1 : Frame k di a b) (h2 : Frame k di b c) :
    Frame k di a c :=
  ⟨fun i hi => (h2.fds i hi).trans (h1.fds i hi),
   fun j hj => (h2.dir j hj).trans (h1.dir j hj),
   h2.busy.trans h1.busy, h2.total.trans h1.total⟩

theorem Frame.of_tables (k di : Nat) (st s : State) (h1 : s.my_fds = st.my_fds)
    (h2 : s.my_directory = st.my_directory)
    (h3 : s.total_data_storage = st.total_data_storage) : Frame k di st s :=
  ⟨fun i _ => by rw [h1], fun j _ => by rw [h2], by rw [h2], by rw [h2, h3]⟩

theorem append_block_frame (k di N : Nat) (st s : State) (cur : Int)
    (h : append_block N st cur = some s) : Frame k di st s := by
  unfold append_block at h
  generalize get_free_block N st.my_fat = g at h
  split at h
  · simp only at h
    split at h
    · rw [← Option.some.inj h]
      exact Frame.of_tables k di _ _ rfl rfl rfl
    · cases h
  · cases h

theorem block_write_frame (k di : Nat) (st : State) (b : Int) (blk : Nat → Byte) :
    Frame k di st (block_write st b blk) :=
  Frame.of_tables k di _ _ rfl rfl rfl

theorem write_finish_frame (st : State) (fildes : Int) (di w : Nat) :
    Frame fildes.toNat di st (write_finish st fildes di w) := by
  unfold write_finish
  cases hfd : st.my_fds fildes.toNat with
  | none => exact Frame.same _ _ _
  | some fd =>
    simp only
    split
    · refine ⟨?_, ?_, ?_, ?_⟩
      · intro i hi; simp [hi]
      · intro j hj; simp [hj]
      · simp
      · simp only [upd_same]
        omega
    · refine ⟨?_, fun _ _ => rfl, rfl, rfl⟩
      intro i hi; simp [hi]

theorem write_skip_frame (k di B N : Nat) :
    ∀ (fuel : Nat) (st s : State) (cur off : Int) (x : Option (Int × Int)),
      write_skip B N fuel st cur off = some (s, x) → Frame k di st s := by
  intro fuel
  induction fuel with
  | zero => intro st s cur off x h; simp [write_skip] at h
  | succ fuel ih =>
    intro st s cur off x h
    simp only [write_skip] at h
    by_cases h1 : off ≥ (B : Int)
    · rw [if_pos h1] at h
      by_cases h2 : inTable N cur
      · rw [if_pos h2] at h
        cases hm : (if (st.my_fat cur.toNat).next = -1 then append_block N st cur else some st) with
        | none => rw [hm] at h; cases h
        | some st1 =>
          rw [hm] at h
          simp only at h
          have hk1 : Frame k di st st1 := by
            by_cases hn : (st.my_fat cur.toNat).next = -1
            · rw [if_pos hn] at hm
              exact append_block_frame k di N st st1 cur hm
            · rw [if_neg hn] at hm
              rw [← Option.some.inj hm]
              exact Frame.same k di st
          by_cases h3 : (st1.my_fat cur.toNat).next = -1
          · rw [if_pos h3] at h
            have := (Prod.mk.inj (Option.some.inj h)).1
            rw [← this]; exact hk1
          · rw [if_neg h3] at h
            exact hk1.andThen (ih st1 s _ _ x h)
      · rw [if_neg h2] at h; cases h
    · rw [if_neg h1] at h
      have := (Prod.mk.inj (Option.some.inj h)).1
      rw [← this]; exact Frame.same k di st

theorem write_loop_frame (B N : Nat) (buf : Nat → Byte) (fildes : Int) (di : Nat) :
    ∀ (fuel : Nat) (st s : State) (cur : Int) (w rem : Nat) (r : Int),
      write_loop B N buf fildes di fuel st cur w rem = some (r, s) →
        Frame fildes.toNat di st s := by
  intro fuel
  induction fuel with
  | zero =>
    intro st s cur w rem r h
    simp only [write_loop] at h
    by_cases h1 : rem > 0
    · rw [if_pos h1] at h; cases h
    · rw [if_neg h1] at h
      have := (Prod.mk.inj (Option.some.inj h)).2
      rw [← this]; exact Frame.same _ _ st
  | succ fuel ih =>
    intro st s cur w rem r h
    simp only [write_loop] at h
    by_cases h1 : rem > 0
    · rw [if_pos h1] at h
      by_cases h2 : inTable N cur
      · rw [if_pos h2] at h
        cases hm : (if (st.my_fat cur.toNat).next = -1 then
                 (append_block N st cur).map
                   (fun s => { s with avail_data_blocks := s.avail_data_blocks - 1 })
               else some st) with
        | none => rw [hm] at h; cases h
        | some st1 =>
          rw [hm] at h
          simp only at h
          have hk1 : Frame fildes.toNat di st st1 := by
            by_cases hn : (st.my_fat cur.toNat).next = -1
            · rw [if_pos hn] at hm
              cases happ : append_block N st cur with
              | none => rw [happ] at hm; cases hm
              | some s0 =>
                rw [happ] at hm
                have hs := Option.some.inj hm
                rw [← hs]
                exact (append_block_frame _ di N st s0 cur happ).andThen
                  (Frame.of_tables _ _ _ _ rfl rfl rfl)
            · rw [if_neg hn] at hm
              rw [← Option.some.inj hm]
              exact Frame.same _ _ st
          by_cases h3 : (st1.my_fat cur.toNat).next = -1
          · rw [if_pos h3] at h
            have := (Prod.mk.inj (Option.some.inj h)).2
            rw [← this]
            exact hk1.andThen (write_finish_frame st1 fildes di w)
          · rw [if_neg h3] at h
            cases hbr : block_read N st1.disk (st1.my_fat cur.toNat).next with
            | none => rw [hbr] at h; cases h
            | some blk =>
              rw [hbr] at h
              simp only at h
              generalize (if rem < B then rem else B) = k at h
              split at h
              · have := (Prod.mk.inj (Option.some.inj h)).2
                rw [← this]
                exact hk1.andThen ((block_write_frame _ _ st1 _ _).andThen
                  (write_finish_frame _ fildes di _))
              · exact hk1.andThen ((block_write_frame _ _ st1 _ _).andThen (ih _ s _ _ _ r h))
      · rw [if_neg h2] at h; cases h
    · rw [if_neg h1] at h
      have := (Prod.mk.inj (Option.some.inj h)).2
      rw [← this]; exact Frame.same _ _ st

theorem write_rest_frame (B N : Nat) (buf : Nat → Byte) (fildes : Int) (di n : Nat)
    (st s : State) (cur : Int) (blk : Nat → Byte) (w rem : Nat) (r : Int)
    (h : write_rest B N buf fildes di n st cur blk w rem = some (r, s)) :
    Frame fildes.toNat di st s := by
  unfold write_rest at h
  simp only at h
  split at h
  · have := (Prod.mk.inj (Option.some.inj h)).2
    rw [← this]
    exact (block_write_frame _ _ st _ _).andThen (write_finish_frame _ fildes di _)
  · exact (block_write_frame _ _ st _ _).andThen
      (write_loop_frame B N buf fildes di _ _ s _ _ _ r h)

theorem write_first_frame (B N : Nat) (buf : Nat → Byte) (fildes : Int) (di n btw : Nat)
    (st s : State) (cur off : Int) (r : Int)
    (h : write_first B N buf fildes di n btw st cur off = some (r, s)) :
    Frame fildes.toNat di st s := by
  unfold write_first at h
  generalize hg : get_free_block N st.my_fat = g at h
  by_cases h1 : off > 0
  · rw [if_pos h1] at h
    by_cases h2 : cur = -1
    · rw [if_pos h2] at h
      have := (Prod.mk.inj (Option.some.inj h)).2
      rw [← this]; exact Frame.same _ _ st
    · rw [if_neg h2] at h
      cases hbr : block_read N st.disk cur with
      | none => rw [hbr] at h; cases h
      | some blk =>
        rw [hbr] at h
        exact write_rest_frame B N buf fildes di n st s cur _ _ _ r h
  · rw [if_neg h1] at h
    simp only at h
    by_cases h2 : cur = -1 ∧ g = -1
    · rw [if_pos h2] at h
      have := (Prod.mk.inj (Option.some.inj h)).2
      rw [← this]; exact Frame.same _ _ st
    · rw [if_neg h2] at h
      by_cases h3 : cur = -1
      · simp only [h3, if_true] at h
        cases hbr : block_read N st.disk g with
        | none => rw [hbr] at h; cases h
        | some blk =>
          rw [hbr] at h
          simp only at h
          have hk := write_rest_frame B N buf fildes di n _ s g _ _ _ r h
          refine Frame.andThen ?_ hk
          refine ⟨fun _ _ => rfl, ?_, ?_, ?_⟩
          · intro j hj; simp [hj]
          · simp
          · simp
      · simp only [h3, if_false] at h
        cases hbr : block_read N st.disk cur with
        | none => rw [hbr] at h; cases h
        | some blk =>
          rw [hbr] at h
          exact write_rest_frame B N buf fildes di n st s cur _ _ _ r h

theorem fs_write_frame (B N : Nat) (st s : State) (fildes : Int) (buf : Nat → Byte)
    (nbyte : Nat) (r : Int) (fd : fd_t) (hfd : fd_lookup st fildes = some fd)
    (h : fs_write B N st fildes buf nbyte = some (r, s)) :
    Frame fildes.toNat fd.dir_index st s := by
  unfold fs_write at h
  have hsame : ∀ v : Int, some (v, st) = some (r, s) → Frame fildes.toNat fd.dir_index st s := by
    intro v hv
    have := (Prod.mk.inj (Option.some.inj hv)).2
    rw [← this]; exact Frame.same _ _ st
  by_cases h1 : nbyte = 0
  · rw [if_pos h1] at h; exact hsame _ h
  · rw [if_neg h1, hfd] at h
    simp only at h
    by_cases h2 : toSizeT ((MAX_FILE_SIZE B : Int) - st.total_data_storage) = 0
    · rw [if_pos h2] at h; exact hsame _ h
    · rw [if_neg h2] at h
      cases hsk : write_skip B N (fd.offset.toNat + 1) st
          (st.my_directory fd.dir_index).first_block_num fd.offset with
      | none => rw [hsk] at h; cases h
      | some p =>
        obtain ⟨st1, x⟩ := p
        rw [hsk] at h
        have hk1 := write_skip_frame fildes.toNat fd.dir_index B N _ st st1 _ _ x hsk
        cases x with
        | none =>
          simp only at h
          have := (Prod.mk.inj (Option.some.inj h)).2
          rw [← this]; exact hk1
        | some co =>
          obtain ⟨cur, off⟩ := co
          simp only at h
          exact hk1.andThen
            (write_first_frame B N buf fildes fd.dir_index nbyte _ st1 s cur off r h)

theorem trunc_free_tables (N : Nat) :
    ∀ (fuel : Nat) (st s : State) (cur : Int), trunc_free N fuel st cur = some s →
      s.my_fds = st.my_fds ∧ s.my_directory = st.my_directory ∧
      s.total_data_storage = st.total_data_storage ∧ s.dir_size = st.dir_size ∧
      s.disk = st.disk := by
  intro fuel
  induction fuel with
  | zero =>
    intro st s cur h
    simp only [trunc_free] at h
    split at h
    · cases h
    · rw [← Option.some.inj h]; exact ⟨rfl, rfl, rfl, rfl, rfl⟩
  | succ fuel ih =>
    intro st s cur h
    simp only [trunc_free] at h
    split at h
    · split at h
      · obtain ⟨h1, h2, h3, h4, h5⟩ := ih _ s _ h
        exact ⟨h1, h2, h3, h4, h5⟩
      · cases h
    · rw [← Option.some.inj h]; exact ⟨rfl, rfl, rfl, rfl, rfl⟩

theorem fs_truncate_frame (B N : Nat) (st s : State) (fildes : Int) (length : Int) (r : Int)
    (fd : fd_t) (hfd : fd_lookup st fildes = some fd)
    (h : fs_truncate B N st fildes length = some (r, s)) :
    Frame fildes.toNat fd.dir_index st s := by
  unfold fs_truncate at h
  have hsame : ∀ v : Int, some (v, st) = some (r, s) → Frame fildes.toNat fd.dir_index st s := by
    intro v hv
    have := (Prod.mk.inj (Option.some.inj hv)).2
    rw [← this]; exact Frame.same _ _ st
  rw [hfd] at h
  simp only at h
  split at h
  · exact hsame _ h
  · split at h
    · cases h
    · exact hsame _ h
    · split at h
      · cases hfree : trunc_free N (N + 1) st (st.my_fat _).next with
        | none => rw [hfree] at h; cases h
        | some st1 =>
          rw [hfree] at h
          simp only at h
          obtain ⟨e1, e2, e3, _, _⟩ := trunc_free_tables N _ st st1 _ hfree
          have := (Prod.mk.inj (Option.some.inj h)).2
          rw [← this]
          refine ⟨?_, ?_, ?_, ?_⟩
          · intro i hi
            simp only [upd_apply, if_neg hi, e1]
          · intro j hj
            simp only [upd_apply, if_neg hj, e2]
          · simp only [upd_same, e2]
          · simp only [upd_same, e2, e3]
            omega
      · cases h

theorem read_finish_frame (k di : Nat) (st s : State) (fildes : Int) (fd : fd_t)
    (x : Option (Bool × List Byte)) (r : Int) (out : List Byte) (hk : k = fildes.toNat)
    (h : read_finish st fildes fd x = some (r, out, s)) : Frame k di st s := by
  unfold read_finish at h
  split at h
  · cases h
  · simp only [Option.some.injEq, Prod.mk.injEq] at h
    rw [← h.2.2]; exact Frame.same _ _ st
  · simp only [Option.some.injEq, Prod.mk.injEq] at h
    rw [← h.2.2]
    refine ⟨?_, fun _ _ => rfl, rfl, rfl⟩
    intro i hi
    rw [hk] at hi
    simp [hi]

theorem fs_read_frame (k di B N : Nat) (st s : State) (fildes : Int) (nbyte : Nat) (r : Int)
    (out : List Byte) (hk : k = fildes.toNat)
    (h : fs_read B N st fildes nbyte = some (r, out, s)) : Frame k di st s := by
  unfold fs_read at h
  have hsame : ∀ (v : Int) (l : List Byte), some (v, l, st) = some (r, out, s) →
      Frame k di st s := by
    intro v l hv
    simp only [Option.some.injEq, Prod.mk.injEq] at hv
    rw [← hv.2.2]; exact Frame.same _ _ st
  split at h
  · exact hsame _ _ h
  · split at h
    · exact hsame _ _ h
    · simp only at h
      split at h
      · exact hsame _ _ h
      · split at h
        · exact hsame _ _ h
        · split at h
          · cases h
          · exact hsame _ _ h
          · split at h
            · split at h
              · exact hsame _ _ h
              · split at h
                · cases h
                · exact read_finish_frame k di _ _ _ _ _ _ _ hk h
            · exact read_finish_frame k di _ _ _ _ _ _ _ hk h

theorem fs_lseek_frame (k di : Nat) (st : State) (fildes : Int) (offset : Int)
    (hk : k = fildes.toNat) : Frame k di st (fs_lseek st fildes offset).2 := by
  unfold fs_lseek
  split
  · exact Frame.same _ _ st
  · split
    · exact Frame.same _ _ st
    · refine ⟨?_, fun _ _ => rfl, rfl, rfl⟩
      intro i hi
      rw [hk] at hi
      simp [hi]

theorem fs_close_fds (st : State) (fildes : Int) (i : Nat) (hi : i ≠ fildes.toNat) :
    (fs_close st fildes).2.my_fds i = st.my_fds i := by
  unfold fs_close
  split
  · rfl
  · simp [hi]

/-! ## Two descriptors -/

theorem fd_lookup_other (st s : State) (fd1 fd2 : Int) (f2 : fd_t) (hne : fd1 ≠ fd2)
    (h1 : 0 ≤ fd1) (h2 : fd_lookup st fd2 = some f2)
    (hfr : ∀ i, i ≠ fd1.toNat → s.my_fds i = st.my_fds i) : fd_lookup s fd2 = some f2 := by
  obtain ⟨a, b, c⟩ := fd_lookup_some st fd2 f2 h2
  unfold fd_lookup
  have hg : ¬ (fd2 < 0 ∨ fd2 ≥ (MAX_NUM_FD : Int)) := by
    simp only [MAX_NUM_FD, Nat.cast_ofNat]; omega
  rw [if_neg hg, hfr fd2.toNat (by omega), c]

theorem fileSlice_of_bytes (B : Nat) (disk : Nat → Nat → Byte) (bs : List Nat) (o n size : Nat)
    (h : o + n ≤ size) :
    fileSlice B disk bs o n = ((fileBytes B disk bs size).drop o).take n := by
  unfold fileBytes
  have e : size = o + (n + (size - (o + n))) := by omega
  rw [e, fileSlice_add, Nat.zero_add,
    List.drop_left' (fileSlice_length _ _ _ _ _), fileSlice_add,
    List.take_left' (fileSlice_length _ _ _ _ _)]

theorem slice_of_content (old d : List Byte) (o : Nat) (ho : o ≤ old.length) :
    ((old.take o ++ d ++ old.drop (o + d.length)).drop o).take d.length = d := by
  have hl : (old.take o).length = o := by
    rw [List.length_take]; omega
  rw [List.append_assoc, List.drop_left' hl, List.take_left' rfl]

/-- Bytes written through one descriptor are what a read through another
descriptor of the same file, standing at the same offset, returns. -/
theorem write_then_read_other (B N : Nat) (hB : 0 < B) (hM : (MAX_FILE_SIZE B : Int) ≤ INT_MAX)
    (st : State) (fd1 fd2 : Int) (f1 f2 : fd_t) (d : List Byte) (bs : List Nat)
    (h1 : fd_lookup st fd1 = some f1) (h2 : fd_lookup st fd2 = some f2) (hne : fd1 ≠ fd2)
    (hsame : f2.dir_index = f1.dir_index) (hpos : f2.offset = f1.offset)
    (hch : ChainOK B N st.my_fat (st.my_directory f1.dir_index) bs)
    (hoff : 0 ≤ f1.offset) (hoff2 : f1.offset ≤ (st.my_directory f1.dir_index).file_size)
    (hn : 0 < d.length) (htot : 0 ≤ st.total_data_storage)
    (hcap : st.total_data_storage + (d.length : Int) ≤ (MAX_FILE_SIZE B : Int))
    (hsz : (st.my_directory f1.dir_index).file_size + (d.length : Int) ≤ INT_MAX)
    (hfree : ceilDiv (f1.offset.toNat + d.length) B ≤ bs.length + freeCount N st.my_fat) :
    ∃ s1 s2 : State,
      fs_write B N st fd1 (fun i => d.getD i 0) d.length = some ((d.length : Int), s1) ∧
      fs_read B N s1 fd2 d.length = some ((d.length : Int), d, s2) := by
  obtain ⟨s1, bs1, hw, hsize, hch1, _, hcont⟩ :=
    fs_write_content B N hB hM st fd1 d f1 bs h1 hch hoff hoff2 hn htot hcap hfree
  obtain ⟨a1, _, _⟩ := fd_lookup_some st fd1 f1 h1
  have hfr := fs_write_frame B N st s1 fd1 _ _ _ f1 h1 hw
  have h2s : fd_lookup s1 fd2 = some f2 := fd_lookup_other st s1 fd1 fd2 f2 hne a1 h2 hfr.fds
  obtain ⟨hc0, hs0, hlen, _⟩ := hch
  generalize hS : (st.my_directory f1.dir_index).file_size = size at *
  generalize ho : f1.offset = offset at *
  obtain ⟨S, rfl⟩ := Int.eq_ofNat_of_zero_le hs0
  obtain ⟨o, rfl⟩ := Int.eq_ofNat_of_zero_le hoff
  have hmaxN : max (S : Int) ((o : Int) + (d.length : Int)) =
      ((max S (o + d.length) : Nat) : Int) := by omega
  rw [hmaxN] at hsize
  rw [← hsame] at hch1 hsize hcont
  have hread := fs_read_ok B N hB s1 fd2 d.length f2 bs1 h2s hch1
    (by rw [hsize]; simp only [INT_MAX] at hsz ⊢; omega)
    (by rw [hpos]; omega) (by rw [hpos, hsize]; omega) hn
    (by have : ((d.length : Nat) : Int) ≤ ((MAX_FILE_SIZE B : Nat) : Int) := by omega
        exact_mod_cast this)
  have hmin : min d.length (((max S (o + d.length) : Nat) : Int) - (o : Int)).toNat =
      d.length := by omega
  rw [hsize, hpos, hmin] at hread
  rw [hsize] at hcont
  simp only [Int.toNat_ofNat] at hread hcont
  rw [fileSlice_of_bytes B s1.disk bs1 o d.length (max S (o + d.length)) (by omega), hcont,
    slice_of_content _ d o (by unfold fileBytes; rw [fileSlice_length]; omega)] at hread
  exact ⟨s1, _, hw, hread⟩

/-- C11. Descriptor independence. For two distinct bound descriptors `fd1`
and `fd2`, whatever `fs_read`, `fs_write`, `fs_lseek` or `fs_close` does
through `fd1`, descriptor `fd2` is afterwards bound to the same entry at the
same offset. When both are bound to the same file, whose chain is consistent,
and stand at the same offset `o`, a write of the `n ≥ 1` bytes `d` through
`fd1` that fits capacity and free blocks returns `n`, and the following read of
`n` bytes through `fd2` returns `n` and exactly the bytes `d`. -/
theorem descriptor_independence (B N : Nat) (hB : 0 < B)
    (hM : (MAX_FILE_SIZE B : Int) ≤ INT_MAX) (st : State) (fd1 fd2 : Int) (f1 f2 : fd_t)
    (h1 : fd_lookup st fd1 = some f1) (h2 : fd_lookup st fd2 = some f2) (hne : fd1 ≠ fd2) :
    (∀ nbyte r out s, fs_read B N st fd1 nbyte = some (r, out, s) →
      fd_lookup s fd2 = some f2) ∧
    (∀ buf nbyte r s, fs_write B N st fd1 buf nbyte = some (r, s) →
      fd_lookup s fd2 = some f2) ∧
    (∀ offset, fd_lookup (fs_lseek st fd1 offset).2 fd2 = some f2) ∧
    fd_lookup (fs_close st fd1).2 fd2 = some f2 ∧
    (∀ (d : List Byte) (bs : List Nat),
      f2.dir_index = f1.dir_index → f2.offset = f1.offset →
      ChainOK B N st.my_fat (st.my_directory f1.dir_index) bs →
      0 ≤ f1.offset → f1.offset ≤ (st.my_directory f1.dir_index).file_size →
      0 < d.length → 0 ≤ st.total_data_storage →
      st.total_data_storage + (d.length : Int) ≤ (MAX_FILE_SIZE B : Int) →
      (st.my_directory f1.dir_index).file_size + (d.length : Int) ≤ INT_MAX →
      ceilDiv (f1.offset.toNat + d.length) B ≤ bs.length + freeCount N st.my_fat →
      ∃ s1 s2 : State,
        fs_write B N st fd1 (fun i => d.getD i 0) d.length = some ((d.length : Int), s1) ∧
        fs_read B N s1 fd2 d.length = some ((d.length : Int), d, s2)) := by
  obtain ⟨a1, _, _⟩ := fd_lookup_some st fd1 f1 h1
  refine ⟨?_, ?_, ?_, ?_, ?_⟩
  · intro nbyte r out s h
    exact fd_lookup_other st s fd1 fd2 f2 hne a1 h2
      (fs_read_frame fd1.toNat f1.dir_index B N st s fd1 nbyte r out rfl h).fds
  · intro buf nbyte r s h
    exact fd_lookup_other st s fd1 fd2 f2 hne a1 h2
      (fs_write_frame B N st s fd1 buf nbyte r f1 h1 h).fds
  · intro offset
    exact fd_lookup_other st _ fd1 fd2 f2 hne a1 h2
      (fs_lseek_frame fd1.toNat f1.dir_index st fd1 offset rfl).fds
  · exact fd_lookup_other st _ fd1 fd2 f2 hne a1 h2 (fun i hi => fs_close_fds st fd1 i hi)
  · intro d bs hsame hpos hch hoff hoff2 hn htot hcap hsz hfree
    exact write_then_read_other B N hB hM st fd1 fd2 f1 f2 d bs h1 h2 hne hsame hpos hch hoff
      hoff2 hn htot hcap hsz hfree

/-- C11 at a concrete input (`BLOCK_SIZE = 4`, `DISK_BLOCKS = 4104`): "a" is
open on descriptors 0 and 1, both at offset 0; 6 bytes written through
descriptor 0 are read back through descriptor 1, which a seek on descriptor 0
leaves where it is. -/
theorem descriptor_independence_witness :
    fd_lookup (fs_open opened "a").2 0 =
      some { file_name := "a", dir_index := 0, offset := 0 } ∧
    fd_lookup (fs_open opened "a").2 1 =
      some { file_name := "a", dir_index := 0, offset := 0 } ∧
    fd_lookup (fs_close (fs_open opened "a").2 0).2 1 =
      some { file_name := "a", dir_index := 0, offset := 0 } ∧
    ∃ s1 s2 : State,
      fs_write 4 4104 (fs_open opened "a").2 0 (fun i => [1, 2, 3, 4, 5, 6].getD i 0) 6 =
        some (6, s1) ∧
      fs_read 4 4104 s1 1 6 = some (6, [1, 2, 3, 4, 5, 6], s2) :=
  ⟨by decide, by decide,
   (descriptor_independence 4 4104 (by decide) (by decide) (fs_open opened "a").2 0 1
      { file_name := "a", dir_index := 0, offset := 0 }
      { file_name := "a", dir_index := 0, offset := 0 }
      (by decide) (by decide) (by decide)).2.2.2.1,
   (descriptor_independence 4 4104 (by decide) (by decide) (fs_open opened "a").2 0 1
      { file_name := "a", dir_index := 0, offset := 0 }
      { file_name := "a", dir_index := 0, offset := 0 }
      (by decide) (by decide) (by decide)).2.2.2.2 [1, 2, 3, 4, 5, 6] [] rfl rfl
      (by decide) (by decide) (by decide) (by decide) (by decide) (by decide) (by decide)
      (by decide)⟩

/-! ## The byte counter -/

theorem sum_range_congr (f g : Nat → Int) (n : Nat) (h : ∀ j, j < n → f j = g j) :
    ((List.range n).map f).sum = ((List.range n).map g).sum := by
  congr 1
  apply List.map_congr_left
  intro j hj
  exact h j (List.mem_range.1 hj)

theorem sum_range_point (f g : Nat → Int) (di : Nat) (h : ∀ j, j ≠ di → f j = g j) :
    ∀ n, di < n → ((List.range n).map f).sum = ((List.range n).map g).sum - g di + f di := by
  intro n
  induction n with
  | zero => intro h0; omega
  | succ n ih =>
    intro hlt
    rw [List.range_succ, List.map_append, List.map_append, List.sum_append, List.sum_append]
    simp only [List.map_cons, List.map_nil, List.sum_cons, List.sum_nil, add_zero]
    by_cases hd : di = n
    · subst hd
      rw [sum_range_congr f g di (fun j hj => h j (by omega))]
      omega
    · rw [ih (by omega), h n (fun e => hd e.symm)]
      omega

/-- The contribution of directory slot `j` to `sizeSum`. -/
theorem sizeSum_point (st s : State) (di : Nat) (hdi : di < MAX_NUM_FILES)
    (h : ∀ j, j ≠ di → s.my_directory j = st.my_directory j) :
    sizeSum s = sizeSum st
      - (if (st.my_directory di).busy then (st.my_directory di).file_size else 0)
      + (if (s.my_directory di).busy then (s.my_directory di).file_size else 0) := by
  unfold sizeSum
  exact sum_range_point _ _ di (fun j hj => by simp only [h j hj]) _ hdi

theorem sizeSum_same (st s : State)
    (h : ∀ j, j < MAX_NUM_FILES →
      (s.my_directory j).busy = (st.my_directory j).busy ∧
      (s.my_directory j).file_size = (st.my_directory j).file_size) :
    sizeSum s = sizeSum st := by
  unfold sizeSum
  apply sum_range_congr
  intro j hj
  simp only [(h j hj).1, (h j hj).2]

theorem bytes_frame (k di : Nat) (st s : State) (hf : Frame k di st s)
    (hdi : di < MAX_NUM_FILES) (hocc : (st.my_directory di).busy = true)
    (h : st.total_data_storage = sizeSum st) : s.total_data_storage = sizeSum s := by
  have e := sizeSum_point st s di hdi hf.dir
  have hb := hf.busy
  rw [hocc] at hb
  simp only [hocc, hb, if_true] at e
  have := hf.total
  omega

theorem frame_all (k : Nat) (st s : State) (h0 : Frame k 0 st s) (h1 : Frame k 1 st s) :
    s.my_directory = st.my_directory ∧ s.total_data_storage = st.total_data_storage := by
  have hd : s.my_directory = st.my_directory := by
    funext j
    by_cases hj : j = 0
    · subst hj
      exact h1.dir 0 (by decide)
    · exact h0.dir j hj
  refine ⟨hd, ?_⟩
  have := h0.total
  rw [hd] at this
  omega

theorem bytes_create (st : State) (name : String)
    (h : st.total_data_storage = sizeSum st) :
    (fs_create st name).2.total_data_storage = sizeSum (fs_create st name).2 := by
  by_cases hr : createRefused st name
  · rw [fs_create_refused st name hr]; exact h
  · obtain ⟨i, hi, hfree, _, he⟩ := fs_create_accepted st name hr
    rw [he]
    have e := sizeSum_point st
      { st with dir_size := st.dir_size + 1
                my_directory := upd st.my_directory i (newEntry name) } i hi
      (fun j hj => by simp [hj])
    simp only [upd_same, newEntry, hfree, if_true, Bool.false_eq_true, if_false] at e
    simp only [newEntry]
    rw [e]
    simp only [h]
    omega

theorem bytes_open (st : State) (name : String)
    (h : st.total_data_storage = sizeSum st) :
    (fs_open st name).2.total_data_storage = sizeSum (fs_open st name).2 := by
  have hs : sizeSum (fs_open st name).2 = sizeSum st ∧
      (fs_open st name).2.total_data_storage = st.total_data_storage := by
    unfold fs_open
    split
    · exact ⟨rfl, rfl⟩
    · split
      · refine ⟨sizeSum_same _ _ ?_, rfl⟩
        intro j _
        simp only [upd_apply]
        split
        · rename_i hj; subst hj; exact ⟨rfl, rfl⟩
        · exact ⟨rfl, rfl⟩
      · exact ⟨rfl, rfl⟩
  rw [hs.1, hs.2]; exact h

theorem bytes_close (st : State) (fildes : Int)
    (h : st.total_data_storage = sizeSum st) :
    (fs_close st fildes).2.total_data_storage = sizeSum (fs_close st fildes).2 := by
  have hs : sizeSum (fs_close st fildes).2 = sizeSum st ∧
      (fs_close st fildes).2.total_data_storage = st.total_data_storage := by
    unfold fs_close
    split
    · exact ⟨rfl, rfl⟩
    · refine ⟨sizeSum_same _ _ ?_, rfl⟩
      intro j _
      simp only [upd_apply]
      split
      · rename_i hj; subst hj; exact ⟨rfl, rfl⟩
      · exact ⟨rfl, rfl⟩
  rw [hs.1, hs.2]; exact h

theorem bytes_delete (N : Nat) (st s : State) (name : String) (r : Int)
    (hd : fs_delete N st name = some (r, s))
    (h : st.total_data_storage = sizeSum st) : s.total_data_storage = sizeSum s := by
  unfold fs_delete at hd
  cases hidx : get_dir_index st name with
  | none =>
    rw [hidx] at hd
    rw [← (Prod.mk.inj (Option.some.inj hd)).2]; exact h
  | some di =>
    rw [hidx] at hd
    simp only at hd
    obtain ⟨hdi, hocc, _⟩ := (get_dir_index_eq_some st name di).1 hidx
    split at hd
    · rw [← (Prod.mk.inj (Option.some.inj hd)).2]; exact h
    · cases hch : delete_chain N (N + 1) st (st.my_directory di).first_block_num with
      | none => rw [hch] at hd; cases hd
      | some st1 =>
        rw [hch] at hd
        obtain ⟨_, e2, e3, _, _, _⟩ := delete_chain_frame N _ st st1 _ hch
        rw [← (Prod.mk.inj (Option.some.inj hd)).2]
        have e := sizeSum_point st
          { st1 with
              total_data_storage := st1.total_data_storage - (st.my_directory di).file_size
              dir_size := st1.dir_size - 1
              my_directory := upd st1.my_directory di
                { st1.my_directory di with busy := false } } di hdi
          (fun j hj => by simp [hj, e2])
        simp only [upd_same, hocc, if_true, Bool.false_eq_true, if_false] at e
        rw [e]
        simp only [e3, h]
        omega

theorem bytes_of_frames (st s : State) (fildes : Int)
    (hf : ∀ fd, fd_lookup st fildes = some fd → Frame fildes.toNat fd.dir_index st s)
    (hn : fd_lookup st fildes = none → s = st)
    (hok : DescriptorsOK st) (h : st.total_data_storage = sizeSum st) :
    s.total_data_storage = sizeSum s := by
  cases hfd : fd_lookup st fildes with
  | none => rw [hn hfd]; exact h
  | some fd =>
    obtain ⟨_, a, b⟩ := fd_lookup_some st fildes fd hfd
    obtain ⟨c, d⟩ := hok fildes.toNat (by simp only [MAX_NUM_FD]; omega) fd
      (by rw [b]; exact rfl)
    exact bytes_frame _ _ st s (hf fd hfd) c d h

theorem fs_write_unbound (B N : Nat) (st s : State) (fildes : Int) (buf : Nat → Byte)
    (nbyte : Nat) (r : Int) (hfd : fd_lookup st fildes = none)
    (h : fs_write B N st fildes buf nbyte = some (r, s)) : s = st := by
  unfold fs_write at h
  rw [hfd] at h
  split at h <;> exact ((Prod.mk.inj (Option.some.inj h)).2).symm

theorem fs_truncate_unbound (B N : Nat) (st s : State) (fildes : Int) (length : Int) (r : Int)
    (hfd : fd_lookup st fildes = none)
    (h : fs_truncate B N st fildes length = some (r, s)) : s = st := by
  unfold fs_truncate at h
  rw [hfd] at h
  exact ((Prod.mk.inj (Option.some.inj h)).2).symm

/-- Every state reached from a mount whose occupied entries count no open
descriptor has its descriptors bound to occupied slots. -/
theorem descriptorsOK_reachable (B N : Nat) (st0 st : State) (hm : Mounted N st0)
    (h0 : NoOpenCount st0) (hr : Reachable B N st0 st) : DescriptorsOK st := by
  intro i hi fd hfd
  exact (inv_reachable B N st0 st hm h0 hr).1 i fd hi hfd

theorem bytes_step (B N : Nat) (st st1 : State) (c : Call)
    (hok : DescriptorsOK st) (hsum : st.total_data_storage = sizeSum st)
    (hstep : step B N st c = some st1) : st1.total_data_storage = sizeSum st1 := by
  cases c with
  | create name =>
    rw [← Option.some.inj hstep]; exact bytes_create st name hsum
  | delete name =>
    simp only [step] at hstep
    cases hd : fs_delete N st name with
    | none => rw [hd] at hstep; cases hstep
    | some p =>
      rw [hd] at hstep
      rw [← Option.some.inj hstep]
      exact bytes_delete N st p.2 name p.1 hd hsum
  | opn name =>
    rw [← Option.some.inj hstep]; exact bytes_open st name hsum
  | close fildes =>
    rw [← Option.some.inj hstep]; exact bytes_close st fildes hsum
  | read fildes nbyte =>
    simp only [step] at hstep
    cases hd : fs_read B N st fildes nbyte with
    | none => rw [hd] at hstep; cases hstep
    | some p =>
      rw [hd] at hstep
      rw [← Option.some.inj hstep]
      obtain ⟨e1, e2⟩ := frame_all fildes.toNat st p.2.2
        (fs_read_frame _ 0 B N st p.2.2 fildes nbyte p.1 p.2.1 rfl hd)
        (fs_read_frame _ 1 B N st p.2.2 fildes nbyte p.1 p.2.1 rfl hd)
      simp only [Option.map_some', e2, hsum]
      exact (sizeSum_same st p.2.2 (fun j _ => by rw [e1]; exact ⟨rfl, rfl⟩)).symm
  | write fildes buf nbyte =>
    simp only [step] at hstep
    cases hd : fs_write B N st fildes buf nbyte with
    | none => rw [hd] at hstep; cases hstep
    | some p =>
      rw [hd] at hstep
      rw [← Option.some.inj hstep]
      exact bytes_of_frames st p.2 fildes
        (fun fd hfd => fs_write_frame B N st p.2 fildes buf nbyte p.1 fd hfd hd)
        (fun hfd => fs_write_unbound B N st p.2 fildes buf nbyte p.1 hfd hd) hok hsum
  | seek fildes offset =>
    rw [← Option.some.inj hstep]
    obtain ⟨e1, e2⟩ := frame_all fildes.toNat st (fs_lseek st fildes offset).2
      (fs_lseek_frame _ 0 st fildes offset rfl) (fs_lseek_frame _ 1 st fildes offset rfl)
    rw [e2, hsum]
    exact (sizeSum_same st _ (fun j _ => by rw [e1]; exact ⟨rfl, rfl⟩)).symm
  | truncate fildes length =>
    simp only [step] at hstep
    cases hd : fs_truncate B N st fildes length with
    | none => rw [hd] at hstep; cases hstep
    | some p =>
      rw [hd] at hstep
      rw [← Option.some.inj hstep]
      exact bytes_of_frames st p.2 fildes
        (fun fd hfd => fs_truncate_frame B N st p.2 fildes length p.1 fd hfd hd)
        (fun hfd => fs_truncate_unbound B N st p.2 fildes length p.1 hfd hd) hok hsum

/-- From a mount whose occupied entries count no open descriptor and whose
byte counter is the sum of the sizes, the counter is the sum of the sizes in
every state reached. -/
theorem bytes_reachable (B N : Nat) (st0 st : State) (hm : Mounted N st0)
    (h0 : NoOpenCount st0) (hs : st0.total_data_storage = sizeSum st0)
    (hr : Reachable B N st0 st) : st.total_data_storage = sizeSum st := by
  induction hr with
  | start => exact hs
  | call s s1 c hprev hstep ih =>
    exact bytes_step B N s s1 c (descriptorsOK_reachable B N st0 s hm h0 hprev) ih hstep

theorem twoBlocks_reachable : Reachable 4096 8192 fresh twoBlocks :=
  Reachable.call _ _ (Call.write 0 (fun _ => 88) 4097) opened_reachable rfl

theorem cutToOne_reachable : Reachable 4096 8192 fresh cutToOne :=
  Reachable.call _ _ (Call.truncate 0 1) twoBlocks_reachable rfl

theorem secondFile_reachable : Reachable 4096 8192 fresh secondFile :=
  Reachable.call _ _ (Call.write 1 (fun _ => 89) 1)
    (Reachable.call _ _ (Call.opn "b")
      (Reachable.call _ _ (Call.create "b") cutToOne_reachable rfl) rfl) rfl

/-- C16 (the code at the failing input). From the formatted store: create and
open "a", write 4097 bytes (chain 4096 → 4097), `fs_truncate(0, 1)`. The call
frees block 4097 but leaves `next` of block 4096 pointing to it, so the chain
of "a" still runs through 4097, a block that is not marked busy. Then create
and open "b" and write one byte: `get_free_block` hands out 4097 as the head
of "b", and block 4097 lies on the chains of both occupied entries. -/
theorem truncate_leaves_shared_block :
    Reachable 4096 8192 fresh cutToOne ∧
    (cutToOne.my_directory 0).busy = true ∧
    IsChain 8192 cutToOne.my_fat (cutToOne.my_directory 0).first_block_num [4096, 4097] ∧
    (cutToOne.my_fat 4097).busy = false ∧
    Reachable 4096 8192 fresh secondFile ∧
    (secondFile.my_directory 0).busy = true ∧
    (secondFile.my_directory 1).busy = true ∧
    IsChain 8192 secondFile.my_fat (secondFile.my_directory 0).first_block_num [4096, 4097] ∧
    IsChain 8192 secondFile.my_fat (secondFile.my_directory 1).first_block_num [4097] :=
  ⟨cutToOne_reachable, by decide, by decide, by decide, secondFile_reachable, by decide,
    by decide, by decide, by decide⟩

/-- C17 (the code at the failing input). After `fs_truncate(0, 1)` on the
two-block file of `twoBlocks` (size 4097, chain 4096 → 4097, consistent), the
call returns 0 and the size is 1; block 4097, the one after the cut, is free
with `next = -1`, but the new tail 4096 still has `next = 4097`: the chain
from `first_block_num` has two blocks where `ceil(1 / 4096)` is one. -/
theorem fs_truncate_keeps_tail_link :
    ChainOK 4096 8192 twoBlocks.my_fat (twoBlocks.my_directory 0) [4096, 4097] ∧
    (twoBlocks.my_directory 0).file_size = 4097 ∧
    (fs_truncate 4096 8192 twoBlocks 0 1).map
        (fun r => (r.1, (r.2.my_directory 0).file_size, (r.2.my_directory 0).first_block_num,
          r.2.my_fat 4096, r.2.my_fat 4097)) =
      some (0, 1, 4096, { busy := true, next := 4097 }, { busy := false, next := -1 }) ∧
    IsChain 8192 cutToOne.my_fat (cutToOne.my_directory 0).first_block_num [4096, 4097] ∧
    ceilDiv 1 4096 = 1 := by
  decide

/-! ## The free-block counter -/

theorem freeCount_all_free (N : Nat) (fat : Nat → fat_t)
    (h : ∀ i, 4096 ≤ i → i < N → (fat i).busy = false) : freeCount N fat = N - 4096 := by
  unfold freeCount
  have : (List.range' 4096 (N - 4096)).countP (fun i => !(fat i).busy) =
      (List.range' 4096 (N - 4096)).length := by
    rw [List.countP_eq_length]
    intro a ha
    rw [List.mem_range'_1] at ha
    simp [h a ha.1 (by omega)]
  rw [this, List.length_range']

theorem freeCount_opened : freeCount 8192 opened.my_fat = 4096 := by
  have e : opened.my_fat = fresh.my_fat := rfl
  rw [e, freeCount_all_free 8192 fresh.my_fat]
  intro i h1 _
  simp only [fresh, decide_eq_false_iff_not]
  omega

theorem freeCount_wrote5 : freeCount 8192 wrote5.my_fat = 4095 := by
  have h := freeCount_mark 8192 opened.my_fat wrote5.my_fat 4096 (by decide) (by decide)
    (by decide) (by decide)
    (fun i hi => by
      show (upd fresh.my_fat 4096 { busy := true, next := -1 } i).busy = (fresh.my_fat i).busy
      rw [upd_other _ _ _ _ hi])
  rw [freeCount_opened] at h
  omega

theorem freeCount_fullBlock : freeCount 8192 fullBlock.my_fat = 4095 := by
  have h := freeCount_mark 8192 opened.my_fat fullBlock.my_fat 4096 (by decide) (by decide)
    (by decide) (by decide)
    (fun i hi => by
      show (upd fresh.my_fat 4096 { busy := true, next := -1 } i).busy = (fresh.my_fat i).busy
      rw [upd_other _ _ _ _ hi])
  rw [freeCount_opened] at h
  omega

theorem freeCount_skipGrown : freeCount 8192 skipGrown.my_fat = 4094 := by
  have h := freeCount_mark 8192 fullBlock.my_fat skipGrown.my_fat 4097 (by decide) (by decide)
    (by decide) (by decide)
    (fun i hi => by
      show (linked fullBlock.my_fat 4096 4097 i).busy = (fullBlock.my_fat i).busy
      rw [linked_busy, if_neg hi])
  rw [freeCount_fullBlock] at h
  omega

theorem freeCount_twoBlocks : freeCount 8192 twoBlocks.my_fat = 4094 := by
  have h := freeCount_mark 8192 fullBlock.my_fat twoBlocks.my_fat 4097 (by decide) (by decide)
    (by decide) (by decide)
    (fun i hi => by
      show (linked fullBlock.my_fat 4096 4097 i).busy = (fullBlock.my_fat i).busy
      rw [linked_busy, if_neg hi])
  rw [freeCount_fullBlock] at h
  omega

theorem wrote5_reachable : Reachable 4096 8192 fresh wrote5 :=
  Reachable.call _ _ (Call.write 0 (fun _ => 88) 5) opened_reachable rfl

theorem skipGrown_reachable : Reachable 4096 8192 fresh skipGrown :=
  Reachable.call _ _ (Call.write 0 (fun _ => 88) 1)
    (Reachable.call _ _ (Call.write 0 (fun _ => 88) 4096) opened_reachable rfl) rfl

/-- C18 (the code at the failing inputs). On the formatted store with "a"
open, `avail_data_blocks` is 4096 and 4096 blocks of the range that
`get_free_block` scans are free. (1) `fs_write(0, buf, 5)` allocates block
4096 as the head of the empty file: 4095 blocks are free, the counter is
still 4096. (2) After a write of 4096 bytes, `fs_write(0, buf, 1)` appends
block 4097 in its skip loop: 4094 blocks are free, the counter is still 4096.
(3) `fs_write(0, buf, 4097)` allocates the head and, in its copy loop, block
4097: 4094 blocks are free and the counter is 4095, one decrement (line 496)
for two blocks. -/
theorem fs_write_allocates_uncounted :
    opened.avail_data_blocks = 4096 ∧ freeCount 8192 opened.my_fat = 4096 ∧
    Reachable 4096 8192 fresh wrote5 ∧
    (fs_write 4096 8192 opened 0 (fun _ => 88) 5).map (fun r => r.1) = some 5 ∧
    (wrote5.my_fat 4096).busy = true ∧
    wrote5.avail_data_blocks = 4096 ∧ freeCount 8192 wrote5.my_fat = 4095 ∧
    Reachable 4096 8192 fresh skipGrown ∧
    (fs_write 4096 8192 fullBlock 0 (fun _ => 88) 1).map (fun r => r.1) = some 1 ∧
    (skipGrown.my_fat 4097).busy = true ∧
    skipGrown.avail_data_blocks = 4096 ∧ freeCount 8192 skipGrown.my_fat = 4094 ∧
    Reachable 4096 8192 fresh twoBlocks ∧
    (fs_write 4096 8192 opened 0 (fun _ => 88) 4097).map (fun r => r.1) = some 4097 ∧
    twoBlocks.avail_data_blocks = 4095 ∧ freeCount 8192 twoBlocks.my_fat = 4094 :=
  ⟨by decide, freeCount_opened, wrote5_reachable, by decide, by decide, by decide,
    freeCount_wrote5, skipGrown_reachable, by decide, by decide, by decide,
    freeCount_skipGrown, twoBlocks_reachable, by decide, by decide, freeCount_twoBlocks⟩

/-! ## make_fs -/

theorem upd_next_busy (fat : Nat → fat_t) (t : Nat) (v : Int) (b : Nat) :
    (upd fat t { fat t with next := v } b).busy = (fat b).busy := by
  simp only [upd_apply]
  split
  · rename_i h; rw [h]
  · rfl

theorem upd_busy_busy (fat : Nat → fat_t) (t b : Nat) :
    (upd fat t { fat t with busy := true } b).busy = ((fat b).busy || decide (b = t)) := by
  simp only [upd_apply]
  split
  · rename_i h; simp [h]
  · rename_i h; simp [h]

theorem mark_table_spec (N : Nat) (lhsFirst : Bool) (num_full rem : Nat) :
    ∀ (fuel i : Nat) (fat : Nat → fat_t) (wb : Nat), i + fuel = num_full →
      wb + fuel + (if rem = 0 then 0 else 1) ≤ N →
      ∃ fat1 wb1, mark_table N lhsFirst num_full rem fuel i fat wb = some (fat1, wb1) ∧
        wb1 = (if rem = 0 ∧ 0 < fuel then wb + fuel - 1 else wb + fuel) ∧
        ∀ b, (fat1 b).busy = ((fat b).busy || decide (wb ≤ b ∧ b < wb + fuel)) := by
  intro fuel
  induction fuel with
  | zero =>
    intro i fat wb _ _
    refine ⟨fat, wb, rfl, by simp, ?_⟩
    intro b
    have : ¬ (wb ≤ b ∧ b < wb + 0) := by omega
    simp [this]
  | succ fuel ih =>
    intro i fat wb hi hN
    have hwb : wb < N := by omega
    simp only [mark_table, if_pos hwb]
    by_cases hbr : i = num_full - 1 ∧ rem = 0
    · rw [if_pos hbr]
      have hf : fuel = 0 := by omega
      subst hf
      refine ⟨_, wb, rfl, ?_, ?_⟩
      · simp [hbr.2]
      · intro b
        by_cases hb : b = wb
        · subst hb; simp
        · have : ¬ (wb ≤ b ∧ b < wb + (0 + 1)) := by omega
          simp [hb, this]
    · rw [if_neg hbr]
      have htgt : (if lhsFirst = true then wb else wb + 1) < N := by
        split
        · exact hwb
        · by_cases hr : rem = 0
          · have : i ≠ num_full - 1 := fun e => hbr ⟨e, hr⟩
            simp only [hr, if_true] at hN
            omega
          · simp only [hr, if_false] at hN
            omega
      rw [if_pos htgt]
      obtain ⟨fat1, wb1, h1, h2, h3⟩ := ih (i + 1)
        (upd (upd fat wb { fat wb with busy := true })
          (if lhsFirst = true then wb else wb + 1)
          { upd fat wb { fat wb with busy := true } (if lhsFirst = true then wb else wb + 1) with
              next := ((wb + 1 : Nat) : Int) })
        (wb + 1) (by omega) (by omega)
      refine ⟨fat1, wb1, h1, ?_, ?_⟩
      · rw [h2]
        by_cases hr : rem = 0
        · have : i ≠ num_full - 1 := fun e => hbr ⟨e, hr⟩
          have hf : 0 < fuel := by omega
          simp only [hr, hf, true_and, if_true, Nat.succ_pos]
          omega
        · simp only [hr, false_and, if_false]
          omega
      · intro b
        rw [h3 b, upd_next_busy, upd_busy_busy]
        by_cases hb : b = wb
        · subst hb
          have e2 : b ≤ b ∧ b < b + (fuel + 1) := by omega
          simp [e2]
        · have e3 : (wb + 1 ≤ b ∧ b < wb + 1 + fuel) ↔ (wb ≤ b ∧ b < wb + (fuel + 1)) := by
            omega
          simp only [hb, decide_False, Bool.or_false, e3]

theorem mark_table_above (N : Nat) (lhsFirst : Bool) (num_full rem : Nat) :
    ∀ (fuel i : Nat) (fat fat1 : Nat → fat_t) (wb wb1 : Nat), i + fuel = num_full →
      mark_table N lhsFirst num_full rem fuel i fat wb = some (fat1, wb1) →
      ∀ b, wb + fuel + (if rem = 0 then 0 else 1) ≤ b → fat1 b = fat b := by
  intro fuel
  induction fuel with
  | zero =>
    intro i fat fat1 wb wb1 _ h b _
    simp only [mark_table, Option.some.injEq, Prod.mk.injEq] at h
    rw [← h.1]
  | succ fuel ih =>
    intro i fat fat1 wb wb1 hi h b hb
    simp only [mark_table] at h
    have hb1 : b ≠ wb := by omega
    by_cases hwb : wb < N
    · rw [if_pos hwb] at h
      by_cases hbr : i = num_full - 1 ∧ rem = 0
      · rw [if_pos hbr] at h
        simp only [Option.some.injEq, Prod.mk.injEq] at h
        rw [← h.1, upd_other _ _ _ _ hb1]
      · rw [if_neg hbr] at h
        have hb2 : b ≠ (if lhsFirst = true then wb else wb + 1) := by
          split
          · exact hb1
          · by_cases hr : rem = 0
            · have : i ≠ num_full - 1 := fun e => hbr ⟨e, hr⟩
              simp only [hr, if_true] at hb
              omega
            · simp only [hr, if_false] at hb
              omega
        generalize (if lhsFirst = true then wb else wb + 1) = tgt at h hb2
        by_cases ht : tgt < N
        · rw [if_pos ht] at h
          have hrec := ih (i + 1) _ fat1 (wb + 1) wb1 (by omega) h b (by omega)
          rw [hrec, upd_other _ _ _ _ hb2, upd_other _ _ _ _ hb1]
        · rw [if_neg ht] at h; cases h
    · rw [if_neg hwb] at h; cases h

/-- What `make_fs` builds when the super block and the image of the table fit
the device. -/
theorem make_fs_built (L : Layout) (B N : Nat) (lhsFirst : Bool) (fat0 : Nat → fat_t)
    (dir0 : Nat → directory_t) (fds : Nat → Option fd_t) (disk0 : Nat → Nat → Byte)
    (hB : 0 < B) (hfit : 1 + fat_blocks L B N ≤ N) :
    ∃ st, make_fs L B N lhsFirst fat0 dir0 fds disk0 = some st ∧
      st.dir_size = 0 ∧
      (st.my_directory =
        fun i => if i < MAX_NUM_FILES then { dir0 i with busy := false } else dir0 i) ∧
      st.total_data_storage = 0 ∧
      st.fat_start_block = 1 ∧ st.fat_total_blocks = (fat_blocks L B N : Int) ∧
      st.dir_start_block = ((1 + fat_blocks L B N : Nat) : Int) ∧
      (∀ b, b ≤ fat_blocks L B N → (st.my_fat b).busy = true) ∧
      (∀ b, fat_blocks L B N < b → st.my_fat b = fat0 b) ∧
      st.avail_data_blocks = (NUM_BLOCKS : Int) ∧
      st.my_fds = fds := by
  unfold fat_blocks at hfit ⊢
  have hN : 0 < N ∧ 0 < B := ⟨Nat.lt_of_lt_of_le (Nat.lt_add_right _ Nat.one_pos) hfit, hB⟩
  unfold make_fs
  rw [if_pos hN]
  simp only
  generalize hnf : (N * L.sizeof_fat_t) / B = nf at hfit ⊢
  generalize hrm : (N * L.sizeof_fat_t) % B = rem at hfit ⊢
  obtain ⟨fat2, wb, h1, h2, h3⟩ := mark_table_spec N lhsFirst nf rem nf 0
    (upd fat0 0 { fat0 0 with busy := true }) 1 (by omega)
    (by
      by_cases hr : rem = 0
      · simp only [hr, ne_eq, not_true_eq_false, if_false, if_true] at hfit ⊢; omega
      · simp only [hr, ne_eq, not_false_eq_true, if_true, if_false] at hfit ⊢; omega)
  have h4 := mark_table_above N lhsFirst nf rem nf 0
    (upd fat0 0 { fat0 0 with busy := true }) fat2 1 wb (by omega) h1
  rw [h1]
  simp only
  have hb2 : ∀ b, (fat2 b).busy = ((fat0 b).busy || decide (b = 0) || decide (1 ≤ b ∧ b < 1 + nf)) := by
    intro b
    rw [h3 b, upd_busy_busy]
  by_cases hr : rem = 0
  · have hr2 : ¬ (rem ≠ 0) := by simpa using hr
    simp only [hr2, if_false, Nat.add_zero]
    refine ⟨_, rfl, rfl, rfl, rfl, rfl, rfl, rfl, ?_, ?_, rfl, rfl⟩
    · intro b hb
      simp only
      rw [hb2 b]
      by_cases h0 : b = 0
      · simp [h0]
      · have : 1 ≤ b ∧ b < 1 + nf := by omega
        simp [this]
    · intro b hb
      simp only
      rw [h4 b (by simp only [hr, if_true]; omega), upd_other _ _ _ _ (by omega)]
  · have hr2 : rem ≠ 0 := hr
    have hwb : wb = 1 + nf := by
      rw [h2]; simp [hr]
    have hlt : wb < N := by
      simp only [hr2, ne_eq, not_false_eq_true, if_true] at hfit
      omega
    simp only [hr2, ne_eq, not_false_eq_true, if_true, if_pos hlt]
    refine ⟨_, rfl, rfl, rfl, rfl, rfl, rfl, rfl, ?_, ?_, rfl, rfl⟩
    · intro b hb
      simp only
      rw [upd_busy_busy, hb2 b, hwb]
      by_cases h0 : b = 0
      · simp [h0]
      · by_cases h1 : b = 1 + nf
        · simp [h1]
        · have : 1 ≤ b ∧ b < 1 + nf := by omega
          simp [this]
    · intro b hb
      simp only
      rw [upd_other _ _ _ _ (by omega),
        h4 b (by simp only [hr, if_false]; omega), upd_other _ _ _ _ (by omega)]

/-- The sample state `fresh` is what `make_fs` builds on a device of 8192
blocks of 4096 bytes with `sizeof(fat_t) = 8`, from allocated memory that holds
free entries with `next = -1` and the empty directory: counters, directory,
descriptors and the marks of all blocks agree, and so do the entries of the
table from block 17 on. -/
theorem make_fs_fresh (lhsFirst : Bool) :
    ∃ st, make_fs lp64 4096 8192 lhsFirst (fun _ => { busy := false, next := UNASSIGNED })
        fresh.my_directory fresh.my_fds fresh.disk = some st ∧
      st.dir_start_block = fresh.dir_start_block ∧ st.dir_size = fresh.dir_size ∧
      st.fat_start_block = fresh.fat_start_block ∧
      st.fat_total_blocks = fresh.fat_total_blocks ∧
      st.total_data_storage = fresh.total_data_storage ∧
      st.avail_data_blocks = fresh.avail_data_blocks ∧
      st.my_directory = fresh.my_directory ∧ st.my_fds = fresh.my_fds ∧
      (∀ b, (st.my_fat b).busy = (fresh.my_fat b).busy) ∧
      (∀ b, 17 ≤ b → st.my_fat b = fresh.my_fat b) := by
  obtain ⟨st, h1, h2, h3, h4, h5, h6, h7, h8, h9, h10, h11⟩ :=
    make_fs_built lp64 4096 8192 lhsFirst (fun _ => { busy := false, next := UNASSIGNED })
      fresh.my_directory fresh.my_fds fresh.disk (by decide) (by decide)
  have hfb : fat_blocks lp64 4096 8192 = 16 := by decide
  rw [hfb] at h6 h7 h8 h9
  have hhigh : ∀ b, 17 ≤ b → st.my_fat b = fresh.my_fat b := by
    intro b hb
    rw [h9 b (by omega)]
    have : ¬ (b ≤ 16) := by omega
    simp [fresh, this]
  refine ⟨st, h1, h7, h2, h5, h6, h4, h10, ?_, h11, ?_, hhigh⟩
  · rw [h3]
    funext i
    simp [fresh]
  · intro b
    by_cases hb : b ≤ 16
    · rw [h8 b hb]
      simp [fresh, hb]
    · rw [hhigh b (by omega)]

theorem dev_write_apply (N : Nat) (disk : Nat → Nat → Byte) (b : Nat) (hb : b < N)
    (blk : Nat → Byte) (c : Nat) :
    dev_write N disk (b : Int) blk c = if c = b then blk else disk c := by
  unfold dev_write
  rw [if_pos ((inTable_nat N b).2 hb), Int.toNat_ofNat]
  rfl

theorem write_image_spec (N stride : Nat) (img : Nat → Byte) :
    ∀ (count b off : Nat) (disk : Nat → Nat → Byte), b + count ≤ N → ∀ c,
      write_image N stride img count (b : Int) off disk c =
        if b ≤ c ∧ c < b + count then (fun j => img (off + (c - b) * stride + j))
        else disk c := by
  intro count
  induction count with
  | zero =>
    intro b off disk _ c
    have : ¬ (b ≤ c ∧ c < b + 0) := by omega
    simp only [write_image, if_neg this]
  | succ count ih =>
    intro b off disk hN c
    simp only [write_image]
    have e : ((b : Int) + 1) = ((b + 1 : Nat) : Int) := by push_cast; rfl
    rw [e, ih (b + 1) (off + stride) _ (by omega) c, dev_write_apply N disk b (by omega)]
    by_cases hc : c = b
    · subst hc
      have h1 : ¬ (c + 1 ≤ c ∧ c < c + 1 + count) := by omega
      have h2 : c ≤ c ∧ c < c + (count + 1) := by omega
      simp only [if_neg h1, if_pos h2, if_true, Nat.sub_self, Nat.zero_mul, Nat.add_zero]
    · by_cases hin : b + 1 ≤ c ∧ c < b + 1 + count
      · have h2 : b ≤ c ∧ c < b + (count + 1) := by omega
        rw [if_pos hin, if_pos h2]
        funext j
        have e2 : c - b = (c - (b + 1)) + 1 := by omega
        rw [e2, Nat.add_mul, Nat.one_mul]
        congr 1
        omega
      · have h2 : ¬ (b ≤ c ∧ c < b + (count + 1)) := by omega
        rw [if_neg hin, if_neg h2, if_neg hc]

/-- What `make_fs` leaves on the device: block 0 holds the super block it has
built, the blocks `1 .. fat_blocks` hold the image of the table it has built,
cut into blocks and padded with zeros, and no other block is written. -/
theorem make_fs_stored (L : Layout) (B N : Nat) (lhsFirst : Bool) (fat0 : Nat → fat_t)
    (dir0 : Nat → directory_t) (fds : Nat → Option fd_t) (disk0 : Nat → Nat → Byte)
    (st : State) (hB : 0 < B) (hfit : 1 + fat_blocks L B N ≤ N)
    (h : make_fs L B N lhsFirst fat0 dir0 fds disk0 = some st) :
    (∀ j, st.disk 0 j =
      if j < L.sizeof_super_block_t
      then sb_bytes L [st.dir_start_block, st.dir_size, st.fat_start_block,
        st.fat_total_blocks, st.total_data_storage, st.avail_data_blocks] j
      else 0) ∧
    (∀ b j, 1 ≤ b → b ≤ fat_blocks L B N → j < B →
      st.disk b j =
        if (b - 1) * B + j < N * L.sizeof_fat_t then L.fat_bytes st.my_fat ((b - 1) * B + j)
        else 0) ∧
    (∀ b, fat_blocks L B N < b → st.disk b = disk0 b) := by
  unfold fat_blocks at hfit ⊢
  have hN : 0 < N ∧ 0 < B := ⟨Nat.lt_of_lt_of_le (Nat.lt_add_right _ Nat.one_pos) hfit, hB⟩
  unfold make_fs at h
  rw [if_pos hN] at h
  simp only at h
  have hdiv : N * L.sizeof_fat_t = B * ((N * L.sizeof_fat_t) / B) + (N * L.sizeof_fat_t) % B :=
    (Nat.div_add_mod _ _).symm
  have hmod : (N * L.sizeof_fat_t) % B < B := Nat.mod_lt _ hB
  generalize (N * L.sizeof_fat_t) / B = nf at hfit h hdiv ⊢
  generalize (N * L.sizeof_fat_t) % B = rem at hfit h hdiv hmod ⊢
  generalize N * L.sizeof_fat_t = total at hdiv ⊢
  cases hmt : mark_table N lhsFirst nf rem nf 0 (upd fat0 0 { fat0 0 with busy := true }) 1 with
  | none => rw [hmt] at h; cases h
  | some p =>
    obtain ⟨fat2, wb⟩ := p
    rw [hmt] at h
    simp only at h
    cases hfin : (if rem ≠ 0 then
               (if wb < N then some (upd fat2 wb { fat2 wb with busy := true }) else none)
             else some fat2) with
    | none => rw [hfin] at h; cases h
    | some my_fat =>
      rw [hfin] at h
      simp only at h
      have hst := Option.some.inj h
      subst hst
      have hd0 : ∀ (disk : Nat → Nat → Byte) (blk : Nat → Byte) (c : Nat),
          dev_write N disk 0 blk c = if c = 0 then blk else disk c :=
        fun disk blk c => dev_write_apply N disk 0 hN.1 blk c
      have himg : ∀ c, write_image N B (L.fat_bytes my_fat) nf 1 0 disk0 c =
          if 1 ≤ c ∧ c < 1 + nf then (fun j => L.fat_bytes my_fat (0 + (c - 1) * B + j))
          else disk0 c := by
        intro c
        have := write_image_spec N B (L.fat_bytes my_fat) nf 1 0 disk0
          (by by_cases hr : rem = 0 <;> simp only [hr, ne_eq, not_true_eq_false,
                not_false_eq_true, if_true, if_false] at hfit <;> omega) c
        simpa using this
      refine ⟨?_, ?_, ?_⟩
      · intro j
        simp only [hd0, if_true]
      · intro b j hb1 hb2 hj
        simp only [hd0]
        rw [if_neg (by omega)]
        by_cases hr : rem = 0
        · have hr2 : ¬ (rem ≠ 0) := by simpa using hr
          simp only [hr2, if_false, Nat.add_zero] at hb2 ⊢
          rw [himg b, if_pos ⟨hb1, by omega⟩]
          simp only [Nat.zero_add]
          have : (b - 1) * B + j < total := by
            have : (b - 1) * B + B ≤ nf * B := by
              rw [← Nat.succ_mul]
              exact Nat.mul_le_mul_right B (by omega)
            rw [hdiv, Nat.mul_comm B nf]
            omega
          rw [if_pos this]
        · have hr2 : rem ≠ 0 := hr
          simp only [hr2, ne_eq, not_false_eq_true, if_true] at hb2 hfit ⊢
          rw [dev_write_apply N _ (1 + nf) (by omega)]
          by_cases hlast : b = 1 + nf
          · rw [if_pos hlast]
            have e1 : b - 1 = nf := by omega
            rw [e1]
            by_cases hjr : j < rem
            · have : nf * B + j < total := by rw [hdiv, Nat.mul_comm B nf]; omega
              simp only [hjr, if_true, this]
            · have : ¬ (nf * B + j < total) := by rw [hdiv, Nat.mul_comm B nf]; omega
              simp only [hjr, if_false, this]
          · rw [if_neg hlast, himg b, if_pos ⟨hb1, by omega⟩]
            simp only [Nat.zero_add]
            have : (b - 1) * B + j < total := by
              have : (b - 1) * B + B ≤ nf * B := by
                rw [← Nat.succ_mul]
                exact Nat.mul_le_mul_right B (by omega)
              rw [hdiv, Nat.mul_comm B nf]
              omega
            rw [if_pos this]
      · intro b hb
        funext j
        simp only [hd0]
        rw [if_neg (by omega)]
        by_cases hr : rem = 0
        · have hr2 : ¬ (rem ≠ 0) := by simpa using hr
          simp only [hr2, if_false, Nat.add_zero] at hb ⊢
          rw [himg b, if_neg (by omega)]
        · have hr2 : rem ≠ 0 := hr
          simp only [hr2, ne_eq, not_false_eq_true, if_true] at hb hfit ⊢
          rw [dev_write_apply N _ (1 + nf) (by omega), if_neg (by omega), himg b,
            if_neg (by omega)]

/-- C14 (as amended). Format result. When the super block and the table's
image fit the device, `make_fs` builds a super block, a table and a directory
in which the entry count is 0, every directory slot is unoccupied,
`total_data_storage` is 0, the table starts at block 1 and takes `fat_blocks`
blocks, block 0 and the blocks `1 .. fat_blocks` are marked busy while the
marks of all later blocks are as the allocated memory held them, and
`avail_data_blocks` is 4096 (`NUM_BLOCKS`). Of these it stores the super
block in block 0 and the image of the table, padded with zeros, in the blocks
`1 .. fat_blocks`; it writes no other block, so the directory is not stored. -/
theorem make_fs_result (L : Layout) (B N : Nat) (lhsFirst : Bool) (fat0 : Nat → fat_t)
    (dir0 : Nat → directory_t) (fds : Nat → Option fd_t) (disk0 : Nat → Nat → Byte)
    (hB : 0 < B) (hfit : 1 + fat_blocks L B N ≤ N) :
    ∃ st, make_fs L B N lhsFirst fat0 dir0 fds disk0 = some st ∧
      st.dir_size = 0 ∧
      (∀ i, i < MAX_NUM_FILES → (st.my_directory i).busy = false) ∧
      st.total_data_storage = 0 ∧
      st.fat_start_block = 1 ∧ st.fat_total_blocks = (fat_blocks L B N : Int) ∧
      st.dir_start_block = ((1 + fat_blocks L B N : Nat) : Int) ∧
      (∀ b, b ≤ fat_blocks L B N → (st.my_fat b).busy = true) ∧
      (∀ b, fat_blocks L B N < b → (st.my_fat b).busy = (fat0 b).busy) ∧
      st.avail_data_blocks = (NUM_BLOCKS : Int) ∧
      st.my_fds = fds ∧
      (∀ j, st.disk 0 j =
        if j < L.sizeof_super_block_t
        then sb_bytes L [st.dir_start_block, st.dir_size, st.fat_start_block,
          st.fat_total_blocks, st.total_data_storage, st.avail_data_blocks] j
        else 0) ∧
      (∀ b j, 1 ≤ b → b ≤ fat_blocks L B N → j < B →
        st.disk b j =
          if (b - 1) * B + j < N * L.sizeof_fat_t
          then L.fat_bytes st.my_fat ((b - 1) * B + j)
          else 0) ∧
      (∀ b, fat_blocks L B N < b → st.disk b = disk0 b) := by
  obtain ⟨st, h1, h2, h3, h4, h5, h6, h7, h8, h9, h10, h11⟩ :=
    make_fs_built L B N lhsFirst fat0 dir0 fds disk0 hB hfit
  obtain ⟨d1, d2, d3⟩ := make_fs_stored L B N lhsFirst fat0 dir0 fds disk0 st hB hfit h1
  refine ⟨st, h1, h2, ?_, h4, h5, h6, h7, h8, ?_, h10, h11, d1, d2, d3⟩
  · intro i hi
    rw [h3]
    simp only [if_pos hi]
  · intro b hb
    rw [h9 b hb]

/-- C14 at a concrete input: a device of 8192 blocks of 4096 bytes with the
layout `lp64le` (`sizeof(fat_t) = 8`). The table takes 16 blocks, blocks 0 to
16 are busy and hold the super block and the table; block 17 and the blocks
after it are not written. -/
theorem make_fs_result_witness :
    ∃ st, make_fs lp64le 4096 8192 true fresh.my_fat fresh.my_directory fresh.my_fds
        fresh.disk = some st ∧
      st.dir_size = 0 ∧
      (∀ i, i < MAX_NUM_FILES → (st.my_directory i).busy = false) ∧
      st.total_data_storage = 0 ∧
      st.fat_start_block = 1 ∧ st.fat_total_blocks = (fat_blocks lp64le 4096 8192 : Int) ∧
      st.dir_start_block = ((1 + fat_blocks lp64le 4096 8192 : Nat) : Int) ∧
      (∀ b, b ≤ fat_blocks lp64le 4096 8192 → (st.my_fat b).busy = true) ∧
      (∀ b, fat_blocks lp64le 4096 8192 < b → (st.my_fat b).busy = (fresh.my_fat b).busy) ∧
      st.avail_data_blocks = (NUM_BLOCKS : Int) ∧
      st.my_fds = fresh.my_fds ∧
      (∀ j, st.disk 0 j =
        if j < lp64le.sizeof_super_block_t
        then sb_bytes lp64le [st.dir_start_block, st.dir_size, st.fat_start_block,
          st.fat_total_blocks, st.total_data_storage, st.avail_data_blocks] j
        else 0) ∧
      (∀ b j, 1 ≤ b → b ≤ fat_blocks lp64le 4096 8192 → j < 4096 →
        st.disk b j =
          if (b - 1) * 4096 + j < 8192 * lp64le.sizeof_fat_t
          then lp64le.fat_bytes st.my_fat ((b - 1) * 4096 + j)
          else 0) ∧
      (∀ b, fat_blocks lp64le 4096 8192 < b → st.disk b = fresh.disk b) :=
  make_fs_result lp64le 4096 8192 true fresh.my_fat fresh.my_directory fresh.my_fds fresh.disk
    (by decide) (by decide)

/-- C14 (the claim as stated fails). On a device of 8192 blocks of 4096 bytes
with `sizeof(fat_t) = 8`, `make_fs` reserves block 0 and 16 blocks for the
table and sets `avail_data_blocks` to 4096, not to `8192 - (1 + 16) = 8175`. -/
theorem make_fs_counterexample :
    (make_fs lp64 4096 8192 true fresh.my_fat fresh.my_directory fresh.my_fds
        fresh.disk).map
      (fun st => (st.fat_start_block, st.fat_total_blocks, st.avail_data_blocks)) =
      some (1, 16, 4096) ∧
    (make_fs lp64 4096 8192 false fresh.my_fat fresh.my_directory fresh.my_fds
        fresh.disk).map
      (fun st => (st.fat_start_block, st.fat_total_blocks, st.avail_data_blocks)) =
      some (1, 16, 4096) ∧
    (4096 : Int) ≠ 8192 - (1 + 16) := by
  decide

/-! ## umount_fs -/

theorem sb_bytes_prefix (L : Layout) (f0 f1 f2 f3 a b a1 b1 : Int) (j : Nat)
    (hj : j < 4 * L.sizeof_int) :
    sb_bytes L [f0, f1, f2, f3, a, b] j = sb_bytes L [f0, f1, f2, f3, a1, b1] j := by
  unfold sb_bytes
  have hq : j / L.sizeof_int < 4 := by
    apply Nat.div_lt_of_lt_mul
    rw [Nat.mul_comm]; exact hj
  generalize j / L.sizeof_int = q at hq
  have hcases : q = 0 ∨ q = 1 ∨ q = 2 ∨ q = 3 := by omega
  rcases hcases with h | h | h | h <;> subst h <;> rfl

/-- The device after `umount_fs` does not depend on the table in memory, nor
on `total_data_storage` and `avail_data_blocks` when the first
`sizeof(my_sb)` bytes of the super block end before its fifth `int`. -/
theorem umount_fs_indep (L : Layout) (B N : Nat) (junk : Nat → fat_t) (st : State)
    (fat1 : Nat → fat_t) (total1 avail1 : Int) (h : L.sizeof_pointer ≤ 4 * L.sizeof_int) :
    umount_fs L B N junk
        { st with my_fat := fat1, total_data_storage := total1, avail_data_blocks := avail1 } =
      umount_fs L B N junk st := by
  unfold umount_fs
  simp only
  have e : (fun j => if j < L.sizeof_pointer
                then sb_bytes L [st.dir_start_block, st.dir_size, st.fat_start_block,
                  st.fat_total_blocks, total1, avail1] j
                else 0) =
      (fun j => if j < L.sizeof_pointer
                then sb_bytes L [st.dir_start_block, st.dir_size, st.fat_start_block,
                  st.fat_total_blocks, st.total_data_storage, st.avail_data_blocks] j
                else 0) := by
    funext j
    by_cases hj : j < L.sizeof_pointer
    · rw [if_pos hj, if_pos hj]
      exact sb_bytes_prefix L _ _ _ _ _ _ _ _ j (by omega)
    · rw [if_neg hj, if_neg hj]
  rw [e]

/-- C15 (the code at the failing input). Unmounting `wrote5` (the file "a"
of 5 bytes in block 4096, 8192 blocks of 4096 bytes, pointers of 8 bytes and
`int`s of 4): whatever bytes the records consist of and whatever the memory
allocated at line 227 holds, `umount_fs` leaves the same device for `wrote5`
as for the state with any other table, any other `total_data_storage` and any
other `avail_data_blocks`. What it stores determines none of the three, so no
later mount returns them. -/
theorem umount_fs_forgets_table (fb : (Nat → fat_t) → Nat → Byte)
    (db : (Nat → directory_t) → Nat → Byte) (ib : Int → Nat → Byte) (tl : Nat → Byte)
    (junk fat1 : Nat → fat_t) (total1 avail1 : Int) :
    (wrote5.my_fat 4096).busy = true ∧ wrote5.total_data_storage = 5 ∧
    (umount_fs { lp64 with fat_bytes := fb, dir_bytes := db, int_bytes := ib, sb_tail := tl }
        4096 8192 junk wrote5).isSome = true ∧
    umount_fs { lp64 with fat_bytes := fb, dir_bytes := db, int_bytes := ib, sb_tail := tl }
        4096 8192 junk
        { wrote5 with
            my_fat := fat1, total_data_storage := total1, avail_data_blocks := avail1 } =
      umount_fs { lp64 with fat_bytes := fb, dir_bytes := db, int_bytes := ib, sb_tail := tl }
        4096 8192 junk wrote5 :=
  ⟨by decide, by decide, rfl,
    umount_fs_indep _ 4096 8192 junk wrote5 fat1 total1 avail1
      (by show lp64.sizeof_pointer ≤ 4 * lp64.sizeof_int; decide)⟩

end FS
